import Mathlib

/-!
Verification of the topological-sort engine of `chob_tools`
(`src/chob_tools/algorithms/topological_sort.py`).

Python data is modelled as follows: a `dict` is an association list in
insertion order with unique keys (reassignment keeps the original position);
a `set` is a duplicate-free list in insertion order; a `deque` used as a FIFO
queue is a plain list (popleft = head, append = snoc); `defaultdict(int)` is
a total function `NT → Int`; an exception is a value of `PyErr` carried in
`Except`.  Generators are modelled by their full drain: the list of yielded
items together with the error (if any) raised at the point of exhaustion.

The node type `NT` is generic.  Python's dynamic typing enters in two places
and is made explicit as parameters: `pyTruthy : NT → Bool` models the
truthiness test `if node:` inside `_get_cycle`, and `asStr : NT → Option
String` models which node values are Python strings (`" -> ".join(cycle)`
inside `CycleError.__init__` raises `TypeError` when any element is not a
string, modelled by `asStr` returning `none`).

The recursive depth-first search inside `_get_cycle` is genuinely partial
(its memoisation is keyed on `(node, depth)`, so following a cycle that does
not pass through the target produces an unbounded chain of fresh search
states); it is therefore modelled with explicit fuel, fuel exhaustion
standing for Python's `RecursionError`.  The `@cache` decorator itself is
semantically transparent and is not modelled: within one search all cache
hits recompute identical results, and entries surviving across targets of
the starting-node loop are `None` entries whose reachable subgraph is
acyclic and cannot reach the later target (a path back would close a cycle
through that subgraph), so they equal what a fresh search would return.
-/

set_option maxRecDepth 100000

namespace ChobTools

variable {NT : Type} [DecidableEq NT]

/-- Keys of an association-list dict, in insertion order. -/
def dkeys {β : Type} (g : List (NT × β)) : List NT := g.map Prod.fst

/-- Dict lookup `d[k]`, as an `Option` (callers turn `none` into `KeyError`). -/
def dget {β : Type} (g : List (NT × β)) (k : NT) : Option β :=
  match g with
  | [] => none
  | (k', v) :: rest => if k' = k then some v else dget rest k

/-- Dict assignment `d[k] = v`: replace in place (Python dicts keep the original
insertion position on reassignment) or append a new entry at the end. -/
def dset {β : Type} (g : List (NT × β)) (k : NT) (v : β) : List (NT × β) :=
  match g with
  | [] => [(k, v)]
  | (k', v') :: rest => if k' = k then (k', v) :: rest else (k', v') :: dset rest k v

/-- Model of `d[k].append(x)` for a dict of lists.  When `k` is absent this is a
no-op; at every call site in the source `k` has just been made present. -/
def dappend {β : Type} (g : List (NT × List β)) (k : NT) (x : β) : List (NT × List β) :=
  match g with
  | [] => []
  | (k', l) :: rest =>
    if k' = k then (k', l ++ [x]) :: rest else (k', l) :: dappend rest k x

/-- Python `set.add` on a set modelled as a duplicate-free list in insertion order. -/
def sadd (s : List NT) (x : NT) : List NT := if x ∈ s then s else s ++ [x]

/-- Python exceptions the translated code can raise.  `cycleError` carries the
cycle list and the formatted message of `CycleError`; `typeError` stands for the
`TypeError` that `" -> ".join` raises on a non-string element (or on `None`);
`recursionError` stands for exceeding the interpreter's recursion limit. -/
inductive PyErr (NT : Type) where
  | valueError (msg : String)
  | cycleError (cycle : List NT) (msg : String)
  | typeError
  | keyError (k : NT)
  | recursionError
  deriving DecidableEq, Repr

/-- One neighbour of `_prepare_graph`'s inner loop: skip a self-reference;
otherwise ensure the neighbour is a key when it is not a key of the ORIGINAL
input, append the edge `node → neighbour` and increment the neighbour's
indegree. -/
def prepEdge (graph : List (NT × List NT)) (node : NT)
    (a : List (NT × List NT) × (NT → Int)) (nb : NT) :
    List (NT × List NT) × (NT → Int) :=
  if nb = node then a
  else
    let g1 := if (dget graph nb).isNone then dset a.1 nb ([] : List NT) else a.1
    (dappend g1 node nb, fun x => if x = nb then a.2 x + 1 else a.2 x)

/-- One `(node, neighbours)` item of `_prepare_graph`'s outer loop:
`new_graph[node] = []`, then the inner loop over the neighbours. -/
def prepStep (graph : List (NT × List NT)) (acc : List (NT × List NT) × (NT → Int))
    (node : NT) (nbs : List NT) : List (NT × List NT) × (NT → Int) :=
  nbs.foldl (prepEdge graph node) (dset acc.1 node ([] : List NT), acc.2)

/-- Model of `_prepare_graph` (the `graph_type='edges'` normalizer): canonical
adjacency dict plus indegree table. -/
def prepare_graph (graph : List (NT × List NT)) : List (NT × List NT) × (NT → Int) :=
  graph.foldl (fun acc p => prepStep graph acc p.1 p.2) ([], fun _ => 0)

/-- One dependency of `_get_edges_from_dependencies`' inner loop: skip a
self-reference; otherwise ensure the dependency is a key of the NEW dict,
append the reversed edge `dependency → node` and increment `node`'s
indegree. -/
def depEdge (node : NT) (a : List (NT × List NT) × (NT → Int)) (dep : NT) :
    List (NT × List NT) × (NT → Int) :=
  if dep = node then a
  else
    let g1 := if (dget a.1 dep).isNone then dset a.1 dep ([] : List NT) else a.1
    (dappend g1 dep node, fun x => if x = node then a.2 x + 1 else a.2 x)

/-- One `(node, dependencies)` item of `_get_edges_from_dependencies`' outer
loop: ensure `node` is a key of the NEW dict, then the inner loop. -/
def depStep (acc : List (NT × List NT) × (NT → Int)) (node : NT) (deps : List NT) :
    List (NT × List NT) × (NT → Int) :=
  deps.foldl (depEdge node)
    (if (dget acc.1 node).isNone then dset acc.1 node ([] : List NT) else acc.1, acc.2)

/-- Model of `_get_edges_from_dependencies` (the `graph_type='dependencies'`
normalizer). -/
def get_edges_from_dependencies (graph : List (NT × List NT)) :
    List (NT × List NT) × (NT → Int) :=
  graph.foldl (fun acc p => depStep acc p.1 p.2) ([], fun _ => 0)

/-- Inner recursive `dfs(curr, level)` of `_get_cycle`, searching `graph` for
a path back to `target` (hit only at `level ≠ 0`), together with its
`for neighbour in graph[curr]` loop; the two mutually recursive pieces are
fused into one fuel-structural function via a sum-typed mode (`.inl curr` =
enter a node, `.inr nbs` = continue a neighbour loop) so that the kernel can
evaluate it.  `.ok none` is Python's `None` (no cycle through this state); a
`KeyError` is raised when `graph[curr]` is missing; fuel exhaustion models
`RecursionError` (fuel is consumed on every step, so it bounds depth plus
breadth; every theorem about divergence quantifies over all fuel). -/
def cycleSearch (graph : List (NT × List NT)) (target : NT) :
    Nat → NT ⊕ List NT → Nat → Except (PyErr NT) (Option (List NT))
  | 0, _, _ => .error .recursionError
  | fuel + 1, .inl curr, level =>
    if curr = target ∧ level ≠ 0 then .ok (some [curr])
    else
      match dget graph curr with
      | none => .error (.keyError curr)
      | some nbs =>
        if nbs.length = 0 then .ok none
        else
          match cycleSearch graph target fuel (.inr nbs) (level + 1) with
          | .error e => .error e
          | .ok (some p) => .ok (some (curr :: p))
          | .ok none => .ok none
  | _ + 1, .inr [], _ => .ok none
  | fuel + 1, .inr (nb :: rest), level =>
    match cycleSearch graph target fuel (.inl nb) level with
    | .error e => .error e
    | .ok (some p) => .ok (some p)
    | .ok none => cycleSearch graph target fuel (.inr rest) level

/-- Entry of `_get_cycle`'s inner dfs at a node. -/
def cycleDfs (graph : List (NT × List NT)) (target : NT) (fuel : Nat) (curr : NT)
    (level : Nat) : Except (PyErr NT) (Option (List NT)) :=
  cycleSearch graph target fuel (.inl curr) level

/-- The `for node in graph` fallback loop of `_get_cycle` (no truthy starting
node): try each key in insertion order as target, returning the first truthy
(non-empty) path. -/
def getCycleLoop (graph : List (NT × List NT)) (fuel : Nat) :
    List NT → Except (PyErr NT) (Option (List NT))
  | [] => .ok none
  | n :: rest =>
    match cycleDfs graph n fuel n 0 with
    | .error e => .error e
    | .ok r => if (r.getD []).length ≠ 0 then .ok r else getCycleLoop graph fuel rest

/-- Model of `_get_cycle(graph, node=None)`.  Python's `if node:` truthiness
test is `pyTruthy`; a falsy start (including the `None` default) falls through
to the loop over all keys. -/
def get_cycle (pyTruthy : NT → Bool) (graph : List (NT × List NT))
    (start : Option NT) (fuel : Nat) : Except (PyErr NT) (Option (List NT)) :=
  match start with
  | some n =>
    if pyTruthy n then cycleDfs graph n fuel n 0
    else getCycleLoop graph fuel (dkeys graph)
  | none => getCycleLoop graph fuel (dkeys graph)

/-- All-strings check for `" -> ".join(cycle)`: `some` of the string list when
every element is a Python string, else `none` (join raises `TypeError`). -/
def allStrings (asStr : NT → Option String) : List NT → Option (List String)
  | [] => some []
  | n :: rest =>
    match asStr n, allStrings asStr rest with
    | some s, some l => some (s :: l)
    | _, _ => none

/-- Model of constructing `CycleError(cycle)`: the message string-joins the
cycle with `" -> "`.  A `None` cycle or any non-string element makes the join
raise `TypeError` instead, so no `CycleError` value exists in those cases. -/
def mkCycleError (asStr : NT → Option String) (cycle : Option (List NT)) : PyErr NT :=
  match cycle with
  | none => .typeError
  | some c =>
    match allStrings asStr c with
    | none => .typeError
    | some strs =>
      .cycleError c ("Cycle detected in graph: " ++ String.intercalate " -> " strs ++ ".")

/-- Model of `_check_cycle`: when fewer nodes were visited than the canonical
graph has keys, locate a cycle in the induced subgraph of unvisited nodes and
raise `CycleError` on it (`none` = no error). -/
def check_cycle (pyTruthy : NT → Bool) (asStr : NT → Option String)
    (graph : List (NT × List NT)) (visited : List NT) (fuel : Nat) :
    Option (PyErr NT) :=
  if visited.length < graph.length then
    match get_cycle pyTruthy (graph.filter (fun p => decide (p.1 ∉ visited))) none fuel with
    | .error e => some e
    | .ok cyc => some (mkCycleError asStr cyc)
  else none

/-- The inner neighbour loop shared by `_node_generator` and `_group_generator`:
decrement each neighbour's indegree in turn, appending to `out` (the queue,
resp. `next_degree`) every neighbour whose indegree reaches exactly zero. -/
def bfsRelax (ind : NT → Int) (out : List NT) : List NT → (NT → Int) × List NT
  | [] => (ind, out)
  | nb :: rest =>
    let ind' : NT → Int := fun x => if x = nb then ind x - 1 else ind x
    bfsRelax ind' (if ind' nb = 0 then out ++ [nb] else out) rest

/-- Full drain of `_node_generator`: the yielded nodes in order, and the error
(if any) raised at the exhaustion point.  A node is yielded before its
neighbours are processed, so a failure never retracts a yield.  The fuel-0
branch is an artifact of the encoding: the supplied fuel always dominates the
number of loop iterations (each node's indegree crosses zero at most once, so
each node is enqueued at most once past the initial queue). -/
def nodeGenRun (pyTruthy : NT → Bool) (asStr : NT → Option String)
    (graph : List (NT × List NT)) (cfuel : Nat) :
    Nat → List NT → (NT → Int) → List NT → List NT × Option (PyErr NT)
  | _, [], _, visited => ([], check_cycle pyTruthy asStr graph visited cfuel)
  | 0, _ :: _, _, _ => ([], some .recursionError)
  | fuel + 1, node :: queue, ind, visited =>
    let visited' := sadd visited node
    match dget graph node with
    | none => ([node], some (.keyError node))
    | some nbs =>
      let r := bfsRelax ind queue nbs
      let rest := nodeGenRun pyTruthy asStr graph cfuel fuel r.2 r.1 visited'
      (node :: rest.1, rest.2)

/-- Full drain of `_group_generator`: the yielded batches in order, and the
error (if any) raised at the exhaustion point.  Newly zero-indegree nodes are
collected into `next_degree`; when the queue empties the finished batch is
yielded (sorted when `sort_groups`) and `next_degree` is promoted to be the new
queue.  The fuel-0 branch is unreachable for the fuel supplied by the entry
points, as for `nodeGenRun`. -/
def groupGenRun [LinearOrder NT] (pyTruthy : NT → Bool) (asStr : NT → Option String)
    (sort_groups : Bool) (graph : List (NT × List NT)) (cfuel : Nat) :
    Nat → List NT → (NT → Int) → List NT → List NT → List NT →
    List (List NT) × Option (PyErr NT)
  | _, [], _, visited, _, _ => ([], check_cycle pyTruthy asStr graph visited cfuel)
  | 0, _ :: _, _, _, _, _ => ([], some .recursionError)
  | fuel + 1, node :: queue, ind, visited, batch, nextd =>
    let visited' := sadd visited node
    let batch' := batch ++ [node]
    match dget graph node with
    | none => ([], some (.keyError node))
    | some nbs =>
      let r := bfsRelax ind nextd nbs
      if queue = [] then
        let b := if sort_groups then batch'.insertionSort (· ≤ ·) else batch'
        let rest := groupGenRun pyTruthy asStr sort_groups graph cfuel fuel r.2 r.1 visited' [] []
        (b :: rest.1, rest.2)
      else
        groupGenRun pyTruthy asStr sort_groups graph cfuel fuel queue r.1 visited' batch' r.2

/-- Stand-in for Python's recursion limit: the fuel handed to the cycle
locator's depth-first search by the entry points. -/
def recLimit : Nat := 1000

/-- Result shape of the engine: a flat node list (`return_type='nodes'`) or a
list of batches (`return_type='groups'`). -/
inductive TSResult (NT : Type) where
  | nodes (l : List NT)
  | groups (l : List (List NT))
  deriving DecidableEq, Repr

/-- Model of draining `topological_sort_generator(graph, return_type,
sort_groups=, graph_type=)` to exhaustion: the yielded items (flat nodes on the
left, batches on the right) and the error, if any, raised at the exhaustion
point.  The source generator performs NO validation: any `graph_type` other
than `'dependencies'` takes the `'edges'` branch and any `return_type` other
than `'nodes'` takes the `'groups'` branch. -/
def generatorDrain [LinearOrder NT] (pyTruthy : NT → Bool) (asStr : NT → Option String)
    (graph : List (NT × List NT)) (return_type : String) (sort_groups : Bool)
    (graph_type : String) : (List NT ⊕ List (List NT)) × Option (PyErr NT) :=
  let p := if graph_type = "dependencies" then get_edges_from_dependencies graph
           else prepare_graph graph
  let q := (dkeys p.1).filter (fun k => decide (p.2 k = 0))
  let fuel := p.1.length + q.length + 2
  if return_type = "nodes" then
    if sort_groups then
      let r := groupGenRun pyTruthy asStr true p.1 recLimit fuel q p.2 [] [] []
      (.inl r.1.flatten, r.2)
    else
      let r := nodeGenRun pyTruthy asStr p.1 recLimit fuel q p.2 []
      (.inl r.1, r.2)
  else
    let r := groupGenRun pyTruthy asStr sort_groups p.1 recLimit fuel q p.2 [] [] []
    (.inr r.1, r.2)

/-- Model of `_bfs_topological_sort` = `list(topological_sort_generator(...))`:
materializing the drain propagates the generator's error, if any. -/
def bfs_topological_sort [LinearOrder NT] (pyTruthy : NT → Bool)
    (asStr : NT → Option String) (graph : List (NT × List NT))
    (return_type : String) (sort_groups : Bool) (graph_type : String) :
    Except (PyErr NT) (TSResult NT) :=
  match generatorDrain pyTruthy asStr graph return_type sort_groups graph_type with
  | (_, some e) => .error e
  | (.inl l, none) => .ok (.nodes l)
  | (.inr l, none) => .ok (.groups l)

/-- Inner recursive `dfs(node)` of `_dfs_topological_sort`, fused with its
`for neighbour in new_graph[node]` loop into one fuel-structural function
(mode `.inl node` = visit a node, mode `.inr nbs` = continue a neighbour
loop), so that the kernel can evaluate it.  `cv` is `currently_visiting` (the
active recursion path, used only for membership); the returned list is
`visited` = `sorted_list` (their contents and order coincide: both are
appended exactly when a node finishes).  On revisiting an active node the
cycle locator is seeded with the ORIGINAL input mapping `graph`, not the
canonical `new_graph`.  Fuel is consumed on every step; the entry points hand
over `graphSize new_graph`, which always suffices (proved below), so the
fuel-0 branch is an encoding artifact. -/
def dfsWalk (pyTruthy : NT → Bool) (asStr : NT → Option String)
    (graph new_graph : List (NT × List NT)) :
    Nat → List NT → List NT → NT ⊕ List NT → Except (PyErr NT) (List NT)
  | 0, _, _, _ => .error .recursionError
  | fuel + 1, cv, visited, .inl node =>
    if node ∈ cv then
      match get_cycle pyTruthy graph (some node) recLimit with
      | .error e => .error e
      | .ok cyc => .error (mkCycleError asStr cyc)
    else
      match dget new_graph node with
      | none => .error (.keyError node)
      | some nbs =>
        match dfsWalk pyTruthy asStr graph new_graph fuel (cv ++ [node]) visited (.inr nbs) with
        | .error e => .error e
        | .ok visited' => .ok (visited' ++ [node])
  | _ + 1, _, visited, .inr [] => .ok visited
  | fuel + 1, cv, visited, .inr (nb :: rest) =>
    if nb ∈ visited then dfsWalk pyTruthy asStr graph new_graph fuel cv visited (.inr rest)
    else
      match dfsWalk pyTruthy asStr graph new_graph fuel cv visited (.inl nb) with
      | .error e => .error e
      | .ok visited' => dfsWalk pyTruthy asStr graph new_graph fuel cv visited' (.inr rest)

/-- Entry of the inner dfs at a node. -/
def dfsVisit (pyTruthy : NT → Bool) (asStr : NT → Option String)
    (graph new_graph : List (NT × List NT)) (fuel : Nat) (cv visited : List NT)
    (node : NT) : Except (PyErr NT) (List NT) :=
  dfsWalk pyTruthy asStr graph new_graph fuel cv visited (.inl node)

/-- Fuel budget that dominates the dfs call tree: one unit per key plus one
per adjacency-list cell, plus one. -/
def graphSize (G : List (NT × List NT)) : Nat :=
  (G.map (fun p => p.2.length + 1)).sum + 1

/-- The `for node in new_graph` top-level loop of `_dfs_topological_sort`. -/
def dfsTopLoop (pyTruthy : NT → Bool) (asStr : NT → Option String)
    (graph new_graph : List (NT × List NT)) :
    List NT → List NT → Except (PyErr NT) (List NT)
  | [], visited => .ok visited
  | n :: rest, visited =>
    if n ∈ visited then dfsTopLoop pyTruthy asStr graph new_graph rest visited
    else
      match dfsVisit pyTruthy asStr graph new_graph (graphSize new_graph) [] visited n with
      | .error e => .error e
      | .ok v' => dfsTopLoop pyTruthy asStr graph new_graph rest v'

/-- Model of `_dfs_topological_sort`: normalize, run the recursive dfs over all
keys, and return the reversed post-order list. -/
def dfs_topological_sort (pyTruthy : NT → Bool) (asStr : NT → Option String)
    (graph : List (NT × List NT)) (graph_type : String) :
    Except (PyErr NT) (List NT) :=
  let p := if graph_type = "dependencies" then get_edges_from_dependencies graph
           else prepare_graph graph
  match dfsTopLoop pyTruthy asStr graph p.1 (dkeys p.1) [] with
  | .error e => .error e
  | .ok visited => .ok visited.reverse

/-- Message of the `ValueError` raised by `_validate_return_type`. -/
def returnTypeMsg (return_type : String) : String :=
  "Return type \"" ++ return_type ++ "\", invalid. " ++
    "Return type must be \"nodes\" or \"groups\"."

/-- Message of the `ValueError` raised by `_validate_graph_type`. -/
def graphTypeMsg (graph_type : String) : String :=
  "Graph type \"" ++ graph_type ++ "\", invalid. " ++
    "Graph type must be \"edges\" or \"dependencies\"."

/-- Message of the `ValueError` raised for an unrecognized `method`. -/
def methodMsg (method : String) : String :=
  "Method \"" ++ method ++ "\", invalid. " ++ "Method must be \"bfs\" or \"dfs\"."

/-- Message of the `ValueError` raised for `method='dfs'` with
`return_type='groups'`. -/
def dfsGroupsMsg : String :=
  "If sort method is depth-first search, " ++ "return type must be \"nodes\"."

/-- Message of the `ValueError` raised for `method='dfs'` with
`sort_groups=True`. -/
def dfsSortGroupsMsg : String :=
  "If sort method is depth-first search, " ++ "cannot sort indegree groups."

/-- Model of `_validate_return_type` (`none` = valid). -/
def validate_return_type (NT : Type) (return_type : String) : Option (PyErr NT) :=
  if return_type = "nodes" ∨ return_type = "groups" then none
  else some (.valueError (returnTypeMsg return_type))

/-- Model of `_validate_graph_type` (`none` = valid). -/
def validate_graph_type (NT : Type) (graph_type : String) : Option (PyErr NT) :=
  if graph_type = "edges" ∨ graph_type = "dependencies" then none
  else some (.valueError (graphTypeMsg graph_type))

/-- Model of `topological_sort`: validate `return_type` then `graph_type`,
dispatch on `method` (`'bfs'` materializes the generator; `'dfs'` additionally
rejects `return_type ≠ 'nodes'` and `sort_groups`), and reject any other
`method` value. -/
def topological_sort [LinearOrder NT] (pyTruthy : NT → Bool)
    (asStr : NT → Option String) (graph : List (NT × List NT)) (method : String)
    (return_type : String) (sort_groups : Bool) (graph_type : String) :
    Except (PyErr NT) (TSResult NT) :=
  match validate_return_type NT return_type with
  | some e => .error e
  | none =>
    match validate_graph_type NT graph_type with
    | some e => .error e
    | none =>
      if method = "bfs" then
        bfs_topological_sort pyTruthy asStr graph return_type sort_groups graph_type
      else if method = "dfs" then
        if return_type ≠ "nodes" then .error (.valueError dfsGroupsMsg)
        else if sort_groups then .error (.valueError dfsSortGroupsMsg)
        else
          match dfs_topological_sort pyTruthy asStr graph graph_type with
          | .error e => .error e
          | .ok l => .ok (.nodes l)
      else .error (.valueError (methodMsg method))

/-- Python truthiness of a string: non-empty. -/
def strTruthy (s : String) : Bool := s != ""

/-- String nodes are Python strings. -/
def strAsStr : String → Option String := some

/-- The engine at string-typed nodes, as exercised by the repository's tests. -/
def topoSortStr (graph : List (String × List String)) (method : String)
    (return_type : String) (sort_groups : Bool) (graph_type : String) :
    Except (PyErr String) (TSResult String) :=
  topological_sort strTruthy strAsStr graph method return_type sort_groups graph_type

/-- Canonical graph of an input under a given `graph_type` (any value other
than `'dependencies'` selects the `'edges'` normalizer, as in the source). -/
def canonical (graph : List (NT × List NT)) (graph_type : String) :
    List (NT × List NT) :=
  (if graph_type = "dependencies" then get_edges_from_dependencies graph
   else prepare_graph graph).1

/-- Indegree table of an input under a given `graph_type` (the second
component the normalizer returns alongside the canonical graph). -/
def canonInd (graph : List (NT × List NT)) (graph_type : String) : NT → Int :=
  (if graph_type = "dependencies" then get_edges_from_dependencies graph
   else prepare_graph graph).2

/-- The initial queue the generator builds: the canonical keys of indegree
zero, in insertion order. -/
def canonQueue (graph : List (NT × List NT)) (graph_type : String) : List NT :=
  (dkeys (canonical graph graph_type)).filter
    (fun k => decide (canonInd graph graph_type k = 0))

/-- Edge `u → v` of an adjacency assoc-list: some entry keyed `u` lists `v`. -/
def EdgeOf (G : List (NT × List NT)) (u v : NT) : Prop :=
  ∃ p ∈ G, p.1 = u ∧ v ∈ p.2

/-- Acyclicity of an adjacency assoc-list: no node reaches itself through a
non-empty chain of edges. -/
def Acyclic (G : List (NT × List NT)) : Prop :=
  ∀ v, ¬ Relation.TransGen (EdgeOf G) v v

/-- Witness-friendly acyclicity: a rank function strictly increasing along
every edge (decidable on a concrete graph, and implying `Acyclic`). -/
def RankOk (G : List (NT × List NT)) (rank : NT → Nat) : Prop :=
  ∀ p ∈ G, ∀ v ∈ p.2, rank p.1 < rank v

/-- The keys of an input dict are distinct (dicts cannot repeat keys, so this
is part of modelling a Python dict as an association list). -/
def PyDict (graph : List (NT × List NT)) : Prop := (dkeys graph).Nodup

/-- In-degree of `v` in an adjacency assoc-list, counting edge multiplicity. -/
def inDegAll (G : List (NT × List NT)) (v : NT) : Nat :=
  (G.map (fun p => p.2.count v)).sum

/-- Number of edges into `v` whose source lies in `vis` (with multiplicity;
sources looked up in `G`). -/
def inCnt (G : List (NT × List NT)) (vis : List NT) (v : NT) : Nat :=
  (vis.map (fun u => ((dget G u).getD []).count v)).sum

/-- Membership of `v` among u's listed neighbours in the ORIGINAL input
mapping (the relation walked by `_get_cycle`). -/
def InputAdj (g : List (NT × List NT)) (u v : NT) : Prop :=
  v ∈ ((dget g u).getD [])

/-- u appears strictly before v in `l` (positions of first occurrences; the
lists this is used on are duplicate-free). -/
def Before (l : List NT) (u v : NT) : Prop :=
  u ∈ l ∧ v ∈ l ∧ l.indexOf u < l.indexOf v

/-- u's batch strictly precedes v's batch in a list of batches. -/
def GroupsBefore (gs : List (List NT)) (u v : NT) : Prop :=
  ∃ i j, i < j ∧ (∃ b, gs.get? i = some b ∧ u ∈ b) ∧
    (∃ b, gs.get? j = some b ∧ v ∈ b)

/-- Substring containment, for statements about error-message contents. -/
def ContainsSub (s t : String) : Prop := List.IsInfix t.toList s.toList

/-- Deletion of every self-reference from the neighbour lists of a mapping. -/
def delSelf (g : List (NT × List NT)) : List (NT × List NT) :=
  g.map (fun p => (p.1, p.2.filter (fun x => decide (x ≠ p.1))))

/-- Result equivalence up to the identity of errors: equal successes, or both
failures. -/
def ExceptOkEq {ε α : Type} (x y : Except ε α) : Prop :=
  (∃ a, x = .ok a ∧ y = .ok a) ∨ ((∃ e, x = .error e) ∧ (∃ e, y = .error e))

/-- Property of an error value: any `cycleError` payload it carries is a
non-empty list of Python strings. -/
def StringCyclePayload (asStr : NT → Option String) (e : PyErr NT) : Prop :=
  ∀ c msg, e = .cycleError c msg → c ≠ [] ∧ ∀ n ∈ c, ∃ s, asStr n = some s

/-- Every predecessor (edge source) of the i-th element appears strictly
earlier in the list. -/
def PredsBefore (G : List (NT × List NT)) (vis : List NT) : Prop :=
  ∀ i v, vis.get? i = some v → ∀ u, EdgeOf G u v → u ∈ vis.take i

/-- Every successor (edge target) of the i-th element appears strictly earlier
in the list (the shape of a dfs post-order). -/
def SuccsBefore (G : List (NT × List NT)) (vis : List NT) : Prop :=
  ∀ i v, vis.get? i = some v → ∀ w, EdgeOf G v w → w ∈ vis.take i

/-- Invariant of Kahn's frontier loop over the canonical graph `G`: the
visited list and queue are disjoint duplicate-free key lists, the indegree
table counts exactly the edges from unvisited sources, a node is visited or
queued exactly when all its incoming edges come from visited sources, and the
visited list respects the edge order. -/
structure KahnInv (G : List (NT × List NT)) (q : List NT) (ind : NT → Int)
    (vis : List NT) : Prop where
  visNodup : vis.Nodup
  qNodup : q.Nodup
  qFresh : ∀ x ∈ q, x ∉ vis
  qKeys : ∀ x ∈ q, x ∈ dkeys G
  visKeys : ∀ x ∈ vis, x ∈ dkeys G
  indEq : ∀ v, ind v = (inDegAll G v : Int) - (inCnt G vis v : Int)
  closure : ∀ v ∈ dkeys G, ((v ∈ vis ∨ v ∈ q) ↔ inCnt G vis v = inDegAll G v)
  ordered : PredsBefore G vis

/-- Invariant of the batch-producing loop: the underlying Kahn invariant over
the virtual frontier `q ++ nextd`, plus the batch bookkeeping — yielded
batches followed by the open batch make up the visited list, sources of edges
into queued nodes lie in already-yielded batches, sources of edges into
`next_degree` nodes are already visited, and every yielded batch only has
edge sources in strictly earlier batches. -/
structure GroupInv (G : List (NT × List NT)) (gs : List (List NT)) (q : List NT)
    (ind : NT → Int) (vis batch nextd : List NT) : Prop where
  base : KahnInv G (q ++ nextd) ind vis
  decomp : (gs.flatten ++ batch).Perm vis
  qPreds : ∀ v ∈ q, ∀ u, EdgeOf G u v → u ∈ gs.flatten
  ndPreds : ∀ v ∈ nextd, ∀ u, EdgeOf G u v → u ∈ vis
  batchPreds : ∀ v ∈ batch, ∀ u, EdgeOf G u v → u ∈ gs.flatten
  gsOrder : ∀ i b, gs.get? i = some b → ∀ v ∈ b, ∀ u, EdgeOf G u v →
    u ∈ (gs.take i).flatten

/-- Decreasing measure of the frontier loop: unreached keys plus queue
length. -/
def bfsMeasure (G : List (NT × List NT)) (vis q : List NT) : Nat :=
  ((dkeys G).filter fun k => decide (k ∉ vis) && decide (k ∉ q)).length + q.length

/-- Fuel needed by the dfs walk below the active path `cv` with `visited`
already finished: one unit per still-enterable key plus one per cell of its
adjacency list. -/
def dfsCost (G : List (NT × List NT)) (cv visited : List NT) : Nat :=
  ((G.filter fun p => decide (p.1 ∉ cv) && decide (p.1 ∉ visited)).map
    (fun p => p.2.length + 1)).sum

/-- A concrete rank function certifying that the spec's scenario graph is
acyclic: `D` at depth 0, `B` and `C` at depth 1, everything else at depth 2. -/
def tRank (s : String) : Nat :=
  if s = "D" then 0 else if s = "B" ∨ s = "C" then 1 else 2

/-- Invariant of `_prepare_graph`'s outer fold, stated against the ORIGINAL
input `g` and the key list `sufKeys` of the input items not yet processed:
the accumulated dict has duplicate-free keys, its indegree table is exact,
every edge target is already a key or an unprocessed input key, unprocessed
input keys are not yet keys, every key that is not an input key carries an
empty neighbour list, and every processed input key is present. -/
structure PrepInv (g : List (NT × List NT)) (sufKeys : List NT)
    (A : List (NT × List NT)) (ind : NT → Int) : Prop where
  nodup : (dkeys A).Nodup
  indeg : ∀ v, ind v = (inDegAll A v : Int)
  closure : ∀ u v, EdgeOf A u v → v ∈ dkeys A ∨ v ∈ sufKeys
  notSuf : ∀ k ∈ sufKeys, k ∉ dkeys A
  empties : ∀ k ∈ dkeys A, k ∉ dkeys g → dget A k = some []
  done : ∀ k ∈ dkeys g, k ∉ sufKeys → k ∈ dkeys A

/-- Invariant of `_get_edges_from_dependencies`' fold: duplicate-free keys, an
exact indegree table, and key-closure of edge targets (this normalizer checks
key membership in the dict being built, so no reference to the input or to
the unprocessed suffix is needed). -/
structure DepInv (A : List (NT × List NT)) (ind : NT → Int) : Prop where
  nodup : (dkeys A).Nodup
  indeg : ∀ v, ind v = (inDegAll A v : Int)
  closure : ∀ u v, EdgeOf A u v → v ∈ dkeys A

/-- Invariant of the dfs `visited` list: a duplicate-free list of keys whose
successors all appear strictly earlier (the shape of a post-order). -/
structure DfsInv (G : List (NT × List NT)) (visited : List NT) : Prop where
  nodup : visited.Nodup
  keys : ∀ x ∈ visited, x ∈ dkeys G
  ordered : SuccsBefore G visited

/-- Concrete graph of the spec's scenario: `{'D': ['B','C'], 'C': ['A','C','E'],
'B': ['A']}`. -/
def tGraph : List (String × List String) :=
  [("D", ["B", "C"]), ("C", ["A", "C", "E"]), ("B", ["A"])]

/-- Cyclic graph on which bfs raises `CycleError` but dfs raises `KeyError`:
the referenced node `X` is not a key, and the dfs cycle locator searches the
original mapping. -/
def tGraphKeyErr : List (String × List String) := [("A", ["X", "B"]), ("B", ["A"])]

/-- Cyclic graph on which the cycle locator diverges: the first candidate
start node `X` reaches the cycle `B ↔ C`, which does not pass through `X`,
so the `(node, depth)`-memoised search recurses without bound. -/
def tGraphDiverge : List (String × List String) :=
  [("X", ["B"]), ("B", ["C"]), ("C", ["B", "X"])]

/-- Cyclic graph with a self-loop on `A`. -/
def tGraphSelf : List (String × List String) := [("A", ["A", "B"]), ("B", ["A"])]

/-- The same graph with the self-reference deleted. -/
def tGraphNoSelf : List (String × List String) := [("A", ["B"]), ("B", ["A"])]

/-- Dependency-flavoured 3-cycle used to exhibit that the dfs cycle path
follows the input mapping's own (dependency) direction. -/
def tGraphDeps : List (String × List String) :=
  [("A", ["B"]), ("B", ["C"]), ("C", ["A"])]

/-- A cyclic graph whose nodes are integers, not strings. -/
def tGraphInt : List (Int × List Int) := [(0, [1]), (1, [0])]

/-- Truthiness of a Python int: non-zero. -/
def intTruthy (n : Int) : Bool := n != 0

/-- Int nodes are not Python strings. -/
def intAsStr : Int → Option String := fun _ => none

/-!  Theorems.  First the claim-level results that evaluate the model on
concrete inputs, then the general lemmas and the main correctness theorems. -/

/-- C3 counterexample: `topological_sort` rejects `return_type='bananas'`
with an invalid-argument error, but draining
`topological_sort_generator` on the very same arguments raises no error at
all — it silently treats the unrecognized value as `'groups'` and yields the
batch `['a']`.  The streaming entry point therefore does NOT perform the same
parameter validation. -/
theorem C3_counterexample :
    topoSortStr [("a", [])] "bfs" "bananas" false "edges" =
      .error (.valueError (returnTypeMsg "bananas")) ∧
    generatorDrain strTruthy strAsStr [("a", [])] "bananas" false "edges" =
      (.inr [["a"]], none) :=
  ⟨rfl, rfl⟩

/-- Facade dispatch on valid arguments: `method='bfs'` materializes the
generator drain. -/
theorem ts_bfs_eq [LinearOrder NT] (pyTruthy : NT → Bool) (asStr : NT → Option String)
    (g : List (NT × List NT)) (rt : String) (sg : Bool) (gt : String)
    (hrt : rt = "nodes" ∨ rt = "groups") (hgt : gt = "edges" ∨ gt = "dependencies") :
    topological_sort pyTruthy asStr g "bfs" rt sg gt =
      bfs_topological_sort pyTruthy asStr g rt sg gt := by
  rcases hrt with h | h <;> rcases hgt with h2 | h2 <;> subst h <;> subst h2 <;> rfl

/-- Draining `_node_generator` from an empty queue immediately runs the cycle
check. -/
theorem nodeGenRun_nil (pyTruthy : NT → Bool) (asStr : NT → Option String)
    (G : List (NT × List NT)) (cf fuel : Nat) (ind : NT → Int) (vis : List NT) :
    nodeGenRun pyTruthy asStr G cf fuel [] ind vis =
      ([], check_cycle pyTruthy asStr G vis cf) := by
  cases fuel <;> rfl

/-- Containment of the right component of a string append. -/
theorem containsSub_self_right (a b : String) : ContainsSub (a ++ b) b := by
  unfold ContainsSub
  exact ⟨a.toList, [], by simp [String.toList, String.data_append]⟩

/-- Containment survives appending on the right. -/
theorem containsSub_append_left {x t : String} (h : ContainsSub x t) (y : String) :
    ContainsSub (x ++ y) t := by
  obtain ⟨s, u, hh⟩ := h
  refine ⟨s, u ++ y.toList, ?_⟩
  simp only [String.toList, String.data_append] at hh ⊢
  rw [← hh]
  simp

/-- Containment survives appending on the left. -/
theorem containsSub_append_right {y t : String} (x : String) (h : ContainsSub y t) :
    ContainsSub (x ++ y) t := by
  obtain ⟨s, u, hh⟩ := h
  refine ⟨x.toList ++ s, u, ?_⟩
  simp only [String.toList, String.data_append] at hh ⊢
  rw [← hh]
  simp

/-- C3 as amended: the streaming entry point performs the bfs normalization
and dispatch but NO validation: on valid arguments `topological_sort` with
`method='bfs'` is exactly the materialized drain of the generator, while an
unrecognized `return_type` silently behaves as `'groups'` and an unrecognized
`graph_type` as `'edges'`, with no error raised. -/
theorem C3_amended [LinearOrder NT] (pyTruthy : NT → Bool) (asStr : NT → Option String)
    (g : List (NT × List NT)) :
    (∀ rt sg gt, (rt = "nodes" ∨ rt = "groups") → (gt = "edges" ∨ gt = "dependencies") →
      topological_sort pyTruthy asStr g "bfs" rt sg gt =
        bfs_topological_sort pyTruthy asStr g rt sg gt) ∧
    (∀ rt sg gt, rt ≠ "nodes" →
      generatorDrain pyTruthy asStr g rt sg gt =
        generatorDrain pyTruthy asStr g "groups" sg gt) ∧
    (∀ rt sg gt, gt ≠ "dependencies" →
      generatorDrain pyTruthy asStr g rt sg gt =
        generatorDrain pyTruthy asStr g rt sg "edges") := by
  refine ⟨fun rt sg gt hrt hgt => ts_bfs_eq pyTruthy asStr g rt sg gt hrt hgt, ?_, ?_⟩
  · intro rt sg gt hrt
    simp only [generatorDrain, if_neg hrt,
      if_neg (show ¬("groups" : String) = "nodes" by decide)]
  · intro rt sg gt hgt
    simp only [generatorDrain, if_neg hgt,
      if_neg (show ¬("edges" : String) = "dependencies" by decide)]

/-- Witness for the amended C3 at a concrete graph. -/
theorem C3_amended_witness :
    topological_sort strTruthy strAsStr [("a", [])] "bfs" "nodes" false "edges" =
      bfs_topological_sort strTruthy strAsStr [("a", [])] "nodes" false "edges" ∧
    generatorDrain strTruthy strAsStr [("a", [])] "bananas" false "edges" =
      generatorDrain strTruthy strAsStr [("a", [])] "groups" false "edges" :=
  ⟨(C3_amended strTruthy strAsStr [("a", [])]).1 "nodes" false "edges"
      (Or.inl rfl) (Or.inl rfl),
    (C3_amended strTruthy strAsStr [("a", [])]).2.1 "bananas" false "edges" (by decide)⟩

/-- C5 counterexample: the error raised for `method='dfs'` with
`return_type='groups'` does not name the offending values: its message
contains neither the substring `groups` nor the substring `dfs`. -/
theorem C5_counterexample :
    topoSortStr tGraph "dfs" "groups" false "edges" =
      .error (.valueError dfsGroupsMsg) ∧
    ¬ ContainsSub dfsGroupsMsg "groups" ∧ ¬ ContainsSub dfsGroupsMsg "dfs" := by
  refine ⟨rfl, ?_, ?_⟩ <;> (unfold ContainsSub; decide)

/-- C5 as amended: `topological_sort` raises an invalid-argument `ValueError`,
independently of the graph, for each of the five invalid cases; the three
unrecognized-value messages contain the offending value and both allowed
alternatives, the dfs+groups message names the allowed return type `nodes`,
and the dfs+sort_groups message only describes the conflict. -/
theorem C5_amended [LinearOrder NT] (pyTruthy : NT → Bool) (asStr : NT → Option String) :
    (∀ (g : List (NT × List NT)) m rt sg gt,
      (rt = "nodes" ∨ rt = "groups") → (gt = "edges" ∨ gt = "dependencies") →
      m ≠ "bfs" → m ≠ "dfs" →
      topological_sort pyTruthy asStr g m rt sg gt =
        .error (.valueError (methodMsg m)) ∧
      ContainsSub (methodMsg m) m ∧ ContainsSub (methodMsg m) "bfs" ∧
      ContainsSub (methodMsg m) "dfs") ∧
    (∀ (g : List (NT × List NT)) m rt sg gt, rt ≠ "nodes" → rt ≠ "groups" →
      topological_sort pyTruthy asStr g m rt sg gt =
        .error (.valueError (returnTypeMsg rt)) ∧
      ContainsSub (returnTypeMsg rt) rt ∧ ContainsSub (returnTypeMsg rt) "nodes" ∧
      ContainsSub (returnTypeMsg rt) "groups") ∧
    (∀ (g : List (NT × List NT)) m rt sg gt, (rt = "nodes" ∨ rt = "groups") →
      gt ≠ "edges" → gt ≠ "dependencies" →
      topological_sort pyTruthy asStr g m rt sg gt =
        .error (.valueError (graphTypeMsg gt)) ∧
      ContainsSub (graphTypeMsg gt) gt ∧ ContainsSub (graphTypeMsg gt) "edges" ∧
      ContainsSub (graphTypeMsg gt) "dependencies") ∧
    (∀ (g : List (NT × List NT)) sg gt, (gt = "edges" ∨ gt = "dependencies") →
      topological_sort pyTruthy asStr g "dfs" "groups" sg gt =
        .error (.valueError dfsGroupsMsg) ∧
      ContainsSub dfsGroupsMsg "nodes") ∧
    (∀ (g : List (NT × List NT)) gt, (gt = "edges" ∨ gt = "dependencies") →
      topological_sort pyTruthy asStr g "dfs" "nodes" true gt =
        .error (.valueError dfsSortGroupsMsg)) := by
  refine ⟨?_, ?_, ?_, ?_, ?_⟩
  · intro g m rt sg gt hrt hgt hm1 hm2
    refine ⟨?_, ?_, ?_, ?_⟩
    · rcases hrt with h | h <;> rcases hgt with h2 | h2 <;> subst h <;> subst h2 <;>
        simp [topological_sort, validate_return_type, validate_graph_type, hm1, hm2]
    · exact containsSub_append_left (containsSub_append_left
        (containsSub_self_right "Method \"" m) "\", invalid. ")
        "Method must be \"bfs\" or \"dfs\"."
    · exact containsSub_append_right _
        (by unfold ContainsSub; decide :
          ContainsSub "Method must be \"bfs\" or \"dfs\"." "bfs")
    · exact containsSub_append_right _
        (by unfold ContainsSub; decide :
          ContainsSub "Method must be \"bfs\" or \"dfs\"." "dfs")
  · intro g m rt sg gt h1 h2
    refine ⟨?_, ?_, ?_, ?_⟩
    · simp [topological_sort, validate_return_type, h1, h2]
    · exact containsSub_append_left (containsSub_append_left
        (containsSub_self_right "Return type \"" rt) "\", invalid. ")
        "Return type must be \"nodes\" or \"groups\"."
    · exact containsSub_append_right _
        (by unfold ContainsSub; decide :
          ContainsSub "Return type must be \"nodes\" or \"groups\"." "nodes")
    · exact containsSub_append_right _
        (by unfold ContainsSub; decide :
          ContainsSub "Return type must be \"nodes\" or \"groups\"." "groups")
  · intro g m rt sg gt hrt h1 h2
    refine ⟨?_, ?_, ?_, ?_⟩
    · rcases hrt with h | h <;> subst h <;>
        simp [topological_sort, validate_return_type, validate_graph_type, h1, h2]
    · exact containsSub_append_left (containsSub_append_left
        (containsSub_self_right "Graph type \"" gt) "\", invalid. ")
        "Graph type must be \"edges\" or \"dependencies\"."
    · exact containsSub_append_right _
        (by unfold ContainsSub; decide :
          ContainsSub "Graph type must be \"edges\" or \"dependencies\"." "edges")
    · exact containsSub_append_right _
        (by unfold ContainsSub; decide :
          ContainsSub "Graph type must be \"edges\" or \"dependencies\"." "dependencies")
  · intro g sg gt hgt
    refine ⟨?_, by unfold ContainsSub; decide⟩
    rcases hgt with h | h <;> subst h <;>
      simp [topological_sort, validate_return_type, validate_graph_type]
  · intro g gt hgt
    rcases hgt with h | h <;> subst h <;>
      simp [topological_sort, validate_return_type, validate_graph_type]

/-- Witness for the amended C5 at concrete invalid calls. -/
theorem C5_amended_witness :
    topoSortStr tGraph "cfs" "nodes" false "edges" =
      .error (.valueError (methodMsg "cfs")) ∧
    ContainsSub (methodMsg "cfs") "cfs" ∧
    topoSortStr tGraph "bfs" "bananas" false "edges" =
      .error (.valueError (returnTypeMsg "bananas")) ∧
    topoSortStr tGraph "bfs" "nodes" false "graph" =
      .error (.valueError (graphTypeMsg "graph")) ∧
    topoSortStr tGraph "dfs" "nodes" true "edges" =
      .error (.valueError dfsSortGroupsMsg) :=
  ⟨((C5_amended strTruthy strAsStr).1 tGraph "cfs" "nodes" false "edges"
      (Or.inl rfl) (Or.inl rfl) (by decide) (by decide)).1,
    ((C5_amended strTruthy strAsStr).1 tGraph "cfs" "nodes" false "edges"
      (Or.inl rfl) (Or.inl rfl) (by decide) (by decide)).2.1,
    ((C5_amended strTruthy strAsStr).2.1 tGraph "bfs" "bananas" false "edges"
      (by decide) (by decide)).1,
    ((C5_amended strTruthy strAsStr).2.2.1 tGraph "bfs" "nodes" false "graph"
      (Or.inl rfl) (by decide) (by decide)).1,
    (C5_amended strTruthy strAsStr).2.2.2.2 tGraph "edges" (Or.inl rfl)⟩

/-- C6: on the cyclic input `{'A': ['X','B'], 'B': ['A']}` (edges) the two
methods do not agree on the reported failure: bfs raises `CycleError` on the
cycle `A -> B -> A`, while dfs raises `KeyError('X')`, because its cycle
locator searches the original input mapping in which the referenced node `X`
is not a key. -/
theorem C6_bug_eval :
    topoSortStr tGraphKeyErr "bfs" "nodes" false "edges" =
      .error (.cycleError ["A", "B", "A"] "Cycle detected in graph: A -> B -> A.") ∧
    topoSortStr tGraphKeyErr "dfs" "nodes" false "edges" =
      .error (.keyError "X") :=
  ⟨rfl, rfl⟩

/-- C7 counterexample: on the spec's concrete scenario the dfs flat result is
`[D, C, E, B, A]`, which does NOT place B before E (the claim requires both
B and C before both A and E under both methods). -/
theorem C7_counterexample :
    topoSortStr tGraph "dfs" "nodes" false "edges" =
      .ok (.nodes ["D", "C", "E", "B", "A"]) ∧
    ¬ Before ["D", "C", "E", "B", "A"] "B" "E" := by
  refine ⟨rfl, ?_⟩
  unfold Before
  decide

/-- C7 as amended: bfs results match the scenario exactly (flat
`[D,B,C,A,E]`, groups `[[D],[B,C],[A,E]]`, so D precedes B and C, and B and C
precede A and E); dfs returns `[D,C,E,B,A]`, which places D before B and C,
and B and C before A, and C before E, but places E before B. -/
theorem C7_amended :
    topoSortStr tGraph "bfs" "nodes" false "edges" =
      .ok (.nodes ["D", "B", "C", "A", "E"]) ∧
    topoSortStr tGraph "bfs" "groups" false "edges" =
      .ok (.groups [["D"], ["B", "C"], ["A", "E"]]) ∧
    topoSortStr tGraph "dfs" "nodes" false "edges" =
      .ok (.nodes ["D", "C", "E", "B", "A"]) ∧
    (∀ u ∈ ["B", "C"], ∀ v ∈ ["A", "E"],
      Before ["D", "B", "C", "A", "E"] "D" u ∧
      Before ["D", "B", "C", "A", "E"] u v) ∧
    (∀ u ∈ ["B", "C"], Before ["D", "C", "E", "B", "A"] "D" u) ∧
    Before ["D", "C", "E", "B", "A"] "B" "A" ∧
    Before ["D", "C", "E", "B", "A"] "C" "A" ∧
    Before ["D", "C", "E", "B", "A"] "C" "E" ∧
    Before ["D", "C", "E", "B", "A"] "E" "B" := by
  refine ⟨rfl, rfl, rfl, ?_, ?_, ?_, ?_, ?_, ?_⟩ <;> (unfold Before; decide)

/-- Divergence of the cycle locator on the canonical graph of `tGraphDiverge`,
for EVERY fuel: the search from the first candidate `X` follows the cycle
`B ↔ C`, which does not pass through `X`, building an unbounded chain of
fresh `(node, depth)` search states. -/
theorem diverge_all_fuel : ∀ f : Nat, ∀ l : Nat,
    (cycleSearch [("X", ["B"]), ("B", ["C"]), ("C", ["B", "X"])] "X" f (Sum.inl "B") l
        = .error .recursionError) ∧
    (cycleSearch [("X", ["B"]), ("B", ["C"]), ("C", ["B", "X"])] "X" f (Sum.inl "C") l
        = .error .recursionError) ∧
    (cycleSearch [("X", ["B"]), ("B", ["C"]), ("C", ["B", "X"])] "X" f (Sum.inr ["C"]) l
        = .error .recursionError) ∧
    (cycleSearch [("X", ["B"]), ("B", ["C"]), ("C", ["B", "X"])] "X" f (Sum.inr ["B", "X"]) l
        = .error .recursionError) ∧
    (cycleSearch [("X", ["B"]), ("B", ["C"]), ("C", ["B", "X"])] "X" f (Sum.inr ["B"]) l
        = .error .recursionError) ∧
    (cycleSearch [("X", ["B"]), ("B", ["C"]), ("C", ["B", "X"])] "X" f (Sum.inl "X") 0
        = .error .recursionError) := by
  intro f
  induction f with
  | zero => exact fun _ => ⟨rfl, rfl, rfl, rfl, rfl, rfl⟩
  | succ f ih =>
    intro l
    refine ⟨?_, ?_, ?_, ?_, ?_, ?_⟩
    · show cycleSearch _ _ (f + 1) (Sum.inl "B") l = _
      simp [cycleSearch, dget, (ih (l + 1)).2.2.1]
    · show cycleSearch _ _ (f + 1) (Sum.inl "C") l = _
      simp [cycleSearch, dget, (ih (l + 1)).2.2.2.1]
    · show cycleSearch _ _ (f + 1) (Sum.inr ["C"]) l = _
      simp [cycleSearch, (ih l).2.1]
    · show cycleSearch _ _ (f + 1) (Sum.inr ["B", "X"]) l = _
      simp [cycleSearch, (ih l).1]
    · show cycleSearch _ _ (f + 1) (Sum.inr ["B"]) l = _
      simp [cycleSearch, (ih l).1]
    · show cycleSearch _ _ (f + 1) (Sum.inl "X") 0 = _
      simp [cycleSearch, dget, (ih 1).2.2.2.2.1]

/-- C4: on the cyclic input `{'X': ['B'], 'B': ['C'], 'C': ['B','X']}` (edges,
bfs) the producible portion is empty and the failure raised at exhaustion is
NOT a `CycleError` carrying a cycle path: the cycle locator recurses without
bound (for every fuel), so the call fails with `RecursionError`. -/
theorem C4_bug :
    topoSortStr tGraphDiverge "bfs" "nodes" false "edges" = .error .recursionError ∧
    (∀ cfuel : Nat,
      check_cycle strTruthy strAsStr (prepare_graph tGraphDiverge).1 [] cfuel =
        some .recursionError) := by
  have hdiv : ∀ cfuel : Nat,
      check_cycle strTruthy strAsStr (prepare_graph tGraphDiverge).1 [] cfuel =
        some (.recursionError) := by
    intro cfuel
    have hcan : (prepare_graph tGraphDiverge).1 =
        [("X", ["B"]), ("B", ["C"]), ("C", ["B", "X"])] := rfl
    rw [hcan]
    have hx := (diverge_all_fuel cfuel 0).2.2.2.2.2
    have hgc : get_cycle strTruthy [("X", ["B"]), ("B", ["C"]), ("C", ["B", "X"])] none cfuel
        = .error .recursionError := by
      unfold get_cycle
      have hdk : dkeys [("X", ["B"]), ("B", ["C"]), ("C", ["B", "X"])] = ["X", "B", "C"] := rfl
      rw [hdk]
      unfold getCycleLoop
      unfold cycleDfs
      rw [hx]
    unfold check_cycle
    rw [if_pos (by decide)]
    have hfil : ([("X", ["B"]), ("B", ["C"]), ("C", ["B", "X"])].filter
        (fun p => decide (p.1 ∉ ([] : List String)))) =
        [("X", ["B"]), ("B", ["C"]), ("C", ["B", "X"])] := by decide
    rw [hfil, hgc]
  refine ⟨?_, hdiv⟩
  have h1000 := hdiv recLimit
  have hdrain : generatorDrain strTruthy strAsStr tGraphDiverge "nodes" false "edges" =
      (Sum.inl (nodeGenRun strTruthy strAsStr (prepare_graph tGraphDiverge).1 recLimit 5
          [] (prepare_graph tGraphDiverge).2 []).1,
        (nodeGenRun strTruthy strAsStr (prepare_graph tGraphDiverge).1 recLimit 5
          [] (prepare_graph tGraphDiverge).2 []).2) := rfl
  unfold topoSortStr
  rw [ts_bfs_eq strTruthy strAsStr tGraphDiverge "nodes" false "edges" (Or.inl rfl) (Or.inl rfl)]
  unfold bfs_topological_sort
  rw [hdrain, nodeGenRun_nil, h1000]

/-- C8 counterexample: the same dfs call behaves differently on a graph with
a self-reference and on the graph with that self-reference deleted — the
carried cycle path differs (`A -> A`, using the self-loop, versus
`A -> B -> A`), because the dfs cycle locator searches the original mapping. -/
theorem C8_counterexample :
    topoSortStr tGraphSelf "dfs" "nodes" false "edges" =
      .error (.cycleError ["A", "A"] "Cycle detected in graph: A -> A.") ∧
    topoSortStr tGraphNoSelf "dfs" "nodes" false "edges" =
      .error (.cycleError ["A", "B", "A"] "Cycle detected in graph: A -> B -> A.") ∧
    tGraphNoSelf = delSelf tGraphSelf := by
  exact ⟨rfl, rfl, rfl⟩

/-- Deleting self-references preserves which keys are present. -/
theorem dget_delSelf_isNone (g : List (NT × List NT)) (k : NT) :
    (dget (delSelf g) k).isNone = (dget g k).isNone := by
  induction g with
  | nil => rfl
  | cons p rest ih =>
    show (dget ((p.1, p.2.filter fun x => decide (x ≠ p.1)) :: delSelf rest) k).isNone
      = (dget (p :: rest) k).isNone
    unfold dget
    by_cases h : p.1 = k
    · simp [h]
    · simp only [if_neg h]
      exact ih

/-- The inner edge loop of `_prepare_graph` treats a list with its
self-references deleted exactly like the original list. -/
theorem prepEdge_fold_delSelf (g : List (NT × List NT)) (node : NT) :
    ∀ (nbs : List NT) (a : List (NT × List NT) × (NT → Int)),
      (nbs.filter fun x => decide (x ≠ node)).foldl (prepEdge (delSelf g) node) a =
        nbs.foldl (prepEdge g node) a := by
  intro nbs
  induction nbs with
  | nil => intro a; rfl
  | cons nb rest ih =>
    intro a
    by_cases h : nb = node
    · subst h
      rw [List.filter_cons_of_neg (by simp)]
      rw [List.foldl_cons, show prepEdge g nb a nb = a from by unfold prepEdge; simp]
      exact ih a
    · rw [List.filter_cons_of_pos (by simp [h]), List.foldl_cons, List.foldl_cons]
      rw [show prepEdge (delSelf g) node a nb = prepEdge g node a nb from by
        unfold prepEdge
        rw [if_neg h, if_neg h, dget_delSelf_isNone]]
      exact ih _

/-- The canonical graph and indegree table of the `'edges'` normalizer ignore
self-references. -/
theorem prepare_graph_delSelf (g : List (NT × List NT)) :
    prepare_graph (delSelf g) = prepare_graph g := by
  show (delSelf g).foldl (fun acc p => prepStep (delSelf g) acc p.1 p.2) ([], fun _ => 0)
    = g.foldl (fun acc p => prepStep g acc p.1 p.2) ([], fun _ => 0)
  unfold delSelf
  rw [List.foldl_map]
  have : ∀ (items : List (NT × List NT)) acc,
      items.foldl (fun acc p => prepStep (delSelf g) acc p.1 (p.2.filter fun x => decide (x ≠ p.1))) acc =
      items.foldl (fun acc p => prepStep g acc p.1 p.2) acc := by
    intro items
    induction items with
    | nil => intro acc; rfl
    | cons p rest ih =>
      intro acc
      rw [List.foldl_cons, List.foldl_cons]
      rw [show prepStep (delSelf g) acc p.1 (p.2.filter fun x => decide (x ≠ p.1)) =
          prepStep g acc p.1 p.2 from by
        unfold prepStep
        exact prepEdge_fold_delSelf g p.1 p.2 _]
      exact ih _
  exact this g _

/-- The inner edge loop of `_get_edges_from_dependencies` treats a list with
its self-references deleted exactly like the original list. -/
theorem depEdge_fold_delSelf (node : NT) :
    ∀ (deps : List NT) (a : List (NT × List NT) × (NT → Int)),
      (deps.filter fun x => decide (x ≠ node)).foldl (depEdge node) a =
        deps.foldl (depEdge node) a := by
  intro deps
  induction deps with
  | nil => intro a; rfl
  | cons dep rest ih =>
    intro a
    by_cases h : dep = node
    · subst h
      rw [List.filter_cons_of_neg (by simp)]
      rw [List.foldl_cons, show depEdge dep a dep = a from by unfold depEdge; simp]
      exact ih a
    · rw [List.filter_cons_of_pos (by simp [h]), List.foldl_cons, List.foldl_cons]
      exact ih _

/-- The canonical graph and indegree table of the `'dependencies'` normalizer
ignore self-references. -/
theorem deps_delSelf (g : List (NT × List NT)) :
    get_edges_from_dependencies (delSelf g) = get_edges_from_dependencies g := by
  show (delSelf g).foldl (fun acc p => depStep acc p.1 p.2) ([], fun _ => 0)
    = g.foldl (fun acc p => depStep acc p.1 p.2) ([], fun _ => 0)
  unfold delSelf
  rw [List.foldl_map]
  have : ∀ (items : List (NT × List NT)) acc,
      items.foldl (fun acc p => depStep acc p.1 (p.2.filter fun x => decide (x ≠ p.1))) acc =
      items.foldl (fun acc p => depStep acc p.1 p.2) acc := by
    intro items
    induction items with
    | nil => intro acc; rfl
    | cons p rest ih =>
      intro acc
      rw [List.foldl_cons, List.foldl_cons]
      rw [show depStep acc p.1 (p.2.filter fun x => decide (x ≠ p.1)) =
          depStep acc p.1 p.2 from by
        unfold depStep
        exact depEdge_fold_delSelf p.1 p.2 _]
      exact ih _
  exact this g _

/-- The dfs walk over a fixed canonical graph succeeds or fails together, with
the same successful output, regardless of which original mapping seeds its
cycle locator (the original mapping is only reachable on failure paths). -/
theorem dfsWalk_okEq (pyTruthy : NT → Bool) (asStr : NT → Option String)
    (g1 g2 ng : List (NT × List NT)) :
    ∀ (fuel : Nat) (cv vis : List NT) (mode : NT ⊕ List NT),
      ExceptOkEq (dfsWalk pyTruthy asStr g1 ng fuel cv vis mode)
        (dfsWalk pyTruthy asStr g2 ng fuel cv vis mode) := by
  intro fuel
  induction fuel with
  | zero =>
    intro cv vis mode
    exact Or.inr ⟨⟨_, rfl⟩, ⟨_, rfl⟩⟩
  | succ fuel ih =>
    intro cv vis mode
    match mode with
    | Sum.inl node =>
      by_cases hcv : node ∈ cv
      · refine Or.inr ⟨?_, ?_⟩
        · rcases hgc : get_cycle pyTruthy g1 (some node) recLimit with e | cyc
          · exact ⟨e, by unfold dfsWalk; simp only [if_pos hcv, hgc]⟩
          · exact ⟨mkCycleError asStr cyc, by unfold dfsWalk; simp only [if_pos hcv, hgc]⟩
        · rcases hgc : get_cycle pyTruthy g2 (some node) recLimit with e | cyc
          · exact ⟨e, by unfold dfsWalk; simp only [if_pos hcv, hgc]⟩
          · exact ⟨mkCycleError asStr cyc, by unfold dfsWalk; simp only [if_pos hcv, hgc]⟩
      · rcases hng : dget ng node with _ | nbs
        · refine Or.inr ⟨⟨.keyError node, ?_⟩, ⟨.keyError node, ?_⟩⟩ <;>
            (unfold dfsWalk; simp only [if_neg hcv, hng])
        · rcases ih (cv ++ [node]) vis (Sum.inr nbs) with ⟨v, h1, h2⟩ | ⟨⟨e1, h1⟩, ⟨e2, h2⟩⟩
          · refine Or.inl ⟨v ++ [node], ?_, ?_⟩
            · unfold dfsWalk; simp only [if_neg hcv, hng, h1]
            · unfold dfsWalk; simp only [if_neg hcv, hng, h2]
          · refine Or.inr ⟨⟨e1, ?_⟩, ⟨e2, ?_⟩⟩
            · unfold dfsWalk; simp only [if_neg hcv, hng, h1]
            · unfold dfsWalk; simp only [if_neg hcv, hng, h2]
    | Sum.inr [] => exact Or.inl ⟨vis, rfl, rfl⟩
    | Sum.inr (nb :: rest) =>
      by_cases hv : nb ∈ vis
      · rcases ih cv vis (Sum.inr rest) with ⟨v, h1, h2⟩ | ⟨⟨e1, h1⟩, ⟨e2, h2⟩⟩
        · refine Or.inl ⟨v, ?_, ?_⟩
          · unfold dfsWalk; simp only [if_pos hv, h1]
          · unfold dfsWalk; simp only [if_pos hv, h2]
        · refine Or.inr ⟨⟨e1, ?_⟩, ⟨e2, ?_⟩⟩
          · unfold dfsWalk; simp only [if_pos hv, h1]
          · unfold dfsWalk; simp only [if_pos hv, h2]
      · rcases ih cv vis (Sum.inl nb) with ⟨v, h1, h2⟩ | ⟨⟨e1, h1⟩, ⟨e2, h2⟩⟩
        · rcases ih cv v (Sum.inr rest) with ⟨w, k1, k2⟩ | ⟨⟨e1, k1⟩, ⟨e2, k2⟩⟩
          · refine Or.inl ⟨w, ?_, ?_⟩
            · unfold dfsWalk; simp only [if_neg hv, h1, k1]
            · unfold dfsWalk; simp only [if_neg hv, h2, k2]
          · refine Or.inr ⟨⟨e1, ?_⟩, ⟨e2, ?_⟩⟩
            · unfold dfsWalk; simp only [if_neg hv, h1, k1]
            · unfold dfsWalk; simp only [if_neg hv, h2, k2]
        · refine Or.inr ⟨⟨e1, ?_⟩, ⟨e2, ?_⟩⟩
          · unfold dfsWalk; simp only [if_neg hv, h1]
          · unfold dfsWalk; simp only [if_neg hv, h2]

/-- Top-loop version of `dfsWalk_okEq`. -/
theorem dfsTopLoop_okEq (pyTruthy : NT → Bool) (asStr : NT → Option String)
    (g1 g2 ng : List (NT × List NT)) :
    ∀ (keys vis : List NT),
      ExceptOkEq (dfsTopLoop pyTruthy asStr g1 ng keys vis)
        (dfsTopLoop pyTruthy asStr g2 ng keys vis) := by
  intro keys
  induction keys with
  | nil => intro vis; exact Or.inl ⟨vis, rfl, rfl⟩
  | cons n rest ih =>
    intro vis
    by_cases hv : n ∈ vis
    · rcases ih vis with ⟨v, h1, h2⟩ | ⟨⟨e1, h1⟩, ⟨e2, h2⟩⟩
      · refine Or.inl ⟨v, ?_, ?_⟩
        · unfold dfsTopLoop; simp only [if_pos hv, h1]
        · unfold dfsTopLoop; simp only [if_pos hv, h2]
      · refine Or.inr ⟨⟨e1, ?_⟩, ⟨e2, ?_⟩⟩
        · unfold dfsTopLoop; simp only [if_pos hv, h1]
        · unfold dfsTopLoop; simp only [if_pos hv, h2]
    · rcases dfsWalk_okEq pyTruthy asStr g1 g2 ng (graphSize ng) [] vis (Sum.inl n) with
        ⟨v, h1, h2⟩ | ⟨⟨e1, h1⟩, ⟨e2, h2⟩⟩
      · rcases ih v with ⟨w, k1, k2⟩ | ⟨⟨e1, k1⟩, ⟨e2, k2⟩⟩
        · refine Or.inl ⟨w, ?_, ?_⟩
          · unfold dfsTopLoop dfsVisit; simp only [if_neg hv, h1, k1]
          · unfold dfsTopLoop dfsVisit; simp only [if_neg hv, h2, k2]
        · refine Or.inr ⟨⟨e1, ?_⟩, ⟨e2, ?_⟩⟩
          · unfold dfsTopLoop dfsVisit; simp only [if_neg hv, h1, k1]
          · unfold dfsTopLoop dfsVisit; simp only [if_neg hv, h2, k2]
      · refine Or.inr ⟨⟨e1, ?_⟩, ⟨e2, ?_⟩⟩
        · unfold dfsTopLoop dfsVisit; simp only [if_neg hv, h1]
        · unfold dfsTopLoop dfsVisit; simp only [if_neg hv, h2]

/-- C8 as amended: self-references contribute nothing to the canonical graph
or the indegree table; every bfs call behaves identically with and without
them; and every call (any method) succeeds or fails together with identical
successful output — only the error carried on a dfs failure may differ, since
the dfs cycle locator searches the original mapping. -/
theorem C8_amended [LinearOrder NT] (pyTruthy : NT → Bool) (asStr : NT → Option String)
    (g : List (NT × List NT)) :
    prepare_graph (delSelf g) = prepare_graph g ∧
    get_edges_from_dependencies (delSelf g) = get_edges_from_dependencies g ∧
    (∀ rt sg gt, topological_sort pyTruthy asStr (delSelf g) "bfs" rt sg gt =
        topological_sort pyTruthy asStr g "bfs" rt sg gt) ∧
    (∀ method rt sg gt,
      ExceptOkEq (topological_sort pyTruthy asStr (delSelf g) method rt sg gt)
        (topological_sort pyTruthy asStr g method rt sg gt)) := by
  have hbfs2 : ∀ rt sg gt, bfs_topological_sort pyTruthy asStr (delSelf g) rt sg gt =
      bfs_topological_sort pyTruthy asStr g rt sg gt := by
    intro rt sg gt
    unfold bfs_topological_sort generatorDrain
    rw [prepare_graph_delSelf, deps_delSelf]
  have hbfs : ∀ rt sg gt, topological_sort pyTruthy asStr (delSelf g) "bfs" rt sg gt =
      topological_sort pyTruthy asStr g "bfs" rt sg gt := by
    intro rt sg gt
    unfold topological_sort
    cases validate_return_type NT rt with
    | some e => rfl
    | none =>
      cases validate_graph_type NT gt with
      | some e => rfl
      | none =>
        simp only [if_pos (show ("bfs" : String) = "bfs" from rfl)]
        exact hbfs2 rt sg gt
  have hdfs : ∀ gt, ExceptOkEq (dfs_topological_sort pyTruthy asStr (delSelf g) gt)
      (dfs_topological_sort pyTruthy asStr g gt) := by
    intro gt
    rcases dfsTopLoop_okEq pyTruthy asStr (delSelf g) g
        (if gt = "dependencies" then get_edges_from_dependencies g
         else prepare_graph g).1
        (dkeys (if gt = "dependencies" then get_edges_from_dependencies g
         else prepare_graph g).1) [] with ⟨v, h1, h2⟩ | ⟨⟨e1, h1⟩, ⟨e2, h2⟩⟩
    · refine Or.inl ⟨v.reverse, ?_, ?_⟩
      · unfold dfs_topological_sort
        rw [prepare_graph_delSelf, deps_delSelf]
        simp only [h1]
      · unfold dfs_topological_sort
        simp only [h2]
    · refine Or.inr ⟨⟨e1, ?_⟩, ⟨e2, ?_⟩⟩
      · unfold dfs_topological_sort
        rw [prepare_graph_delSelf, deps_delSelf]
        simp only [h1]
      · unfold dfs_topological_sort
        simp only [h2]
  refine ⟨prepare_graph_delSelf g, deps_delSelf g, hbfs, ?_⟩
  intro method rt sg gt
  unfold topological_sort
  cases validate_return_type NT rt with
  | some e => exact Or.inr ⟨⟨e, rfl⟩, ⟨e, rfl⟩⟩
  | none =>
    cases validate_graph_type NT gt with
    | some e => exact Or.inr ⟨⟨e, rfl⟩, ⟨e, rfl⟩⟩
    | none =>
      by_cases hm : method = "bfs"
      · subst hm
        simp only [if_pos (show ("bfs" : String) = "bfs" from rfl)]
        rw [hbfs2 rt sg gt]
        cases bfs_topological_sort pyTruthy asStr g rt sg gt with
        | error e => exact Or.inr ⟨⟨e, rfl⟩, ⟨e, rfl⟩⟩
        | ok v => exact Or.inl ⟨v, rfl, rfl⟩
      · simp only [if_neg hm]
        by_cases hm2 : method = "dfs"
        · subst hm2
          simp only [if_pos (show ("dfs" : String) = "dfs" from rfl)]
          by_cases hrt : rt ≠ "nodes"
          · simp only [if_pos hrt]
            exact Or.inr ⟨⟨_, rfl⟩, ⟨_, rfl⟩⟩
          · simp only [if_neg hrt]
            cases sg with
            | true =>
              simp only [if_pos (show (true = true) from rfl)]
              exact Or.inr ⟨⟨_, rfl⟩, ⟨_, rfl⟩⟩
            | false =>
              simp only [Bool.false_eq_true, if_false]
              rcases hdfs gt with ⟨v, h1, h2⟩ | ⟨⟨e1, h1⟩, ⟨e2, h2⟩⟩
              · rw [h1, h2]
                exact Or.inl ⟨.nodes v, rfl, rfl⟩
              · rw [h1, h2]
                exact Or.inr ⟨⟨e1, rfl⟩, ⟨e2, rfl⟩⟩
        · simp only [if_neg hm2]
          exact Or.inr ⟨⟨_, rfl⟩, ⟨_, rfl⟩⟩

/-- Errors escaping the locator search are `RecursionError` or `KeyError`,
never `CycleError`. -/
theorem cycleSearch_error_shape (g : List (NT × List NT)) (t : NT) :
    ∀ (f : Nat) (mode : NT ⊕ List NT) (lvl : Nat) (e : PyErr NT),
      cycleSearch g t f mode lvl = .error e →
      e = .recursionError ∨ ∃ k, e = .keyError k := by
  intro f
  induction f with
  | zero =>
    intro mode lvl e h
    unfold cycleSearch at h
    injection h with h
    exact Or.inl h.symm
  | succ f ih =>
    intro mode lvl e h
    match mode with
    | Sum.inl curr =>
      unfold cycleSearch at h
      split at h
      · exact absurd h (by simp)
      · split at h
        · injection h with h
          exact Or.inr ⟨curr, h.symm⟩
        · split at h
          · exact absurd h (by simp)
          · split at h
            · rename_i heq
              injection h with h
              subst h
              exact ih _ _ _ heq
            · exact absurd h (by simp)
            · exact absurd h (by simp)
    | Sum.inr [] =>
      unfold cycleSearch at h
      exact absurd h (by simp)
    | Sum.inr (nb :: rest) =>
      unfold cycleSearch at h
      split at h
      · rename_i heq
        injection h with h
        subst h
        exact ih _ _ _ heq
      · exact absurd h (by simp)
      · exact ih _ _ _ h

/-- Soundness of the locator search: a found path starts at the entered node
(resp. one of the looped neighbours) and its consecutive pairs follow the
neighbour lists of the searched mapping. -/
theorem cycleSearch_sound (g : List (NT × List NT)) (t : NT) :
    ∀ (f : Nat) (lvl : Nat),
      (∀ (curr : NT) (p : List NT),
        cycleSearch g t f (Sum.inl curr) lvl = .ok (some p) →
        ∃ rest, p = curr :: rest ∧ List.Chain (InputAdj g) curr rest) ∧
      (∀ (nbs : List NT) (p : List NT),
        cycleSearch g t f (Sum.inr nbs) lvl = .ok (some p) →
        ∃ c rest, p = c :: rest ∧ c ∈ nbs ∧ List.Chain (InputAdj g) c rest) := by
  intro f
  induction f with
  | zero =>
    refine fun lvl => ⟨fun curr p h => ?_, fun nbs p h => ?_⟩ <;>
      (unfold cycleSearch at h; exact absurd h (by simp))
  | succ f ih =>
    intro lvl
    constructor
    · intro curr p h
      unfold cycleSearch at h
      split at h
      · refine ⟨[], ?_, List.Chain.nil⟩
        injection h with h
        injection h with h
        exact h.symm
      · split at h
        · exact absurd h (by simp)
        · rename_i nbs hget
          split at h
          · exact absurd h (by simp)
          · split at h
            · exact absurd h (by simp)
            · rename_i q heq
              injection h with h
              injection h with h
              obtain ⟨c, rest, hq, hc, hchain⟩ := (ih (lvl + 1)).2 nbs q heq
              refine ⟨q, h.symm, ?_⟩
              rw [hq]
              exact List.Chain.cons (by unfold InputAdj; rw [hget]; exact hc) hchain
            · exact absurd h (by simp)
    · intro nbs p h
      match nbs with
      | [] =>
        unfold cycleSearch at h
        exact absurd h (by simp)
      | nb :: rest =>
        unfold cycleSearch at h
        split at h
        · exact absurd h (by simp)
        · rename_i q heq
          injection h with h
          injection h with h
          subst h
          obtain ⟨r, hp, hchain⟩ := (ih lvl).1 nb q heq
          exact ⟨nb, r, hp, List.mem_cons_self nb rest, hchain⟩
        · obtain ⟨c, r, hp, hc, hchain⟩ := (ih lvl).2 rest p h
          exact ⟨c, r, hp, List.mem_cons_of_mem nb hc, hchain⟩

/-- Soundness and error shape for the fallback loop of `_get_cycle`. -/
theorem getCycleLoop_sound (g : List (NT × List NT)) (fuel : Nat) :
    ∀ (keys : List NT),
      (∀ p, getCycleLoop g fuel keys = .ok (some p) →
        ∃ c rest, p = c :: rest ∧ List.Chain (InputAdj g) c rest) ∧
      (∀ e, getCycleLoop g fuel keys = .error e →
        e = .recursionError ∨ ∃ k, e = .keyError k) := by
  intro keys
  induction keys with
  | nil =>
    refine ⟨fun p h => absurd h (by unfold getCycleLoop; simp),
      fun e h => absurd h (by unfold getCycleLoop; simp)⟩
  | cons n rest ih =>
    constructor
    · intro p h
      unfold getCycleLoop at h
      rcases heq : cycleSearch g n fuel (Sum.inl n) 0 with e0 | r
      · rw [show cycleDfs g n fuel n 0 = .error e0 from heq] at h
        exact absurd h (by simp)
      · rw [show cycleDfs g n fuel n 0 = .ok r from heq] at h
        simp only [] at h
        by_cases hc : (r.getD []).length ≠ 0
        · rw [if_pos hc] at h
          injection h with h
          subst h
          obtain ⟨rr, hp, hchain⟩ := (cycleSearch_sound g n fuel 0).1 n p heq
          exact ⟨n, rr, hp, hchain⟩
        · rw [if_neg hc] at h
          exact ih.1 p h
    · intro e h
      unfold getCycleLoop at h
      rcases heq : cycleSearch g n fuel (Sum.inl n) 0 with e0 | r
      · rw [show cycleDfs g n fuel n 0 = .error e0 from heq] at h
        injection h with h
        subst h
        exact cycleSearch_error_shape g n fuel _ 0 e0 heq
      · rw [show cycleDfs g n fuel n 0 = .ok r from heq] at h
        simp only [] at h
        by_cases hc : (r.getD []).length ≠ 0
        · rw [if_pos hc] at h
          exact absurd h (by simp)
        · rw [if_neg hc] at h
          exact ih.2 e h

/-- Soundness and error shape for `_get_cycle` itself. -/
theorem get_cycle_sound (pyTruthy : NT → Bool) (g : List (NT × List NT))
    (start : Option NT) (fuel : Nat) :
    (∀ p, get_cycle pyTruthy g start fuel = .ok (some p) →
      p ≠ [] ∧ List.Chain' (InputAdj g) p) ∧
    (∀ e, get_cycle pyTruthy g start fuel = .error e →
      e = .recursionError ∨ ∃ k, e = .keyError k) := by
  constructor
  · intro p h
    rcases start with _ | n
    · obtain ⟨c, rest, hp, hchain⟩ := (getCycleLoop_sound g fuel (dkeys g)).1 p h
      subst hp
      exact ⟨by simp, hchain⟩
    · simp only [get_cycle] at h
      by_cases ht : pyTruthy n = true
      · rw [if_pos ht] at h
        obtain ⟨rest, hp, hchain⟩ := (cycleSearch_sound g n fuel 0).1 n p h
        subst hp
        exact ⟨by simp, hchain⟩
      · rw [if_neg ht] at h
        obtain ⟨c, rest, hp, hchain⟩ := (getCycleLoop_sound g fuel (dkeys g)).1 p h
        subst hp
        exact ⟨by simp, hchain⟩
  · intro e h
    rcases start with _ | n
    · exact (getCycleLoop_sound g fuel (dkeys g)).2 e h
    · simp only [get_cycle] at h
      by_cases ht : pyTruthy n = true
      · rw [if_pos ht] at h
        exact cycleSearch_error_shape g n fuel _ 0 e h
      · rw [if_neg ht] at h
        exact (getCycleLoop_sound g fuel (dkeys g)).2 e h

/-- Inversion of `CycleError` construction: a `cycleError` value can only be
built from a located non-`None` path all of whose nodes are strings. -/
theorem mkCycleError_inv (asStr : NT → Option String) (cyc : Option (List NT))
    (c : List NT) (msg : String) (h : mkCycleError asStr cyc = .cycleError c msg) :
    cyc = some c ∧ ∃ strs, allStrings asStr c = some strs := by
  match cyc with
  | none => exact absurd h (by unfold mkCycleError; simp)
  | some c' =>
    simp only [mkCycleError] at h
    rcases hstrs : allStrings asStr c' with _ | strs
    · simp only [hstrs] at h
      exact absurd h (by simp)
    · simp only [hstrs] at h
      injection h with h1 h2
      subst h1
      exact ⟨rfl, strs, hstrs⟩

/-- Every node of a successfully joined cycle is a string. -/
theorem allStrings_some (asStr : NT → Option String) :
    ∀ (c : List NT) (strs : List String), allStrings asStr c = some strs →
      ∀ n ∈ c, ∃ s, asStr n = some s := by
  intro c
  induction c with
  | nil => intro strs _ n hn; exact absurd hn (by simp)
  | cons m rest ih =>
    intro strs h n hn
    unfold allStrings at h
    split at h
    · rename_i s l hs hl
      rcases List.mem_cons.1 hn with h1 | h1
      · subst h1; exact ⟨s, hs⟩
      · exact ih l hl n h1
    · exact absurd h (by simp)

/-- Every `CycleError` escaping the recursive dfs of `_dfs_topological_sort`
carries a non-empty path whose consecutive pairs are entries of the ORIGINAL
input mapping's neighbour lists, all of them strings. -/
theorem dfsWalk_cycleError (pyTruthy : NT → Bool) (asStr : NT → Option String)
    (graph new_graph : List (NT × List NT)) :
    ∀ (fuel : Nat) (cv vis : List NT) (mode : NT ⊕ List NT) (c : List NT) (msg : String),
      dfsWalk pyTruthy asStr graph new_graph fuel cv vis mode =
        .error (.cycleError c msg) →
      c ≠ [] ∧ List.Chain' (InputAdj graph) c ∧ ∀ n ∈ c, ∃ s, asStr n = some s := by
  intro fuel
  induction fuel with
  | zero =>
    intro cv vis mode c msg h
    unfold dfsWalk at h
    exact absurd h (by simp)
  | succ fuel ih =>
    intro cv vis mode c msg h
    match mode with
    | Sum.inl node =>
      unfold dfsWalk at h
      split at h
      · split at h
        · rename_i e heq
          injection h with h
          subst h
          rcases (get_cycle_sound pyTruthy graph (some node) recLimit).2 _ heq with
            h1 | ⟨k, h1⟩ <;> exact absurd h1 (by simp)
        · rename_i cyc heq
          injection h with h
          obtain ⟨hcyc, strs, hstrs⟩ := mkCycleError_inv asStr cyc c msg h
          subst hcyc
          obtain ⟨hne, hchain⟩ := (get_cycle_sound pyTruthy graph (some node) recLimit).1 c heq
          exact ⟨hne, hchain, allStrings_some asStr c strs hstrs⟩
      · split at h
        · exact absurd h (by simp)
        · split at h
          · rename_i e heq
            injection h with h
            subst h
            exact ih _ _ _ _ _ heq
          · exact absurd h (by simp)
    | Sum.inr [] =>
      unfold dfsWalk at h
      exact absurd h (by simp)
    | Sum.inr (nb :: rest) =>
      unfold dfsWalk at h
      split at h
      · exact ih _ _ _ _ _ h
      · split at h
        · rename_i e heq
          injection h with h
          subst h
          exact ih _ _ _ _ _ heq
        · exact ih _ _ _ _ _ h

/-- Top-loop version of `dfsWalk_cycleError`. -/
theorem dfsTopLoop_cycleError (pyTruthy : NT → Bool) (asStr : NT → Option String)
    (graph new_graph : List (NT × List NT)) :
    ∀ (keys vis : List NT) (c : List NT) (msg : String),
      dfsTopLoop pyTruthy asStr graph new_graph keys vis =
        .error (.cycleError c msg) →
      c ≠ [] ∧ List.Chain' (InputAdj graph) c ∧ ∀ n ∈ c, ∃ s, asStr n = some s := by
  intro keys
  induction keys with
  | nil =>
    intro vis c msg h
    unfold dfsTopLoop at h
    exact absurd h (by simp)
  | cons n rest ih =>
    intro vis c msg h
    unfold dfsTopLoop at h
    split at h
    · exact ih _ _ _ h
    · split at h
      · rename_i e heq
        injection h with h
        subst h
        exact dfsWalk_cycleError pyTruthy asStr graph new_graph _ _ _ _ _ _ heq
      · exact ih _ _ _ h

/-- Witness for the amended C8: the self-loop graph from the counterexample,
on the bfs method. -/
theorem C8_amended_witness :
    prepare_graph (delSelf tGraphSelf) = prepare_graph tGraphSelf ∧
    topological_sort strTruthy strAsStr (delSelf tGraphSelf) "bfs" "nodes" false "edges" =
      topological_sort strTruthy strAsStr tGraphSelf "bfs" "nodes" false "edges" :=
  ⟨(C8_amended strTruthy strAsStr tGraphSelf).1,
    (C8_amended strTruthy strAsStr tGraphSelf).2.2.1 "nodes" false "edges"⟩

/-- Any error reported by `_check_cycle` has string-only cycle payloads. -/
theorem check_cycle_strings (pyTruthy : NT → Bool) (asStr : NT → Option String)
    (G : List (NT × List NT)) (vis : List NT) (f : Nat) (e : PyErr NT)
    (h : check_cycle pyTruthy asStr G vis f = some e) :
    StringCyclePayload asStr e := by
  unfold check_cycle at h
  by_cases hlen : vis.length < G.length
  · rw [if_pos hlen] at h
    rcases hgc : get_cycle pyTruthy (G.filter fun p => decide (p.1 ∉ vis)) none f with e0 | cyc
    · simp only [hgc] at h
      injection h with h
      subst h
      intro c msg hc
      subst hc
      rcases (get_cycle_sound pyTruthy _ none f).2 _ hgc with h1 | ⟨k, h1⟩ <;>
        exact absurd h1 (by simp)
    · simp only [hgc] at h
      injection h with h
      subst h
      intro c msg hc
      obtain ⟨hcyc, strs, hstrs⟩ := mkCycleError_inv asStr cyc c msg hc
      subst hcyc
      obtain ⟨hne, _⟩ := (get_cycle_sound pyTruthy _ none f).1 c hgc
      exact ⟨hne, allStrings_some asStr c strs hstrs⟩
  · rw [if_neg hlen] at h
    exact absurd h (by simp)

/-- Any terminal error of the node generator has string-only cycle payloads. -/
theorem nodeGenRun_strings (pyTruthy : NT → Bool) (asStr : NT → Option String)
    (G : List (NT × List NT)) (cf : Nat) :
    ∀ (fuel : Nat) (q : List NT) (ind : NT → Int) (vis : List NT) (e : PyErr NT),
      (nodeGenRun pyTruthy asStr G cf fuel q ind vis).2 = some e →
      StringCyclePayload asStr e := by
  intro fuel
  induction fuel with
  | zero =>
    intro q ind vis e h
    match q with
    | [] => exact check_cycle_strings pyTruthy asStr G vis cf e h
    | node :: rest =>
      injection h with h
      subst h
      intro c msg hc
      exact absurd hc (by simp)
  | succ fuel ih =>
    intro q ind vis e h
    match q with
    | [] => exact check_cycle_strings pyTruthy asStr G vis cf e h
    | node :: rest =>
      unfold nodeGenRun at h
      rcases hget : dget G node with _ | nbs
      · simp only [hget] at h
        injection h with h
        subst h
        intro c msg hc
        exact absurd hc (by simp)
      · simp only [hget] at h
        exact ih _ _ _ e h

/-- Any terminal error of the group generator has string-only cycle
payloads. -/
theorem groupGenRun_strings [LinearOrder NT] (pyTruthy : NT → Bool)
    (asStr : NT → Option String) (sg : Bool) (G : List (NT × List NT)) (cf : Nat) :
    ∀ (fuel : Nat) (q : List NT) (ind : NT → Int) (vis batch nextd : List NT)
      (e : PyErr NT),
      (groupGenRun pyTruthy asStr sg G cf fuel q ind vis batch nextd).2 = some e →
      StringCyclePayload asStr e := by
  intro fuel
  induction fuel with
  | zero =>
    intro q ind vis batch nextd e h
    match q with
    | [] => exact check_cycle_strings pyTruthy asStr G vis cf e h
    | node :: rest =>
      injection h with h
      subst h
      intro c msg hc
      exact absurd hc (by simp)
  | succ fuel ih =>
    intro q ind vis batch nextd e h
    match q with
    | [] => exact check_cycle_strings pyTruthy asStr G vis cf e h
    | node :: rest =>
      unfold groupGenRun at h
      rcases hget : dget G node with _ | nbs
      · simp only [hget] at h
        injection h with h
        subst h
        intro c msg hc
        exact absurd hc (by simp)
      · simp only [hget] at h
        by_cases hq : rest = []
        · rw [if_pos hq] at h
          exact ih _ _ _ _ _ e h
        · rw [if_neg hq] at h
          exact ih _ _ _ _ _ e h

/-- Any error raised when draining the generator has string-only cycle
payloads. -/
theorem generatorDrain_strings [LinearOrder NT] (pyTruthy : NT → Bool)
    (asStr : NT → Option String) (g : List (NT × List NT)) (rt : String) (sg : Bool)
    (gt : String) (e : PyErr NT)
    (h : (generatorDrain pyTruthy asStr g rt sg gt).2 = some e) :
    StringCyclePayload asStr e := by
  simp only [generatorDrain] at h
  by_cases hrt : rt = "nodes"
  · rw [if_pos hrt] at h
    cases sg with
    | true =>
      simp only [if_pos (show (true = true) from rfl)] at h
      exact groupGenRun_strings pyTruthy asStr true _ recLimit _ _ _ _ _ _ e h
    | false =>
      simp only [Bool.false_eq_true, if_false] at h
      exact nodeGenRun_strings pyTruthy asStr _ recLimit _ _ _ _ e h
  · rw [if_neg hrt] at h
    exact groupGenRun_strings pyTruthy asStr sg _ recLimit _ _ _ _ _ _ e h

/-- Any cycle error escaping `_dfs_topological_sort` is carried on a
non-empty all-strings path chained through the ORIGINAL input mapping. -/
theorem dfs_ts_cycleError (pyTruthy : NT → Bool) (asStr : NT → Option String)
    (g : List (NT × List NT)) (gt : String) (c : List NT) (msg : String)
    (h : dfs_topological_sort pyTruthy asStr g gt = .error (.cycleError c msg)) :
    c ≠ [] ∧ List.Chain' (InputAdj g) c ∧ ∀ n ∈ c, ∃ s, asStr n = some s := by
  simp only [dfs_topological_sort] at h
  rcases hl : dfsTopLoop pyTruthy asStr g
      (if gt = "dependencies" then get_edges_from_dependencies g
       else prepare_graph g).1
      (dkeys (if gt = "dependencies" then get_edges_from_dependencies g
       else prepare_graph g).1) [] with e1 | v
  · simp only [hl] at h
    injection h with h
    subst h
    exact dfsTopLoop_cycleError pyTruthy asStr g _ _ _ _ _ hl
  · simp only [hl] at h
    exact absurd h (by simp)

/-- Any error produced by `topological_sort` has string-only cycle payloads. -/
theorem ts_error_strings [LinearOrder NT] (pyTruthy : NT → Bool)
    (asStr : NT → Option String) (g : List (NT × List NT)) (method rt : String)
    (sg : Bool) (gt : String) (e : PyErr NT)
    (h : topological_sort pyTruthy asStr g method rt sg gt = .error e) :
    StringCyclePayload asStr e := by
  unfold topological_sort at h
  by_cases hrtv : (rt = "nodes" ∨ rt = "groups")
  · simp only [validate_return_type, if_pos hrtv] at h
    by_cases hgtv : (gt = "edges" ∨ gt = "dependencies")
    · simp only [validate_graph_type, if_pos hgtv] at h
      by_cases hm : method = "bfs"
      · rw [if_pos hm] at h
        unfold bfs_topological_sort at h
        rcases hd : generatorDrain pyTruthy asStr g rt sg gt with ⟨x | x, _ | e0⟩
        · simp only [hd] at h
          exact absurd h (by simp)
        · simp only [hd] at h
          injection h with h
          subst h
          exact generatorDrain_strings pyTruthy asStr g rt sg gt e0 (by rw [hd])
        · simp only [hd] at h
          exact absurd h (by simp)
        · simp only [hd] at h
          injection h with h
          subst h
          exact generatorDrain_strings pyTruthy asStr g rt sg gt e0 (by rw [hd])
      · rw [if_neg hm] at h
        by_cases hm2 : method = "dfs"
        · rw [if_pos hm2] at h
          by_cases hrtn : rt ≠ "nodes"
          · rw [if_pos hrtn] at h
            injection h with h
            subst h
            intro c msg hc
            exact absurd hc (by simp)
          · rw [if_neg hrtn] at h
            cases sg with
            | true =>
              simp only [if_pos (show (true = true) from rfl)] at h
              injection h with h
              subst h
              intro c msg hc
              exact absurd hc (by simp)
            | false =>
              simp only [Bool.false_eq_true, if_false] at h
              rcases hd : dfs_topological_sort pyTruthy asStr g gt with e0 | l
              · simp only [hd] at h
                injection h with h
                subst h
                intro c msg hc
                subst hc
                obtain ⟨h1, _, h3⟩ := dfs_ts_cycleError pyTruthy asStr g gt c msg hd
                exact ⟨h1, h3⟩
              · simp only [hd] at h
                exact absurd h (by simp)
        · rw [if_neg hm2] at h
          injection h with h
          subst h
          intro c msg hc
          exact absurd hc (by simp)
    · simp only [validate_graph_type, if_neg hgtv] at h
      injection h with h
      subst h
      intro c msg hc
      exact absurd hc (by simp)
  · simp only [validate_return_type, if_neg hrtv] at h
    injection h with h
    subst h
    intro c msg hc
    exact absurd hc (by simp)

/-- C9: whenever the dfs path raises `CycleError`, the carried path's
consecutive pairs are entries of the INPUT mapping's own neighbour lists (for
`graph_type='dependencies'` these are dependency edges, the reverse of
canonical edges) — the locator is seeded with the original mapping, not the
canonical graph. -/
theorem C9_dfs_cycle_follows_input [LinearOrder NT] (pyTruthy : NT → Bool)
    (asStr : NT → Option String) (g : List (NT × List NT)) (gt : String)
    (c : List NT) (msg : String)
    (h : topological_sort pyTruthy asStr g "dfs" "nodes" false gt =
      .error (.cycleError c msg)) :
    c ≠ [] ∧ List.Chain' (InputAdj g) c := by
  by_cases hgtv : (gt = "edges" ∨ gt = "dependencies")
  · have hdfs : dfs_topological_sort pyTruthy asStr g gt = .error (.cycleError c msg) := by
      rcases hd : dfs_topological_sort pyTruthy asStr g gt with e0 | l
      · rcases hgtv with h2 | h2 <;> subst h2 <;>
          (simp [topological_sort, validate_return_type, validate_graph_type, hd] at h;
           rw [h])
      · rcases hgtv with h2 | h2 <;> subst h2 <;>
          simp [topological_sort, validate_return_type, validate_graph_type, hd] at h
    obtain ⟨h1, h2, _⟩ := dfs_ts_cycleError pyTruthy asStr g gt c msg hdfs
    exact ⟨h1, h2⟩
  · exact absurd h (by
      simp [topological_sort, validate_return_type, validate_graph_type, hgtv])

/-- Witness for C9: on the dependency-flavoured 3-cycle the dfs call raises
`CycleError` with path `A -> B -> C -> A`, whose consecutive pairs follow the
input's dependency lists (the reverse of the canonical edges). -/
theorem C9_witness :
    (["A", "B", "C", "A"] : List String) ≠ [] ∧
    List.Chain' (InputAdj tGraphDeps) ["A", "B", "C", "A"] :=
  C9_dfs_cycle_follows_input strTruthy strAsStr tGraphDeps "dependencies"
    ["A", "B", "C", "A"] "Cycle detected in graph: A -> B -> C -> A." rfl

/-- C10: `CycleError` is only reachable with string nodes — any `CycleError`
raised by `topological_sort` carries a non-empty path of Python strings, so
when every node value is a non-string the cycle-detection failure path never
produces a `CycleError` (it raises `TypeError` while joining the message
instead, as the witness evaluates on an integer graph). -/
theorem C10_cycleError_needs_strings [LinearOrder NT] (pyTruthy : NT → Bool)
    (asStr : NT → Option String) (g : List (NT × List NT)) (method rt : String)
    (sg : Bool) (gt : String) :
    (∀ c msg, topological_sort pyTruthy asStr g method rt sg gt =
        .error (.cycleError c msg) →
      c ≠ [] ∧ ∀ n ∈ c, ∃ s, asStr n = some s) ∧
    ((∀ n : NT, asStr n = none) →
      ∀ c msg, topological_sort pyTruthy asStr g method rt sg gt ≠
        .error (.cycleError c msg)) := by
  constructor
  · intro c msg h
    exact ts_error_strings pyTruthy asStr g method rt sg gt _ h c msg rfl
  · intro hnone c msg h
    obtain ⟨hne, hstr⟩ :=
      ts_error_strings pyTruthy asStr g method rt sg gt _ h c msg rfl
    match c, hne with
    | n :: rest, _ =>
      obtain ⟨s, hs⟩ := hstr n (by simp)
      rw [hnone n] at hs
      exact absurd hs (by simp)

/-- Witness for C10: the integer 2-cycle fails with `TypeError` (raised while
string-joining the located cycle `0 -> 1 -> 0`), not with `CycleError`. -/
theorem C10_witness :
    topological_sort intTruthy intAsStr tGraphInt "bfs" "nodes" false "edges" =
      .error .typeError ∧
    topological_sort intTruthy intAsStr tGraphInt "bfs" "nodes" false "edges" ≠
      .error (.cycleError [0, 1, 0] "Cycle detected in graph: 0 -> 1 -> 0.") :=
  ⟨rfl,
    (C10_cycleError_needs_strings intTruthy intAsStr tGraphInt "bfs" "nodes"
      false "edges").2 (fun _ => rfl) [0, 1, 0] "Cycle detected in graph: 0 -> 1 -> 0."⟩

/-- Lookup on a cons. -/
theorem dget_cons {β : Type} (p : NT × β) (g : List (NT × β)) (k : NT) :
    dget (p :: g) k = if p.1 = k then some p.2 else dget g k := rfl

/-- Lookup fails exactly off the key list. -/
theorem dget_eq_none_iff {β : Type} (g : List (NT × β)) (k : NT) :
    dget g k = none ↔ k ∉ dkeys g := by
  induction g with
  | nil => simp [dget, dkeys]
  | cons p rest ih =>
    unfold dget
    by_cases h : p.1 = k
    · simp [h, dkeys]
    · simp only [if_neg h, ih, dkeys, List.map_cons, List.mem_cons]
      constructor
      · intro h1 h2
        rcases h2 with h2 | h2
        · exact h h2.symm
        · exact h1 h2
      · intro h1 h2
        exact h1 (Or.inr h2)

/-- Keys have lookups. -/
theorem dget_isSome_of_mem {β : Type} (g : List (NT × β)) (k : NT)
    (h : k ∈ dkeys g) : ∃ v, dget g k = some v := by
  rcases hg : dget g k with _ | v
  · exact absurd h ((dget_eq_none_iff g k).1 hg)
  · exact ⟨v, rfl⟩

/-- A successful lookup comes from an entry. -/
theorem dget_mem {β : Type} (g : List (NT × β)) (k : NT) (v : β)
    (h : dget g k = some v) : (k, v) ∈ g := by
  induction g with
  | nil => exact absurd h (by simp [dget])
  | cons p rest ih =>
    unfold dget at h
    by_cases hk : p.1 = k
    · rw [if_pos hk] at h
      injection h with h
      subst hk
      subst h
      exact List.mem_cons_self p rest
    · rw [if_neg hk] at h
      exact List.mem_cons_of_mem p (ih h)

/-- With duplicate-free keys an entry determines the lookup. -/
theorem mem_dget {β : Type} (g : List (NT × β)) (hK : (dkeys g).Nodup)
    (k : NT) (v : β) (h : (k, v) ∈ g) : dget g k = some v := by
  induction g with
  | nil => exact absurd h (by simp)
  | cons p rest ih =>
    rcases List.mem_cons.1 h with h1 | h1
    · subst h1
      unfold dget
      rw [if_pos rfl]
    · unfold dget
      by_cases hk : p.1 = k
      · exfalso
        subst hk
        have : p.1 ∈ dkeys rest := List.mem_map.2 ⟨(p.1, v), h1, rfl⟩
        exact (List.nodup_cons.1 hK).1 this
      · rw [if_neg hk]
        exact ih (List.nodup_cons.1 hK).2 h1

/-- Edge in terms of lookup, under duplicate-free keys. -/
theorem edgeOf_iff_dget (G : List (NT × List NT)) (hK : (dkeys G).Nodup)
    (u v : NT) : EdgeOf G u v ↔ v ∈ (dget G u).getD [] := by
  constructor
  · rintro ⟨p, hp, h1, h2⟩
    subst h1
    rw [mem_dget G hK p.1 p.2 hp]
    exact h2
  · intro h
    rcases hg : dget G u with _ | l
    · rw [hg] at h
      exact absurd h (by simp)
    · rw [hg] at h
      exact ⟨(u, l), dget_mem G u l hg, rfl, h⟩

/-- Edge sources are keys. -/
theorem edgeOf_source_mem {G : List (NT × List NT)} {u v : NT}
    (h : EdgeOf G u v) : u ∈ dkeys G := by
  obtain ⟨p, hp, h1, _⟩ := h
  subst h1
  exact List.mem_map_of_mem Prod.fst hp

/-- In-count over an append. -/
theorem inCnt_append (G : List (NT × List NT)) (a b : List NT) (v : NT) :
    inCnt G (a ++ b) v = inCnt G a v + inCnt G b v := by
  unfold inCnt
  rw [List.map_append, List.sum_append]

/-- In-count is permutation invariant. -/
theorem inCnt_perm (G : List (NT × List NT)) {a b : List NT} (h : a.Perm b)
    (v : NT) : inCnt G a v = inCnt G b v :=
  List.Perm.sum_eq (h.map _)

/-- With duplicate-free keys, the total indegree is the in-count over all
keys. -/
theorem inDegAll_eq_inCnt_keys (G : List (NT × List NT)) (hK : (dkeys G).Nodup)
    (v : NT) : inDegAll G v = inCnt G (dkeys G) v := by
  induction G with
  | nil => rfl
  | cons p rest ih =>
    have hK' : (dkeys rest).Nodup := (List.nodup_cons.1 hK).2
    have hp1 : p.1 ∉ dkeys rest := (List.nodup_cons.1 hK).1
    show p.2.count v + inDegAll rest v = inCnt (p :: rest) (p.1 :: dkeys rest) v
    unfold inCnt
    rw [List.map_cons, List.sum_cons]
    have h1 : (dget (p :: rest) p.1).getD [] = p.2 := by
      rw [dget_cons, if_pos rfl]
      rfl
    rw [h1]
    have h2 : (dkeys rest).map (fun u => ((dget (p :: rest) u).getD []).count v) =
        (dkeys rest).map (fun u => ((dget rest u).getD []).count v) := by
      apply List.map_congr_left
      intro x hx
      have hne : p.1 ≠ x := fun he => hp1 (he ▸ hx)
      rw [dget_cons, if_neg hne]
    rw [h2]
    rw [ih hK']
    rfl

/-- In-count of a duplicate-free sub-collection of the keys is at most the
total indegree. -/
theorem inCnt_le (G : List (NT × List NT)) (hK : (dkeys G).Nodup)
    (vis : List NT) (hnd : vis.Nodup) (hsub : ∀ x ∈ vis, x ∈ dkeys G) (v : NT) :
    inCnt G vis v ≤ inDegAll G v := by
  rw [inDegAll_eq_inCnt_keys G hK]
  obtain ⟨l, hperm, hsl⟩ := (hnd.subperm hsub)
  calc inCnt G vis v = inCnt G l v := (inCnt_perm G hperm v).symm
    _ ≤ inCnt G (dkeys G) v := by
      unfold inCnt
      exact List.Sublist.sum_le_sum (hsl.map _) (by simp)

/-- Reaching the total indegree means every edge source is collected. -/
theorem inCnt_full_iff (G : List (NT × List NT)) (hK : (dkeys G).Nodup)
    (vis : List NT) (hnd : vis.Nodup) (hsub : ∀ x ∈ vis, x ∈ dkeys G) (v : NT) :
    inCnt G vis v = inDegAll G v ↔ ∀ u, EdgeOf G u v → u ∈ vis := by
  constructor
  · intro h u hedge
    by_contra hu
    have hcnt : 0 < ((dget G u).getD []).count v :=
      List.count_pos_iff_mem.2 ((edgeOf_iff_dget G hK u v).1 hedge)
    have h1 : inCnt G (vis ++ [u]) v ≤ inDegAll G v := by
      refine inCnt_le G hK (vis ++ [u]) ?_ ?_ v
      · simp [List.nodup_append, hnd, hu]
      · intro x hx
        rcases List.mem_append.1 hx with hx | hx
        · exact hsub x hx
        · simp at hx
          subst hx
          exact edgeOf_source_mem hedge
    rw [inCnt_append] at h1
    have h2 : inCnt G [u] v = ((dget G u).getD []).count v := by
      unfold inCnt
      simp
    omega
  · intro h
    rw [inDegAll_eq_inCnt_keys G hK]
    have hperm := List.filter_append_perm (fun k => decide (k ∈ vis)) (dkeys G)
    rw [← inCnt_perm G hperm v, inCnt_append]
    have hz : inCnt G ((dkeys G).filter fun k => !decide (k ∈ vis)) v = 0 := by
      unfold inCnt
      apply List.sum_eq_zero
      intro x hx
      obtain ⟨u, hu, hux⟩ := List.mem_map.1 hx
      obtain ⟨hu1, hu2⟩ := List.mem_filter.1 hu
      subst hux
      simp only [Bool.not_eq_eq_eq_not, Bool.not_true, decide_eq_false_iff_not] at hu2
      by_contra hc
      have : v ∈ (dget G u).getD [] :=
        List.count_pos_iff_mem.1 (Nat.pos_of_ne_zero hc)
      exact hu2 (h u ((edgeOf_iff_dget G hK u v).2 this))
    have hsame : inCnt G ((dkeys G).filter fun k => decide (k ∈ vis)) v =
        inCnt G vis v := by
      apply inCnt_perm
      apply List.Subperm.antisymm
      · refine List.Nodup.subperm (hK.filter _) ?_
        intro x hx
        obtain ⟨_, h2⟩ := List.mem_filter.1 hx
        exact of_decide_eq_true h2
      · refine List.Nodup.subperm hnd ?_
        intro x hx
        exact List.mem_filter.2 ⟨hsub x hx, decide_eq_true hx⟩
    omega

/-- First occurrence of a member of a prefix lies within the prefix. -/
theorem indexOf_lt_of_mem_take (l : List NT) (u : NT) :
    ∀ i, u ∈ l.take i → l.indexOf u < i := by
  induction l with
  | nil => intro i h; simp at h
  | cons a rest ih =>
    intro i h
    match i with
    | 0 => simp at h
    | i + 1 =>
      rw [List.take_succ_cons] at h
      by_cases ha : a = u
      · subst ha
        rw [List.indexOf_cons_self]
        omega
      · rcases List.mem_cons.1 h with h1 | h1
        · exact absurd h1.symm ha
        · rw [List.indexOf_cons_ne _ ha]
          have := ih i h1
          omega

/-- The first occurrence is a real occurrence. -/
theorem get?_indexOf (l : List NT) (u : NT) (h : u ∈ l) :
    l.get? (l.indexOf u) = some u := by
  have hlt := List.indexOf_lt_length.2 h
  rw [List.get?_eq_get hlt, List.indexOf_get]

/-- Predecessor ordering turns into positional ordering. -/
theorem before_of_predsBefore {G : List (NT × List NT)} {l : List NT}
    (h : PredsBefore G l) {u v : NT} (hedge : EdgeOf G u v) (hv : v ∈ l) :
    Before l u v := by
  have hu := h (l.indexOf v) v (get?_indexOf l v hv) u hedge
  exact ⟨List.mem_of_mem_take hu, hv, indexOf_lt_of_mem_take l u _ hu⟩

/-- Position of an element in the reversed duplicate-free list. -/
theorem indexOf_reverse (l : List NT) (hnd : l.Nodup) (x : NT) (h : x ∈ l) :
    l.reverse.indexOf x = l.length - 1 - l.indexOf x := by
  have hx : l.indexOf x < l.length := List.indexOf_lt_length.2 h
  have hb : l.length - 1 - l.indexOf x < l.reverse.length := by
    rw [List.length_reverse]
    omega
  have hget : l.reverse.get ⟨l.length - 1 - l.indexOf x, hb⟩ = x := by
    show l.reverse[l.length - 1 - l.indexOf x] = x
    rw [List.getElem_reverse]
    have h2 : l.length - 1 - (l.length - 1 - l.indexOf x) = l.indexOf x := by omega
    simp only [h2]
    exact List.indexOf_get hx
  have hmem : x ∈ l.reverse := List.mem_reverse.2 h
  have hidx : l.reverse.indexOf x < l.reverse.length := List.indexOf_lt_length.2 hmem
  have hndr : l.reverse.Nodup := List.nodup_reverse.2 hnd
  have hga : l.reverse.get ⟨l.reverse.indexOf x, hidx⟩ = x := List.indexOf_get hidx
  have heq : (⟨l.reverse.indexOf x, hidx⟩ : Fin l.reverse.length) =
      ⟨l.length - 1 - l.indexOf x, hb⟩ :=
    hndr.get_inj_iff.1 (by rw [hga, hget])
  exact congrArg Fin.val heq

/-- Successor ordering turns into positional ordering on the reverse. -/
theorem before_reverse_of_succsBefore {G : List (NT × List NT)} {l : List NT}
    (hnd : l.Nodup) (h : SuccsBefore G l) {u v : NT} (hedge : EdgeOf G u v)
    (hu : u ∈ l) : Before l.reverse u v := by
  have hv' := h (l.indexOf u) u (get?_indexOf l u hu) v hedge
  have hvmem : v ∈ l := List.mem_of_mem_take hv'
  have hvi : l.indexOf v < l.indexOf u := indexOf_lt_of_mem_take l v _ hv'
  have hul : l.indexOf u < l.length := List.indexOf_lt_length.2 hu
  refine ⟨List.mem_reverse.2 hu, List.mem_reverse.2 hvmem, ?_⟩
  rw [indexOf_reverse l hnd u hu, indexOf_reverse l hnd v hvmem]
  omega

/-- A finite set in which every node has an incoming edge from the set
contains a cycle. -/
theorem cycle_of_closed (G : List (NT × List NT)) (S : List NT) (hne : S ≠ [])
    (hS : ∀ v ∈ S, ∃ u ∈ S, EdgeOf G u v) :
    ∃ v, Relation.TransGen (EdgeOf G) v v := by
  classical
  let f : NT → NT := fun v => if h : ∃ u ∈ S, EdgeOf G u v then h.choose else v
  have hf : ∀ v ∈ S, f v ∈ S ∧ EdgeOf G (f v) v := by
    intro v hv
    have hex := hS v hv
    simp only [f, dif_pos hex]
    obtain ⟨h1, h2⟩ := hex.choose_spec
    exact ⟨h1, h2⟩
  obtain ⟨s0, rest, rfl⟩ : ∃ s0 rest, S = s0 :: rest := by
    match S, hne with
    | s0 :: rest, _ => exact ⟨s0, rest, rfl⟩
  set S' := s0 :: rest with hS'
  let g : Nat → NT := fun n => f^[n] s0
  have hg : ∀ n, g n ∈ S' := by
    intro n
    induction n with
    | zero => exact List.mem_cons_self s0 rest
    | succ n ihn =>
      show f^[n + 1] s0 ∈ S'
      rw [Function.iterate_succ_apply']
      exact (hf _ ihn).1
  have hedge : ∀ n, EdgeOf G (g (n + 1)) (g n) := by
    intro n
    show EdgeOf G (f^[n + 1] s0) (f^[n] s0)
    rw [Function.iterate_succ_apply']
    exact (hf _ (hg n)).2
  have hcard : S'.toFinset.card < (Finset.range (S'.length + 1)).card := by
    rw [Finset.card_range]
    have := S'.toFinset_card_le
    omega
  obtain ⟨i, _, j, _, hij, hgij⟩ :=
    Finset.exists_ne_map_eq_of_card_lt_of_maps_to hcard
      (fun n _ => List.mem_toFinset.2 (hg n))
  have hchain : ∀ a d : Nat, Relation.TransGen (EdgeOf G) (g (a + d + 1)) (g a) := by
    intro a d
    induction d with
    | zero => exact Relation.TransGen.single (hedge a)
    | succ d ihd => exact Relation.TransGen.head (hedge (a + d + 1)) ihd
  rcases Nat.lt_or_ge i j with hlt | hge
  · refine ⟨g i, ?_⟩
    have hc := hchain i (j - i - 1)
    rw [show i + (j - i - 1) + 1 = j by omega] at hc
    rw [← hgij] at hc
    exact hc
  · have hlt : j < i := by omega
    refine ⟨g j, ?_⟩
    have hc := hchain j (i - j - 1)
    rw [show j + (i - j - 1) + 1 = i by omega] at hc
    rw [hgij] at hc
    exact hc

/-- A rank function strictly increasing along edges certifies acyclicity. -/
theorem acyclic_of_rank (G : List (NT × List NT)) (rank : NT → Nat)
    (h : RankOk G rank) : Acyclic G := by
  intro v hv
  have hmono : ∀ a b, Relation.TransGen (EdgeOf G) a b → rank a < rank b := by
    intro a b hab
    induction hab with
    | single hs =>
      obtain ⟨p, hp, h1, h2⟩ := hs
      subst h1
      exact h p hp _ h2
    | tail _ hs ih =>
      obtain ⟨p, hp, h1, h2⟩ := hs
      subst h1
      exact lt_trans ih (h p hp _ h2)
  exact lt_irrefl _ (hmono v v hv)


/-- `dset` on a cons. -/
theorem dset_cons {β : Type} (p : NT × β) (g : List (NT × β)) (k : NT) (v : β) :
    dset (p :: g) k v = if p.1 = k then (p.1, v) :: g else p :: dset g k v := by
  cases p
  rfl

/-- `dappend` on a cons. -/
theorem dappend_cons {β : Type} (p : NT × List β) (g : List (NT × List β))
    (k : NT) (x : β) :
    dappend (p :: g) k x =
      if p.1 = k then (p.1, p.2 ++ [x]) :: g else p :: dappend g k x := by
  cases p
  rfl

/-- Lookup distributes over an append. -/
theorem dget_append {β : Type} (A B : List (NT × β)) (k : NT) :
    dget (A ++ B) k = match dget A k with
      | some v => some v
      | none => dget B k := by
  induction A with
  | nil => simp [dget]
  | cons p rest ih =>
    by_cases h : p.1 = k
    · rw [List.cons_append, dget_cons, if_pos h, dget_cons, if_pos h]
    · rw [List.cons_append, dget_cons, if_neg h, dget_cons, if_neg h, ih]

/-- Lookup of a fresh key skips to the appended part. -/
theorem dget_append_new {β : Type} (A B : List (NT × β)) (k : NT)
    (h : k ∉ dkeys A) : dget (A ++ B) k = dget B k := by
  rw [dget_append, (dget_eq_none_iff A k).2 h]

/-- Lookup of an existing key ignores the appended part. -/
theorem dget_append_left {β : Type} (A B : List (NT × β)) (k : NT)
    (h : k ∈ dkeys A) : dget (A ++ B) k = dget A k := by
  obtain ⟨v, hv⟩ := dget_isSome_of_mem A k h
  rw [dget_append, hv]

/-- Assignment of a fresh key appends the entry. -/
theorem dset_not_mem {β : Type} (A : List (NT × β)) (k : NT) (v : β)
    (h : k ∉ dkeys A) : dset A k v = A ++ [(k, v)] := by
  induction A with
  | nil => rfl
  | cons p rest ih =>
    have h1 : p.1 ≠ k := by
      intro he
      exact h (by rw [← he]; exact List.mem_cons_self _ _)
    have h2 : k ∉ dkeys rest := fun hm => h (List.mem_cons_of_mem _ hm)
    rw [dset_cons, if_neg h1, ih h2, List.cons_append]

/-- Re-assigning the value a key already holds is the identity. -/
theorem dset_eq_self {β : Type} (A : List (NT × β)) (k : NT) (v : β)
    (h : dget A k = some v) : dset A k v = A := by
  induction A with
  | nil => exact absurd h (by simp [dget])
  | cons p rest ih =>
    by_cases h1 : p.1 = k
    · rw [dget_cons, if_pos h1] at h
      injection h with h
      rw [dset_cons, if_pos h1, ← h]
    · rw [dget_cons, if_neg h1] at h
      rw [dset_cons, if_neg h1, ih h]

/-- `dappend` never changes the key list. -/
theorem dkeys_dappend (A : List (NT × List NT)) (k : NT) (x : NT) :
    dkeys (dappend A k x) = dkeys A := by
  induction A with
  | nil => rfl
  | cons p rest ih =>
    rw [dappend_cons]
    by_cases h : p.1 = k
    · rw [if_pos h]
      rfl
    · rw [if_neg h]
      show p.1 :: dkeys (dappend rest k x) = p.1 :: dkeys rest
      rw [ih]

/-- `dappend` leaves other keys' values alone. -/
theorem dget_dappend_ne (A : List (NT × List NT)) (k k' : NT) (x : NT)
    (h : k' ≠ k) : dget (dappend A k x) k' = dget A k' := by
  induction A with
  | nil => rfl
  | cons p rest ih =>
    rw [dappend_cons]
    by_cases h1 : p.1 = k
    · rw [if_pos h1, dget_cons, dget_cons]
      have h2 : ¬ p.1 = k' := by rw [h1]; exact fun he => h he.symm
      rw [if_neg h2, if_neg h2]
    · rw [if_neg h1, dget_cons, dget_cons]
      by_cases h2 : p.1 = k'
      · rw [if_pos h2, if_pos h2]
      · rw [if_neg h2, if_neg h2, ih]

/-- Edges of a cons. -/
theorem edgeOf_cons (p : NT × List NT) (G : List (NT × List NT)) (u v : NT) :
    EdgeOf (p :: G) u v ↔ (p.1 = u ∧ v ∈ p.2) ∨ EdgeOf G u v := by
  constructor
  · rintro ⟨q, hq, h1, h2⟩
    rcases List.mem_cons.1 hq with hq | hq
    · subst hq
      exact Or.inl ⟨h1, h2⟩
    · exact Or.inr ⟨q, hq, h1, h2⟩
  · rintro (⟨h1, h2⟩ | ⟨q, hq, h1, h2⟩)
    · exact ⟨p, List.mem_cons_self _ _, h1, h2⟩
    · exact ⟨q, List.mem_cons_of_mem _ hq, h1, h2⟩

/-- The empty dict has no edges. -/
theorem edgeOf_nil (u v : NT) : ¬ EdgeOf ([] : List (NT × List NT)) u v := by
  rintro ⟨q, hq, _, _⟩
  simp at hq

/-- Edges of an append. -/
theorem edgeOf_append (A B : List (NT × List NT)) (u v : NT) :
    EdgeOf (A ++ B) u v ↔ EdgeOf A u v ∨ EdgeOf B u v := by
  constructor
  · rintro ⟨q, hq, h1, h2⟩
    rcases List.mem_append.1 hq with hq | hq
    · exact Or.inl ⟨q, hq, h1, h2⟩
    · exact Or.inr ⟨q, hq, h1, h2⟩
  · rintro (⟨q, hq, h1, h2⟩ | ⟨q, hq, h1, h2⟩)
    · exact ⟨q, List.mem_append_left _ hq, h1, h2⟩
    · exact ⟨q, List.mem_append_right _ hq, h1, h2⟩

/-- An entry with an empty neighbour list contributes no edge. -/
theorem edgeOf_single_empty (k u v : NT) :
    ¬ EdgeOf [(k, ([] : List NT))] u v := by
  rintro ⟨q, hq, h1, h2⟩
  simp at hq
  subst hq
  simp at h2

/-- Appending to an existing key's list through `dappend` adds one edge
`k → x` and keeps everything else. -/
theorem edgeOf_dappend (A : List (NT × List NT)) (k x : NT) (hk : k ∈ dkeys A)
    (u v : NT) : EdgeOf (dappend A k x) u v ↔ EdgeOf A u v ∨ (u = k ∧ v = x) := by
  induction A with
  | nil => simp [dkeys] at hk
  | cons p rest ih =>
    rw [dappend_cons]
    by_cases h : p.1 = k
    · rw [if_pos h, edgeOf_cons, edgeOf_cons]
      constructor
      · rintro (⟨h1, h2⟩ | h2)
        · rcases List.mem_append.1 h2 with h3 | h3
          · exact Or.inl (Or.inl ⟨h1, h3⟩)
          · simp at h3
            exact Or.inr ⟨by rw [← h1, h], h3⟩
        · exact Or.inl (Or.inr h2)
      · rintro ((⟨h1, h2⟩ | h2) | ⟨h1, h2⟩)
        · exact Or.inl ⟨h1, List.mem_append_left _ h2⟩
        · exact Or.inr h2
        · exact Or.inl ⟨by rw [h, ← h1], by simp [h2]⟩
    · rw [if_neg h]
      have hk' : k ∈ dkeys rest := by
        rcases List.mem_cons.1 hk with h1 | h1
        · exact absurd h1.symm h
        · exact h1
      rw [edgeOf_cons, edgeOf_cons, ih hk']
      tauto

/-- Indegree of a cons. -/
theorem inDegAll_cons (p : NT × List NT) (G : List (NT × List NT)) (v : NT) :
    inDegAll (p :: G) v = p.2.count v + inDegAll G v := by
  simp [inDegAll]

/-- Indegree of an append. -/
theorem inDegAll_append (A B : List (NT × List NT)) (v : NT) :
    inDegAll (A ++ B) v = inDegAll A v + inDegAll B v := by
  simp [inDegAll, List.sum_append]

/-- An entry with an empty neighbour list adds no indegree. -/
theorem inDegAll_single_empty (k v : NT) :
    inDegAll [(k, ([] : List NT))] v = 0 := by
  simp [inDegAll]

/-- `dappend` on an existing key adds one to exactly the appended node's
indegree. -/
theorem inDegAll_dappend (A : List (NT × List NT)) (k x : NT) (hk : k ∈ dkeys A)
    (v : NT) :
    inDegAll (dappend A k x) v = inDegAll A v + (if v = x then 1 else 0) := by
  induction A with
  | nil => simp [dkeys] at hk
  | cons p rest ih =>
    rw [dappend_cons]
    by_cases h : p.1 = k
    · rw [if_pos h, inDegAll_cons, inDegAll_cons]
      show (p.2 ++ [x]).count v + inDegAll rest v = _
      rw [List.count_append]
      by_cases hv : v = x
      · subst hv
        simp
        omega
      · have : [x].count v = 0 := by
          simp [List.count_singleton']
          exact fun he => hv he.symm
        rw [this, if_neg hv]
        omega
    · rw [if_neg h]
      have hk' : k ∈ dkeys rest := by
        rcases List.mem_cons.1 hk with h1 | h1
        · exact absurd h1.symm h
        · exact h1
      rw [inDegAll_cons, inDegAll_cons, ih hk']
      omega

/-- Every edge gives its target positive indegree. -/
theorem edge_target_pos {G : List (NT × List NT)} {u v : NT}
    (h : EdgeOf G u v) : 1 ≤ inDegAll G v := by
  obtain ⟨p, hp, _, h2⟩ := h
  have hc : 1 ≤ p.2.count v := List.count_pos_iff_mem.2 h2
  have hm : p.2.count v ∈ G.map (fun q => q.2.count v) :=
    List.mem_map_of_mem _ hp
  calc 1 ≤ p.2.count v := hc
    _ ≤ inDegAll G v := List.single_le_sum (fun x _ => Nat.zero_le x) _ hm

/-- In-count of a singleton collection. -/
theorem inCnt_singleton (G : List (NT × List NT)) (u v : NT) :
    inCnt G [u] v = ((dget G u).getD []).count v := by
  simp [inCnt]

/-- `set.add` of a fresh element appends it. -/
theorem sadd_not_mem (s : List NT) (x : NT) (h : x ∉ s) :
    sadd s x = s ++ [x] := by
  simp [sadd, h]


/-- Keys of an append. -/
theorem dkeys_append {β : Type} (A B : List (NT × β)) :
    dkeys (A ++ B) = dkeys A ++ dkeys B := by
  simp [dkeys]

/-- Adding a fresh key with an empty neighbour list preserves the
`_prepare_graph` invariant. -/
theorem prepInv_newkey (g : List (NT × List NT)) (tailKeys : List NT)
    (A : List (NT × List NT)) (ind : NT → Int) (nb : NT)
    (hI : PrepInv g tailKeys A ind) (hnb : nb ∉ dkeys A) (hnbg : nb ∉ dkeys g)
    (hsuf : ∀ k ∈ tailKeys, k ∈ dkeys g) :
    PrepInv g tailKeys (A ++ [(nb, [])]) ind := by
  have hkeys : dkeys (A ++ [(nb, [])]) = dkeys A ++ [nb] := by
    rw [dkeys_append]
    rfl
  refine ⟨?_, ?_, ?_, ?_, ?_, ?_⟩
  · rw [hkeys]
    simp [List.nodup_append, hI.nodup, hnb]
  · intro v
    rw [inDegAll_append, inDegAll_single_empty, Nat.add_zero]
    exact hI.indeg v
  · intro u v he
    rcases (edgeOf_append A _ u v).1 he with he | he
    · rcases hI.closure u v he with h1 | h1
      · rw [hkeys]
        exact Or.inl (List.mem_append_left _ h1)
      · exact Or.inr h1
    · exact absurd he (edgeOf_single_empty nb u v)
  · intro k hk
    rw [hkeys]
    intro hm
    rcases List.mem_append.1 hm with hm | hm
    · exact hI.notSuf k hk hm
    · simp at hm
      subst hm
      exact hnbg (hsuf k hk)
  · intro k hk hkg
    rw [hkeys] at hk
    rcases List.mem_append.1 hk with hk | hk
    · rw [dget_append_left A _ k hk]
      exact hI.empties k hk hkg
    · simp at hk
      subst hk
      rw [dget_append_new A _ k hnb]
      simp [dget]
  · intro k hk hks
    rw [hkeys]
    exact List.mem_append_left _ (hI.done k hk hks)

/-- Appending the edge `node → nb` (with its indegree increment) preserves the
`_prepare_graph` invariant, provided the target is a key already or an
unprocessed input key. -/
theorem prepInv_dappend (g : List (NT × List NT)) (tailKeys : List NT)
    (A : List (NT × List NT)) (ind : NT → Int) (node nb : NT)
    (hI : PrepInv g tailKeys A ind) (hnode : node ∈ dkeys A)
    (hnodeg : node ∈ dkeys g) (hnbmem : nb ∈ dkeys A ∨ nb ∈ tailKeys) :
    PrepInv g tailKeys (dappend A node nb)
      (fun x => if x = nb then ind x + 1 else ind x) := by
  have hkeys := dkeys_dappend A node nb
  refine ⟨?_, ?_, ?_, ?_, ?_, ?_⟩
  · rw [hkeys]
    exact hI.nodup
  · intro v
    rw [inDegAll_dappend A node nb hnode v]
    by_cases hv : v = nb
    · rw [if_pos hv, if_pos hv, hI.indeg v]
      push_cast
      ring
    · rw [if_neg hv, if_neg hv, hI.indeg v]
      push_cast
      ring
  · intro u v he
    rcases (edgeOf_dappend A node nb hnode u v).1 he with he | ⟨_, hv⟩
    · rcases hI.closure u v he with h1 | h1
      · rw [hkeys]
        exact Or.inl h1
      · exact Or.inr h1
    · subst hv
      rw [hkeys]
      exact hnbmem
  · intro k hk
    rw [hkeys]
    exact hI.notSuf k hk
  · intro k hk hkg
    rw [hkeys] at hk
    have hkn : k ≠ node := fun he => hkg (he ▸ hnodeg)
    rw [dget_dappend_ne A node k nb hkn]
    exact hI.empties k hk hkg
  · intro k hk hks
    rw [hkeys]
    exact hI.done k hk hks

/-- One inner-loop step of `_prepare_graph` preserves the invariant (and keys
only grow). -/
theorem prepEdge_inv (g : List (NT × List NT)) (tailKeys : List NT) (node : NT)
    (hnodeg : node ∈ dkeys g) (hsuf : ∀ k ∈ tailKeys, k ∈ dkeys g)
    (A : List (NT × List NT)) (ind : NT → Int) (nb : NT)
    (hI : PrepInv g tailKeys A ind) (hnode : node ∈ dkeys A) :
    PrepInv g tailKeys (prepEdge g node (A, ind) nb).1
        (prepEdge g node (A, ind) nb).2 ∧
      node ∈ dkeys (prepEdge g node (A, ind) nb).1 ∧
      ∀ k ∈ dkeys A, k ∈ dkeys (prepEdge g node (A, ind) nb).1 := by
  by_cases hnb : nb = node
  · have he : prepEdge g node (A, ind) nb = (A, ind) := by
      unfold prepEdge
      rw [if_pos hnb]
    rw [he]
    exact ⟨hI, hnode, fun k hk => hk⟩
  · by_cases hg : (dget g nb).isNone
    · have hnbg : nb ∉ dkeys g :=
        (dget_eq_none_iff g nb).1 (Option.isNone_iff_eq_none.1 hg)
      by_cases hmem : nb ∈ dkeys A
      · have hset : dset A nb ([] : List NT) = A :=
          dset_eq_self A nb [] (hI.empties nb hmem hnbg)
        have he : prepEdge g node (A, ind) nb =
            (dappend A node nb, fun x => if x = nb then ind x + 1 else ind x) := by
          unfold prepEdge
          rw [if_neg hnb, if_pos hg, hset]
        rw [he]
        refine ⟨prepInv_dappend g tailKeys A ind node nb hI hnode hnodeg
          (Or.inl hmem), ?_, ?_⟩
        · rw [dkeys_dappend]
          exact hnode
        · intro k hk
          rw [dkeys_dappend]
          exact hk
      · have hset : dset A nb ([] : List NT) = A ++ [(nb, [])] :=
          dset_not_mem A nb [] hmem
        have he : prepEdge g node (A, ind) nb =
            (dappend (A ++ [(nb, [])]) node nb,
              fun x => if x = nb then ind x + 1 else ind x) := by
          unfold prepEdge
          rw [if_neg hnb, if_pos hg, hset]
        rw [he]
        have hI' := prepInv_newkey g tailKeys A ind nb hI hmem hnbg hsuf
        have hnode' : node ∈ dkeys (A ++ [(nb, [])]) := by
          rw [dkeys_append]
          exact List.mem_append_left _ hnode
        have hmem' : nb ∈ dkeys (A ++ [(nb, [])]) := by
          rw [dkeys_append]
          refine List.mem_append_right _ ?_
          simp [dkeys]
        refine ⟨prepInv_dappend g tailKeys _ ind node nb hI' hnode' hnodeg
          (Or.inl hmem'), ?_, ?_⟩
        · rw [dkeys_dappend]
          exact hnode'
        · intro k hk
          rw [dkeys_dappend, dkeys_append]
          exact List.mem_append_left _ hk
    · have hnbg : nb ∈ dkeys g := by
        by_contra hc
        exact hg (Option.isNone_iff_eq_none.2 ((dget_eq_none_iff g nb).2 hc))
      have he : prepEdge g node (A, ind) nb =
          (dappend A node nb, fun x => if x = nb then ind x + 1 else ind x) := by
        unfold prepEdge
        rw [if_neg hnb, if_neg hg]
      rw [he]
      have hnbmem : nb ∈ dkeys A ∨ nb ∈ tailKeys := by
        by_cases hc : nb ∈ dkeys A
        · exact Or.inl hc
        · right
          by_contra hs
          exact hc (hI.done nb hnbg hs)
      refine ⟨prepInv_dappend g tailKeys A ind node nb hI hnode hnodeg hnbmem,
        ?_, ?_⟩
      · rw [dkeys_dappend]
        exact hnode
      · intro k hk
        rw [dkeys_dappend]
        exact hk

/-- The inner fold of `_prepare_graph` over a neighbour list preserves the
invariant. -/
theorem prepEdge_fold_inv (g : List (NT × List NT)) (tailKeys : List NT)
    (node : NT) (hnodeg : node ∈ dkeys g) (hsuf : ∀ k ∈ tailKeys, k ∈ dkeys g) :
    ∀ (nbs : List NT) (A : List (NT × List NT)) (ind : NT → Int),
      PrepInv g tailKeys A ind → node ∈ dkeys A →
      PrepInv g tailKeys (nbs.foldl (prepEdge g node) (A, ind)).1
          (nbs.foldl (prepEdge g node) (A, ind)).2 ∧
        node ∈ dkeys (nbs.foldl (prepEdge g node) (A, ind)).1 ∧
        ∀ k ∈ dkeys A, k ∈ dkeys (nbs.foldl (prepEdge g node) (A, ind)).1 := by
  intro nbs
  induction nbs with
  | nil => exact fun A ind hI hnode => ⟨hI, hnode, fun k hk => hk⟩
  | cons nb rest ih =>
    intro A ind hI hnode
    obtain ⟨hI', hnode', hmono'⟩ :=
      prepEdge_inv g tailKeys node hnodeg hsuf A ind nb hI hnode
    rw [List.foldl_cons]
    obtain ⟨hI2, hnode2, hmono2⟩ :=
      ih (prepEdge g node (A, ind) nb).1 (prepEdge g node (A, ind) nb).2 hI' hnode'
    exact ⟨hI2, hnode2, fun k hk => hmono2 k (hmono' k hk)⟩

/-- The outer fold of `_prepare_graph` turns the invariant over the whole
remaining suffix into the invariant with nothing left. -/
theorem prepStep_fold_inv (g : List (NT × List NT)) :
    ∀ (items : List (NT × List NT)) (A : List (NT × List NT)) (ind : NT → Int),
      PrepInv g (dkeys items) A ind → (dkeys items).Nodup →
      (∀ k ∈ dkeys items, k ∈ dkeys g) →
      PrepInv g []
        (items.foldl (fun acc p => prepStep g acc p.1 p.2) (A, ind)).1
        (items.foldl (fun acc p => prepStep g acc p.1 p.2) (A, ind)).2 := by
  intro items
  induction items with
  | nil => exact fun A ind hI _ _ => hI
  | cons item rest ih =>
    intro A ind hI hnd hkeys
    have hkeyseq : dkeys (item :: rest) = item.1 :: dkeys rest := rfl
    rw [hkeyseq] at hI hnd hkeys
    have hitemg : item.1 ∈ dkeys g := hkeys item.1 (List.mem_cons_self _ _)
    have hitemA : item.1 ∉ dkeys A := hI.notSuf item.1 (List.mem_cons_self _ _)
    have hset : dset A item.1 ([] : List NT) = A ++ [(item.1, [])] :=
      dset_not_mem A item.1 [] hitemA
    have hsuf : ∀ k ∈ dkeys rest, k ∈ dkeys g :=
      fun k hk => hkeys k (List.mem_cons_of_mem _ hk)
    have hI' : PrepInv g (dkeys rest) (A ++ [(item.1, [])]) ind := by
      refine ⟨?_, ?_, ?_, ?_, ?_, ?_⟩
      · rw [dkeys_append]
        refine List.Nodup.append hI.nodup (by simp [dkeys]) ?_
        intro k hk hk2
        simp [dkeys] at hk2
        subst hk2
        exact hitemA hk
      · intro v
        rw [inDegAll_append, inDegAll_single_empty, Nat.add_zero]
        exact hI.indeg v
      · intro u v he
        rcases (edgeOf_append A _ u v).1 he with he | he
        · rcases hI.closure u v he with h1 | h1
          · rw [dkeys_append]
            exact Or.inl (List.mem_append_left _ h1)
          · rcases List.mem_cons.1 h1 with h1 | h1
            · subst h1
              rw [dkeys_append]
              refine Or.inl (List.mem_append_right _ ?_)
              simp [dkeys]
            · exact Or.inr h1
        · exact absurd he (edgeOf_single_empty item.1 u v)
      · intro k hk
        rw [dkeys_append]
        intro hm
        rcases List.mem_append.1 hm with hm | hm
        · exact hI.notSuf k (List.mem_cons_of_mem _ hk) hm
        · simp [dkeys] at hm
          subst hm
          exact (List.nodup_cons.1 hnd).1 hk
      · intro k hk hkg
        rw [dkeys_append] at hk
        rcases List.mem_append.1 hk with hk | hk
        · rw [dget_append_left A _ k hk]
          exact hI.empties k hk hkg
        · simp [dkeys] at hk
          subst hk
          exact absurd hitemg hkg
      · intro k hk hks
        rw [dkeys_append]
        by_cases hknode : k = item.1
        · refine List.mem_append_right _ ?_
          simp [dkeys, hknode]
        · refine List.mem_append_left _ ?_
          refine hI.done k hk ?_
          intro hm
          rcases List.mem_cons.1 hm with hm | hm
          · exact hknode hm
          · exact hks hm
    have hnode' : item.1 ∈ dkeys (A ++ [(item.1, [])]) := by
      rw [dkeys_append]
      refine List.mem_append_right _ ?_
      simp [dkeys]
    obtain ⟨hI2, _, _⟩ := prepEdge_fold_inv g (dkeys rest) item.1 hitemg hsuf
      item.2 (A ++ [(item.1, [])]) ind hI' hnode'
    rw [List.foldl_cons]
    have hstep : prepStep g (A, ind) item.1 item.2 =
        item.2.foldl (prepEdge g item.1) (A ++ [(item.1, [])], ind) := by
      unfold prepStep
      rw [hset]
    rw [hstep]
    exact ih _ _ hI2 (List.nodup_cons.1 hnd).2 hsuf

/-- `_prepare_graph` of a Python dict: duplicate-free keys, an exact indegree
table, and key-closure of edge targets. -/
theorem prepare_graph_inv (g : List (NT × List NT)) (hg : PyDict g) :
    (dkeys (prepare_graph g).1).Nodup ∧
      (∀ v, (prepare_graph g).2 v = (inDegAll (prepare_graph g).1 v : Int)) ∧
      ∀ u v, EdgeOf (prepare_graph g).1 u v → v ∈ dkeys (prepare_graph g).1 := by
  have hI0 : PrepInv g (dkeys g) ([] : List (NT × List NT)) (fun _ => (0 : Int)) := by
    refine ⟨?_, ?_, ?_, ?_, ?_, ?_⟩
    · simp [dkeys]
    · intro v
      rfl
    · intro u v he
      exact absurd he (edgeOf_nil u v)
    · intro k _
      simp [dkeys]
    · intro k hk
      simp [dkeys] at hk
    · intro k hk hks
      exact absurd hk hks
  have hI := prepStep_fold_inv g g ([] : List (NT × List NT)) (fun _ => (0 : Int))
    hI0 hg (fun k hk => hk)
  refine ⟨hI.nodup, hI.indeg, ?_⟩
  intro u v he
  rcases hI.closure u v he with h1 | h1
  · exact h1
  · simp at h1


/-- Adding a fresh key with an empty list preserves the dependencies-normalizer
invariant. -/
theorem depInv_newkey (A : List (NT × List NT)) (ind : NT → Int) (k : NT)
    (hI : DepInv A ind) (hk : k ∉ dkeys A) : DepInv (A ++ [(k, [])]) ind := by
  refine ⟨?_, ?_, ?_⟩
  · rw [dkeys_append]
    refine List.Nodup.append hI.nodup (by simp [dkeys]) ?_
    intro x hx hx2
    simp [dkeys] at hx2
    subst hx2
    exact hk hx
  · intro v
    rw [inDegAll_append, inDegAll_single_empty, Nat.add_zero]
    exact hI.indeg v
  · intro u v he
    rcases (edgeOf_append A _ u v).1 he with he | he
    · rw [dkeys_append]
      exact List.mem_append_left _ (hI.closure u v he)
    · exact absurd he (edgeOf_single_empty k u v)

/-- Appending the reversed edge `dep → node` preserves the
dependencies-normalizer invariant. -/
theorem depInv_dappend (A : List (NT × List NT)) (ind : NT → Int) (dep node : NT)
    (hI : DepInv A ind) (hdep : dep ∈ dkeys A) (hnode : node ∈ dkeys A) :
    DepInv (dappend A dep node)
      (fun x => if x = node then ind x + 1 else ind x) := by
  have hkeys := dkeys_dappend A dep node
  refine ⟨?_, ?_, ?_⟩
  · rw [hkeys]
    exact hI.nodup
  · intro v
    rw [inDegAll_dappend A dep node hdep v]
    by_cases hv : v = node
    · rw [if_pos hv, if_pos hv, hI.indeg v]
      push_cast
      ring
    · rw [if_neg hv, if_neg hv, hI.indeg v]
      push_cast
      ring
  · intro u v he
    rcases (edgeOf_dappend A dep node hdep u v).1 he with he | ⟨_, hv⟩
    · rw [hkeys]
      exact hI.closure u v he
    · subst hv
      rw [hkeys]
      exact hnode

/-- One inner-loop step of `_get_edges_from_dependencies` preserves the
invariant (and keys only grow). -/
theorem depEdge_inv (node : NT) (A : List (NT × List NT)) (ind : NT → Int)
    (dep : NT) (hI : DepInv A ind) (hnode : node ∈ dkeys A) :
    DepInv (depEdge node (A, ind) dep).1 (depEdge node (A, ind) dep).2 ∧
      node ∈ dkeys (depEdge node (A, ind) dep).1 ∧
      ∀ k ∈ dkeys A, k ∈ dkeys (depEdge node (A, ind) dep).1 := by
  by_cases hd : dep = node
  · have he : depEdge node (A, ind) dep = (A, ind) := by
      unfold depEdge
      rw [if_pos hd]
    rw [he]
    exact ⟨hI, hnode, fun k hk => hk⟩
  · by_cases hg : (dget A dep).isNone
    · have hdm : dep ∉ dkeys A :=
        (dget_eq_none_iff A dep).1 (Option.isNone_iff_eq_none.1 hg)
      have hset : dset A dep ([] : List NT) = A ++ [(dep, [])] :=
        dset_not_mem A dep [] hdm
      have he : depEdge node (A, ind) dep =
          (dappend (A ++ [(dep, [])]) dep node,
            fun x => if x = node then ind x + 1 else ind x) := by
        unfold depEdge
        rw [if_neg hd, if_pos hg, hset]
      rw [he]
      have hI' := depInv_newkey A ind dep hI hdm
      have hdep' : dep ∈ dkeys (A ++ [(dep, [])]) := by
        rw [dkeys_append]
        refine List.mem_append_right _ ?_
        simp [dkeys]
      have hnode' : node ∈ dkeys (A ++ [(dep, [])]) := by
        rw [dkeys_append]
        exact List.mem_append_left _ hnode
      refine ⟨depInv_dappend _ ind dep node hI' hdep' hnode', ?_, ?_⟩
      · rw [dkeys_dappend]
        exact hnode'
      · intro k hk
        rw [dkeys_dappend, dkeys_append]
        exact List.mem_append_left _ hk
    · have hdm : dep ∈ dkeys A := by
        by_contra hc
        exact hg (Option.isNone_iff_eq_none.2 ((dget_eq_none_iff A dep).2 hc))
      have he : depEdge node (A, ind) dep =
          (dappend A dep node, fun x => if x = node then ind x + 1 else ind x) := by
        unfold depEdge
        rw [if_neg hd, if_neg hg]
      rw [he]
      refine ⟨depInv_dappend A ind dep node hI hdm hnode, ?_, ?_⟩
      · rw [dkeys_dappend]
        exact hnode
      · intro k hk
        rw [dkeys_dappend]
        exact hk

/-- The inner fold of `_get_edges_from_dependencies` preserves the invariant. -/
theorem depEdge_fold_inv (node : NT) :
    ∀ (deps : List NT) (A : List (NT × List NT)) (ind : NT → Int),
      DepInv A ind → node ∈ dkeys A →
      DepInv (deps.foldl (depEdge node) (A, ind)).1
          (deps.foldl (depEdge node) (A, ind)).2 ∧
        ∀ k ∈ dkeys A, k ∈ dkeys (deps.foldl (depEdge node) (A, ind)).1 := by
  intro deps
  induction deps with
  | nil => exact fun A ind hI _ => ⟨hI, fun k hk => hk⟩
  | cons dep rest ih =>
    intro A ind hI hnode
    obtain ⟨hI', hnode', hmono'⟩ := depEdge_inv node A ind dep hI hnode
    rw [List.foldl_cons]
    obtain ⟨hI2, hmono2⟩ :=
      ih (depEdge node (A, ind) dep).1 (depEdge node (A, ind) dep).2 hI' hnode'
    exact ⟨hI2, fun k hk => hmono2 k (hmono' k hk)⟩

/-- The outer fold of `_get_edges_from_dependencies` preserves the invariant. -/
theorem depStep_fold_inv :
    ∀ (items : List (NT × List NT)) (A : List (NT × List NT)) (ind : NT → Int),
      DepInv A ind →
      DepInv (items.foldl (fun acc p => depStep acc p.1 p.2) (A, ind)).1
        (items.foldl (fun acc p => depStep acc p.1 p.2) (A, ind)).2 := by
  intro items
  induction items with
  | nil => exact fun A ind hI => hI
  | cons item rest ih =>
    intro A ind hI
    rw [List.foldl_cons]
    by_cases hm : item.1 ∈ dkeys A
    · have hg : ¬ (dget A item.1).isNone := by
        obtain ⟨v, hv⟩ := dget_isSome_of_mem A item.1 hm
        rw [hv]
        simp
      have hstep : depStep (A, ind) item.1 item.2 =
          item.2.foldl (depEdge item.1) (A, ind) := by
        unfold depStep
        rw [if_neg hg]
      rw [hstep]
      obtain ⟨hI2, _⟩ := depEdge_fold_inv item.1 item.2 A ind hI hm
      exact ih _ _ hI2
    · have hg : (dget A item.1).isNone :=
        Option.isNone_iff_eq_none.2 ((dget_eq_none_iff A item.1).2 hm)
      have hset : dset A item.1 ([] : List NT) = A ++ [(item.1, [])] :=
        dset_not_mem A item.1 [] hm
      have hstep : depStep (A, ind) item.1 item.2 =
          item.2.foldl (depEdge item.1) (A ++ [(item.1, [])], ind) := by
        unfold depStep
        rw [if_pos hg, hset]
      rw [hstep]
      have hI' := depInv_newkey A ind item.1 hI hm
      have hnode' : item.1 ∈ dkeys (A ++ [(item.1, [])]) := by
        rw [dkeys_append]
        refine List.mem_append_right _ ?_
        simp [dkeys]
      obtain ⟨hI2, _⟩ := depEdge_fold_inv item.1 item.2 _ ind hI' hnode'
      exact ih _ _ hI2

/-- `_get_edges_from_dependencies`: duplicate-free keys, an exact indegree
table, and key-closure of edge targets (no hypothesis on the input needed). -/
theorem get_edges_inv (g : List (NT × List NT)) :
    (dkeys (get_edges_from_dependencies g).1).Nodup ∧
      (∀ v, (get_edges_from_dependencies g).2 v =
        (inDegAll (get_edges_from_dependencies g).1 v : Int)) ∧
      ∀ u v, EdgeOf (get_edges_from_dependencies g).1 u v →
        v ∈ dkeys (get_edges_from_dependencies g).1 := by
  have hI0 : DepInv ([] : List (NT × List NT)) (fun _ => (0 : Int)) := by
    refine ⟨?_, ?_, ?_⟩
    · simp [dkeys]
    · intro v
      rfl
    · intro u v he
      exact absurd he (edgeOf_nil u v)
  have hI := depStep_fold_inv g ([] : List (NT × List NT)) (fun _ => (0 : Int)) hI0
  exact ⟨hI.nodup, hI.indeg, hI.closure⟩


/-- The relaxation loop's final indegree: each neighbour occurrence
decrements once. -/
theorem bfsRelax_ind :
    ∀ (nbs : List NT) (ind : NT → Int) (out : List NT) (v : NT),
      (bfsRelax ind out nbs).1 v = ind v - nbs.count v := by
  intro nbs
  induction nbs with
  | nil =>
    intro ind out v
    simp [bfsRelax]
  | cons nb rest ih =>
    intro ind out v
    simp only [bfsRelax]
    rw [ih]
    by_cases hv : v = nb
    · subst hv
      rw [if_pos rfl, List.count_cons_self]
      push_cast
      ring
    · rw [if_neg hv, List.count_cons_of_ne hv]

/-- The relaxation loop only appends to its output. -/
theorem bfsRelax_prefix :
    ∀ (nbs : List NT) (ind : NT → Int) (out : List NT),
      ∃ d, (bfsRelax ind out nbs).2 = out ++ d := by
  intro nbs
  induction nbs with
  | nil =>
    intro ind out
    exact ⟨[], by simp [bfsRelax]⟩
  | cons nb rest ih =>
    intro ind out
    simp only [bfsRelax, if_true]
    by_cases hz : ind nb - 1 = 0
    · rw [if_pos hz]
      obtain ⟨d, hd⟩ := ih (fun x => if x = nb then ind x - 1 else ind x) (out ++ [nb])
      exact ⟨nb :: d, by rw [hd]; simp⟩
    · rw [if_neg hz]
      exact ih _ out

/-- Membership in the relaxation loop's output: old members, plus every node
whose indegree is positive but at most its occurrence count (those are the
nodes whose running indegree crosses zero during the loop). -/
theorem bfsRelax_mem :
    ∀ (nbs : List NT) (ind : NT → Int) (out : List NT) (w : NT),
      w ∈ (bfsRelax ind out nbs).2 ↔
        w ∈ out ∨ (1 ≤ ind w ∧ ind w ≤ (nbs.count w : Int)) := by
  intro nbs
  induction nbs with
  | nil =>
    intro ind out w
    simp only [bfsRelax]
    constructor
    · exact Or.inl
    · rintro (h | ⟨h1, h2⟩)
      · exact h
      · simp at h2
        omega
  | cons nb rest ih =>
    intro ind out w
    simp only [bfsRelax, if_true]
    rw [ih]
    by_cases hw : w = nb
    · subst hw
      rw [if_pos rfl, List.count_cons_self]
      by_cases hz : ind w - 1 = 0
      · rw [if_pos hz]
        constructor
        · intro _
          right
          push_cast
          constructor <;> omega
        · intro _
          left
          exact List.mem_append_right _ (by simp)
      · rw [if_neg hz]
        push_cast
        constructor
        · rintro (h | ⟨h1, h2⟩)
          · exact Or.inl h
          · right
            constructor <;> omega
        · rintro (h | ⟨h1, h2⟩)
          · exact Or.inl h
          · right
            constructor <;> omega
    · rw [if_neg hw, List.count_cons_of_ne hw]
      by_cases hz : ind nb - 1 = 0
      · rw [if_pos hz]
        constructor
        · rintro (h | h)
          · rcases List.mem_append.1 h with h | h
            · exact Or.inl h
            · simp at h
              exact absurd h hw
          · exact Or.inr h
        · rintro (h | h)
          · exact Or.inl (List.mem_append_left _ h)
          · exact Or.inr h
      · rw [if_neg hz]

/-- The relaxation loop's output stays duplicate-free, and all its members
end with non-positive indegree (so they are never appended twice). -/
theorem bfsRelax_nodup :
    ∀ (nbs : List NT) (ind : NT → Int) (out : List NT),
      out.Nodup → (∀ w ∈ out, ind w ≤ 0) →
      (bfsRelax ind out nbs).2.Nodup ∧
        ∀ w ∈ (bfsRelax ind out nbs).2, (bfsRelax ind out nbs).1 w ≤ 0 := by
  intro nbs
  induction nbs with
  | nil =>
    intro ind out h1 h2
    simp only [bfsRelax]
    exact ⟨h1, h2⟩
  | cons nb rest ih =>
    intro ind out h1 h2
    simp only [bfsRelax, if_true]
    by_cases hz : ind nb - 1 = 0
    · rw [if_pos hz]
      have hnb : nb ∉ out := by
        intro hm
        have := h2 nb hm
        omega
      refine ih _ _ ?_ ?_
      · simp [List.nodup_append, h1, hnb]
      · intro w hw
        rcases List.mem_append.1 hw with hw | hw
        · have := h2 w hw
          by_cases hwe : w = nb
          · rw [if_pos hwe]
            omega
          · rw [if_neg hwe]
            omega
        · simp at hw
          subst hw
          rw [if_pos rfl]
          omega
    · rw [if_neg hz]
      refine ih _ _ h1 ?_
      intro w hw
      have := h2 w hw
      by_cases hwe : w = nb
      · rw [if_pos hwe]
        omega
      · rw [if_neg hwe]
        omega


/-- Filter length is monotone in the predicate. -/
theorem length_filter_mono {α : Type} (l : List α) (p q : α → Bool)
    (h : ∀ x ∈ l, p x → q x) : (l.filter p).length ≤ (l.filter q).length := by
  induction l with
  | nil => simp
  | cons a rest ih =>
    have ih2 := ih (fun x hx => h x (List.mem_cons_of_mem _ hx))
    by_cases hp : p a
    · rw [List.filter_cons_of_pos hp,
        List.filter_cons_of_pos (h a (List.mem_cons_self _ _) hp)]
      simpa using ih2
    · rw [List.filter_cons_of_neg hp]
      by_cases hq : q a
      · rw [List.filter_cons_of_pos hq]
        simp
        omega
      · rw [List.filter_cons_of_neg hq]
        exact ih2

/-- Appending a node whose predecessors are all present preserves the
predecessor ordering. -/
theorem predsBefore_snoc {G : List (NT × List NT)} {vis : List NT} {node : NT}
    (h : PredsBefore G vis) (hnode : ∀ u, EdgeOf G u node → u ∈ vis) :
    PredsBefore G (vis ++ [node]) := by
  intro i v hv u hedge
  by_cases hi : i < vis.length
  · rw [List.get?_append hi] at hv
    rw [List.take_append_of_le_length (le_of_lt hi)]
    exact h i v hv u hedge
  · push_neg at hi
    rw [List.get?_append_right hi] at hv
    have hd : i - vis.length = 0 ∨ 1 ≤ i - vis.length := by omega
    rcases hd with hd | hd
    · rw [hd] at hv
      simp at hv
      subst hv
      rw [List.take_append_eq_append_take, List.take_of_length_le hi]
      exact List.mem_append_left _ (hnode u hedge)
    · rw [List.get?_eq_none.2 (by simp; omega)] at hv
      exact absurd hv (by simp)

/-- Appending a node whose successors are all present preserves the successor
ordering. -/
theorem succsBefore_snoc {G : List (NT × List NT)} {vis : List NT} {node : NT}
    (h : SuccsBefore G vis) (hnode : ∀ w, EdgeOf G node w → w ∈ vis) :
    SuccsBefore G (vis ++ [node]) := by
  intro i v hv w hedge
  by_cases hi : i < vis.length
  · rw [List.get?_append hi] at hv
    rw [List.take_append_of_le_length (le_of_lt hi)]
    exact h i v hv w hedge
  · push_neg at hi
    rw [List.get?_append_right hi] at hv
    have hd : i - vis.length = 0 ∨ 1 ≤ i - vis.length := by omega
    rcases hd with hd | hd
    · rw [hd] at hv
      simp at hv
      subst hv
      rw [List.take_append_eq_append_take, List.take_of_length_le hi]
      exact List.mem_append_left _ (hnode w hedge)
    · rw [List.get?_eq_none.2 (by simp; omega)] at hv
      exact absurd hv (by simp)

/-- One pop-and-relax step of the frontier loop: popping `node` off the front
of the (virtual) queue `node :: prq ++ o`, marking it visited and relaxing
its out-neighbours into `o` preserves the Kahn invariant over the new virtual
queue, strictly decreases the measure, and every node that newly entered the
frontier has all its predecessors visited. -/
theorem kahn_step {G : List (NT × List NT)} (hGnd : (dkeys G).Nodup)
    (hGcl : ∀ u v, EdgeOf G u v → v ∈ dkeys G)
    {node : NT} {ind : NT → Int} {vis : List NT} (prq o : List NT)
    (hK : KahnInv G (node :: (prq ++ o)) ind vis)
    {nbs : List NT} (hnbs : dget G node = some nbs) :
    KahnInv G (prq ++ (bfsRelax ind o nbs).2) (bfsRelax ind o nbs).1
        (vis ++ [node]) ∧
      bfsMeasure G (vis ++ [node]) (prq ++ (bfsRelax ind o nbs).2) <
        bfsMeasure G vis (node :: (prq ++ o)) ∧
      (∀ w ∈ (bfsRelax ind o nbs).2, w ∉ o →
        ∀ u, EdgeOf G u w → u ∈ vis ++ [node]) := by
  have hnodeK : node ∈ dkeys G := hK.qKeys node (List.mem_cons_self _ _)
  have hfresh : node ∉ vis := hK.qFresh node (List.mem_cons_self _ _)
  have hvisnd' : (vis ++ [node]).Nodup := by
    simp [List.nodup_append, hK.visNodup, hfresh]
  have hvk' : ∀ x ∈ vis ++ [node], x ∈ dkeys G := by
    intro x hx
    rcases List.mem_append.1 hx with hx | hx
    · exact hK.visKeys x hx
    · simp at hx
      subst hx
      exact hnodeK
  have hEn : ∀ v, EdgeOf G node v ↔ v ∈ nbs := by
    intro v
    rw [edgeOf_iff_dget G hGnd node v, hnbs]
    rfl
  have hq0 : ∀ x ∈ node :: (prq ++ o), ind x = 0 := by
    intro x hx
    have hxk : x ∈ dkeys G := hK.qKeys x hx
    have hful := (hK.closure x hxk).1 (Or.inr hx)
    have := hK.indEq x
    omega
  have hvis0 : ∀ x ∈ vis, ind x = 0 := by
    intro x hx
    have hxk := hK.visKeys x hx
    have hful := (hK.closure x hxk).1 (Or.inl hx)
    have := hK.indEq x
    omega
  have hindnn : ∀ v, 0 ≤ ind v := by
    intro v
    have h1 := hK.indEq v
    have h2 := inCnt_le G hGnd vis hK.visNodup hK.visKeys v
    omega
  have hcnt' : ∀ v, inCnt G (vis ++ [node]) v = inCnt G vis v + nbs.count v := by
    intro v
    rw [inCnt_append, inCnt_singleton, hnbs]
    rfl
  have hindf : ∀ v, (bfsRelax ind o nbs).1 v = ind v - nbs.count v :=
    fun v => bfsRelax_ind nbs ind o v
  have hmem : ∀ w, w ∈ (bfsRelax ind o nbs).2 ↔
      w ∈ o ∨ (1 ≤ ind w ∧ ind w ≤ (nbs.count w : Int)) :=
    fun w => bfsRelax_mem nbs ind o w
  have hqnd := hK.qNodup
  have htnd : (prq ++ o).Nodup := (List.nodup_cons.1 hqnd).2
  have hnodet : node ∉ prq ++ o := (List.nodup_cons.1 hqnd).1
  have hond : o.Nodup := (List.nodup_append.1 htnd).2.1
  have hprqnd : prq.Nodup := (List.nodup_append.1 htnd).1
  have hdisj : prq.Disjoint o := (List.nodup_append.1 htnd).2.2
  have ho0 : ∀ w ∈ o, ind w ≤ 0 := by
    intro w hw
    have := hq0 w (List.mem_cons_of_mem _ (List.mem_append_right _ hw))
    omega
  obtain ⟨hr2nd, _⟩ := bfsRelax_nodup nbs ind o hond ho0
  have hnew : ∀ w ∈ (bfsRelax ind o nbs).2, w ∉ o →
      1 ≤ ind w ∧ ind w ≤ (nbs.count w : Int) := by
    intro w hw hwo
    rcases (hmem w).1 hw with h1 | h1
    · exact absurd h1 hwo
    · exact h1
  have hnewvis : ∀ w, 1 ≤ ind w → w ∉ vis ∧ w ≠ node ∧ w ∉ prq ++ o := by
    intro w hw
    refine ⟨?_, ?_, ?_⟩
    · intro hm
      have := hvis0 w hm
      omega
    · intro he
      subst he
      have := hq0 w (List.mem_cons_self _ _)
      omega
    · intro hm
      have := hq0 w (List.mem_cons_of_mem _ hm)
      omega
  have hnewkeys : ∀ w, 1 ≤ ind w → ind w ≤ (nbs.count w : Int) →
      w ∈ dkeys G := by
    intro w h1 h2
    have hc : 0 < nbs.count w := by omega
    exact hGcl node w ((hEn w).2 (List.count_pos_iff_mem.1 hc))
  have hcle' : ∀ v, inCnt G (vis ++ [node]) v ≤ inDegAll G v :=
    fun v => inCnt_le G hGnd _ hvisnd' hvk' v
  have hthird : ∀ w ∈ (bfsRelax ind o nbs).2, w ∉ o →
      ∀ u, EdgeOf G u w → u ∈ vis ++ [node] := by
    intro w hw hwo
    obtain ⟨h1, h2⟩ := hnew w hw hwo
    have hiq := hK.indEq w
    have hcw := hcnt' w
    have hlew := hcle' w
    have hfw : inCnt G (vis ++ [node]) w = inDegAll G w := by omega
    exact (inCnt_full_iff G hGnd _ hvisnd' hvk' w).1 hfw
  obtain ⟨d, hd⟩ := bfsRelax_prefix nbs ind o
  have hosub : ∀ x ∈ o, x ∈ (bfsRelax ind o nbs).2 := by
    intro x hx
    rw [hd]
    exact List.mem_append_left _ hx
  have hKinv : KahnInv G (prq ++ (bfsRelax ind o nbs).2) (bfsRelax ind o nbs).1
      (vis ++ [node]) := by
    refine ⟨hvisnd', ?_, ?_, ?_, hvk', ?_, ?_, ?_⟩
    · refine List.Nodup.append hprqnd hr2nd ?_
      intro x hx hx2
      rcases (hmem x).1 hx2 with h1 | h1
      · exact hdisj hx h1
      · exact (hnewvis x h1.1).2.2 (List.mem_append_left _ hx)
    · intro x hx
      rcases List.mem_append.1 hx with hx | hx
      · intro hm
        rcases List.mem_append.1 hm with hm | hm
        · exact hK.qFresh x
            (List.mem_cons_of_mem _ (List.mem_append_left _ hx)) hm
        · simp at hm
          subst hm
          exact hnodet (List.mem_append_left _ hx)
      · rcases (hmem x).1 hx with h1 | h1
        · intro hm
          rcases List.mem_append.1 hm with hm | hm
          · exact hK.qFresh x
              (List.mem_cons_of_mem _ (List.mem_append_right _ h1)) hm
          · simp at hm
            subst hm
            exact hnodet (List.mem_append_right _ h1)
        · intro hm
          rcases List.mem_append.1 hm with hm | hm
          · exact (hnewvis x h1.1).1 hm
          · simp at hm
            exact (hnewvis x h1.1).2.1 hm
    · intro x hx
      rcases List.mem_append.1 hx with hx | hx
      · exact hK.qKeys x (List.mem_cons_of_mem _ (List.mem_append_left _ hx))
      · rcases (hmem x).1 hx with h1 | h1
        · exact hK.qKeys x (List.mem_cons_of_mem _ (List.mem_append_right _ h1))
        · exact hnewkeys x h1.1 h1.2
    · intro v
      rw [hindf v, hcnt' v, hK.indEq v]
      push_cast
      ring
    · intro v hv
      constructor
      · intro hmem2
        have hiq := hK.indEq v
        have hle := hcle' v
        have hc := hcnt' v
        rcases hmem2 with hm | hm
        · rcases List.mem_append.1 hm with hm | hm
          · have := (hK.closure v hv).1 (Or.inl hm)
            omega
          · simp at hm
            subst hm
            have := (hK.closure v hv).1 (Or.inr (List.mem_cons_self _ _))
            omega
        · rcases List.mem_append.1 hm with hm | hm
          · have := (hK.closure v hv).1
              (Or.inr (List.mem_cons_of_mem _ (List.mem_append_left _ hm)))
            omega
          · rcases (hmem v).1 hm with h1 | h1
            · have := (hK.closure v hv).1
                (Or.inr (List.mem_cons_of_mem _ (List.mem_append_right _ h1)))
              omega
            · omega
      · intro hful
        have hiq := hK.indEq v
        have hc := hcnt' v
        by_cases h1 : 1 ≤ ind v
        · exact Or.inr
            (List.mem_append_right _ ((hmem v).2 (Or.inr ⟨h1, by omega⟩)))
        · have hiz : ind v = 0 := by
            have := hindnn v
            omega
          have hfold : inCnt G vis v = inDegAll G v := by omega
          rcases (hK.closure v hv).2 hfold with hm | hm
          · exact Or.inl (List.mem_append_left _ hm)
          · rcases List.mem_cons.1 hm with hm | hm
            · subst hm
              exact Or.inl (List.mem_append_right _ (by simp))
            · rcases List.mem_append.1 hm with hm | hm
              · exact Or.inr (List.mem_append_left _ hm)
              · exact Or.inr (List.mem_append_right _ (hosub v hm))
    · refine predsBefore_snoc hK.ordered ?_
      intro u hedge
      have hfn : inCnt G vis node = inDegAll G node :=
        (hK.closure node hnodeK).1 (Or.inr (List.mem_cons_self _ _))
      exact (inCnt_full_iff G hGnd vis hK.visNodup hK.visKeys node).1 hfn u hedge
  refine ⟨hKinv, ?_, hthird⟩
  have hdnd : d.Nodup := by
    have h2 := hr2nd
    rw [hd] at h2
    exact (List.nodup_append.1 h2).2.1
  have hod : ∀ x ∈ d, x ∉ o := by
    have h2 := hr2nd
    rw [hd] at h2
    intro x hx hxo
    exact (List.nodup_append.1 h2).2.2 hxo hx
  have hdnewfacts : ∀ x ∈ d, 1 ≤ ind x ∧ ind x ≤ (nbs.count x : Int) := by
    intro x hx
    refine hnew x ?_ (hod x hx)
    rw [hd]
    exact List.mem_append_right _ hx
  have hsub : (((dkeys G).filter fun k =>
      decide (k ∉ vis ++ [node]) &&
        decide (k ∉ prq ++ (bfsRelax ind o nbs).2)) ++ d).Subperm
      ((dkeys G).filter fun k =>
        decide (k ∉ vis) && decide (k ∉ node :: (prq ++ o))) := by
    refine List.Nodup.subperm ?_ ?_
    · refine List.Nodup.append (hGnd.filter _) hdnd ?_
      intro x hx hxd
      obtain ⟨_, hcond⟩ := List.mem_filter.1 hx
      simp only [Bool.and_eq_true, decide_eq_true_eq] at hcond
      refine hcond.2 (List.mem_append_right _ ?_)
      rw [hd]
      exact List.mem_append_right _ hxd
    · intro x hx
      rcases List.mem_append.1 hx with hx | hx
      · obtain ⟨hxk, hcond⟩ := List.mem_filter.1 hx
        simp only [Bool.and_eq_true, decide_eq_true_eq] at hcond
        refine List.mem_filter.2 ⟨hxk, ?_⟩
        simp only [Bool.and_eq_true, decide_eq_true_eq]
        constructor
        · intro hm
          exact hcond.1 (List.mem_append_left _ hm)
        · intro hm
          rcases List.mem_cons.1 hm with hm | hm
          · exact hcond.1 (List.mem_append_right _ (by simp [hm]))
          · rcases List.mem_append.1 hm with hm | hm
            · exact hcond.2 (List.mem_append_left _ hm)
            · exact hcond.2 (List.mem_append_right _ (hosub x hm))
      · obtain ⟨h1, h2⟩ := hdnewfacts x hx
        obtain ⟨hnv, hnn, hnq⟩ := hnewvis x h1
        refine List.mem_filter.2 ⟨hnewkeys x h1 h2, ?_⟩
        simp only [Bool.and_eq_true, decide_eq_true_eq]
        constructor
        · exact hnv
        · intro hm
          rcases List.mem_cons.1 hm with hm | hm
          · exact hnn hm
          · exact hnq hm
  have hlen := hsub.length_le
  rw [List.length_append, hd] at hlen
  unfold bfsMeasure
  rw [hd]
  simp only [List.length_append, List.length_cons]
  omega


/-- When the frontier empties under the Kahn invariant on an acyclic graph,
the visited list is a permutation of the keys: otherwise the unvisited keys
form a closed set and contain a cycle. -/
theorem kahn_final {G : List (NT × List NT)} (hGnd : (dkeys G).Nodup)
    {ind : NT → Int} {vis : List NT} (hK : KahnInv G [] ind vis)
    (hacy : Acyclic G) : vis.Perm (dkeys G) := by
  refine (List.Nodup.subperm hK.visNodup hK.visKeys).antisymm ?_
  refine List.Nodup.subperm hGnd ?_
  intro k hk
  by_contra hkv
  set S := (dkeys G).filter (fun x => decide (x ∉ vis)) with hS
  have hkS : k ∈ S := List.mem_filter.2 ⟨hk, by simp [hkv]⟩
  have hSne : S ≠ [] := List.ne_nil_of_mem hkS
  have hclosed : ∀ v ∈ S, ∃ u ∈ S, EdgeOf G u v := by
    intro v hv
    obtain ⟨hvk, hcond⟩ := List.mem_filter.1 hv
    simp only [decide_eq_true_eq] at hcond
    have hnful : inCnt G vis v ≠ inDegAll G v := by
      intro hful
      rcases (hK.closure v hvk).2 hful with hm | hm
      · exact hcond hm
      · simp at hm
    have hexu : ∃ u, EdgeOf G u v ∧ u ∉ vis := by
      by_contra hall
      push_neg at hall
      exact hnful ((inCnt_full_iff G hGnd vis hK.visNodup hK.visKeys v).2
        (fun u hu => hall u hu))
    obtain ⟨u, hu1, hu2⟩ := hexu
    refine ⟨u, List.mem_filter.2 ⟨edgeOf_source_mem hu1, by simp [hu2]⟩, hu1⟩
  obtain ⟨w, hw⟩ := cycle_of_closed G S hSne hclosed
  exact hacy w hw

/-- `_check_cycle` raises nothing when the visited set covers the keys. -/
theorem check_cycle_none_of_perm (pyTruthy : NT → Bool)
    (asStr : NT → Option String) (graph : List (NT × List NT))
    (visited : List NT) (fuel : Nat) (hperm : visited.Perm (dkeys graph)) :
    check_cycle pyTruthy asStr graph visited fuel = none := by
  unfold check_cycle
  rw [if_neg]
  have h1 := hperm.length_eq
  have h2 : (dkeys graph).length = graph.length := List.length_map _ _
  omega

/-- The drain of `_node_generator` on an empty queue just checks for a
cycle. -/
theorem nodeGenRun_empty (pyTruthy : NT → Bool) (asStr : NT → Option String)
    (graph : List (NT × List NT)) (cfuel fuel : Nat) (ind : NT → Int)
    (vis : List NT) :
    nodeGenRun pyTruthy asStr graph cfuel fuel [] ind vis =
      ([], check_cycle pyTruthy asStr graph vis cfuel) := by
  cases fuel <;> rfl

/-- Master lemma for the full drain of `_node_generator` on an acyclic
canonical graph: starting from any state satisfying the Kahn invariant with
enough fuel, no error is raised and the final visited list is a key
permutation respecting the edge order. -/
theorem nodeGen_master (pyTruthy : NT → Bool) (asStr : NT → Option String)
    {G : List (NT × List NT)} (hGnd : (dkeys G).Nodup)
    (hGcl : ∀ u v, EdgeOf G u v → v ∈ dkeys G) (hacy : Acyclic G)
    (cfuel : Nat) :
    ∀ (fuel : Nat) (q : List NT) (ind : NT → Int) (vis : List NT),
      KahnInv G q ind vis → bfsMeasure G vis q ≤ fuel →
      (nodeGenRun pyTruthy asStr G cfuel fuel q ind vis).2 = none ∧
        (vis ++ (nodeGenRun pyTruthy asStr G cfuel fuel q ind vis).1).Perm
          (dkeys G) ∧
        PredsBefore G
          (vis ++ (nodeGenRun pyTruthy asStr G cfuel fuel q ind vis).1) := by
  intro fuel
  induction fuel with
  | zero =>
    intro q ind vis hK hm
    match q with
    | [] =>
      rw [nodeGenRun_empty]
      have hperm := kahn_final hGnd hK hacy
      refine ⟨check_cycle_none_of_perm pyTruthy asStr G vis cfuel hperm, ?_, ?_⟩
      · simpa using hperm
      · simpa using hK.ordered
    | node :: queue =>
      exfalso
      unfold bfsMeasure at hm
      simp only [List.length_cons] at hm
      omega
  | succ f ih =>
    intro q ind vis hK hm
    match q with
    | [] =>
      rw [nodeGenRun_empty]
      have hperm := kahn_final hGnd hK hacy
      refine ⟨check_cycle_none_of_perm pyTruthy asStr G vis cfuel hperm, ?_, ?_⟩
      · simpa using hperm
      · simpa using hK.ordered
    | node :: queue =>
      have hnodeK : node ∈ dkeys G := hK.qKeys node (List.mem_cons_self _ _)
      have hfresh : node ∉ vis := hK.qFresh node (List.mem_cons_self _ _)
      obtain ⟨nbs, hnbs⟩ := dget_isSome_of_mem G node hnodeK
      have hsadd : sadd vis node = vis ++ [node] := sadd_not_mem vis node hfresh
      have hrun : nodeGenRun pyTruthy asStr G cfuel (f + 1) (node :: queue) ind
          vis =
          (node :: (nodeGenRun pyTruthy asStr G cfuel f
              (bfsRelax ind queue nbs).2 (bfsRelax ind queue nbs).1
              (vis ++ [node])).1,
            (nodeGenRun pyTruthy asStr G cfuel f (bfsRelax ind queue nbs).2
              (bfsRelax ind queue nbs).1 (vis ++ [node])).2) := by
        rw [show nodeGenRun pyTruthy asStr G cfuel (f + 1) (node :: queue) ind
            vis =
            (let visited' := sadd vis node
             match dget G node with
             | none => ([node], some (.keyError node))
             | some nbs =>
               let r := bfsRelax ind queue nbs
               let rest := nodeGenRun pyTruthy asStr G cfuel f r.2 r.1 visited'
               (node :: rest.1, rest.2)) from rfl]
        rw [hnbs, hsadd]
      obtain ⟨hK', hmeas, _⟩ := kahn_step hGnd hGcl [] queue hK hnbs
      have hm' : bfsMeasure G (vis ++ [node]) (bfsRelax ind queue nbs).2 ≤ f := by
        simp only [List.nil_append] at hmeas
        omega
      obtain ⟨hr2, hperm, hord⟩ := ih (bfsRelax ind queue nbs).2
        (bfsRelax ind queue nbs).1 (vis ++ [node]) hK' hm'
      rw [hrun]
      refine ⟨hr2, ?_, ?_⟩
      · rw [show vis ++ node :: (nodeGenRun pyTruthy asStr G cfuel f
            (bfsRelax ind queue nbs).2 (bfsRelax ind queue nbs).1
            (vis ++ [node])).1 =
            (vis ++ [node]) ++ (nodeGenRun pyTruthy asStr G cfuel f
              (bfsRelax ind queue nbs).2 (bfsRelax ind queue nbs).1
              (vis ++ [node])).1 from by simp]
        exact hperm
      · rw [show vis ++ node :: (nodeGenRun pyTruthy asStr G cfuel f
            (bfsRelax ind queue nbs).2 (bfsRelax ind queue nbs).1
            (vis ++ [node])).1 =
            (vis ++ [node]) ++ (nodeGenRun pyTruthy asStr G cfuel f
              (bfsRelax ind queue nbs).2 (bfsRelax ind queue nbs).1
              (vis ++ [node])).1 from by simp]
        exact hord


/-- The drain of `_group_generator` on an empty queue just checks for a
cycle. -/
theorem groupGenRun_empty [LinearOrder NT] (pyTruthy : NT → Bool)
    (asStr : NT → Option String) (sg : Bool) (graph : List (NT × List NT))
    (cfuel fuel : Nat) (ind : NT → Int) (vis batch nextd : List NT) :
    groupGenRun pyTruthy asStr sg graph cfuel fuel [] ind vis batch nextd =
      ([], check_cycle pyTruthy asStr graph vis cfuel) := by
  cases fuel <;> rfl

/-- Master lemma for the full drain of `_group_generator` on an acyclic
canonical graph: starting from any state satisfying the batch invariant with
enough fuel over the virtual frontier, no error is raised, the already-yielded
batches plus the newly yielded ones flatten to a key permutation, and every
edge source lies in a strictly earlier batch than its target. -/
theorem groupGen_master [LinearOrder NT] (pyTruthy : NT → Bool)
    (asStr : NT → Option String) (sg : Bool) {G : List (NT × List NT)}
    (hGnd : (dkeys G).Nodup) (hGcl : ∀ u v, EdgeOf G u v → v ∈ dkeys G)
    (hacy : Acyclic G) (cfuel : Nat) :
    ∀ (fuel : Nat) (q : List NT) (ind : NT → Int) (vis batch nextd : List NT)
      (gs : List (List NT)),
      GroupInv G gs q ind vis batch nextd →
      (q = [] → batch = [] ∧ nextd = []) →
      bfsMeasure G vis (q ++ nextd) ≤ fuel →
      (groupGenRun pyTruthy asStr sg G cfuel fuel q ind vis batch nextd).2 =
          none ∧
        ((gs ++ (groupGenRun pyTruthy asStr sg G cfuel fuel q ind vis batch
          nextd).1).flatten).Perm (dkeys G) ∧
        (∀ i b2,
          (gs ++ (groupGenRun pyTruthy asStr sg G cfuel fuel q ind vis batch
            nextd).1).get? i = some b2 →
          ∀ v ∈ b2, ∀ u, EdgeOf G u v →
            u ∈ ((gs ++ (groupGenRun pyTruthy asStr sg G cfuel fuel q ind vis
              batch nextd).1).take i).flatten) := by
  intro fuel
  induction fuel with
  | zero =>
    intro q ind vis batch nextd gs hK hq0 hm
    match q with
    | [] =>
      obtain ⟨hb0, hn0⟩ := hq0 rfl
      subst hb0
      subst hn0
      rw [groupGenRun_empty]
      have hperm : vis.Perm (dkeys G) := kahn_final hGnd hK.base hacy
      have hgsperm : (gs.flatten).Perm (dkeys G) := by
        have := hK.decomp
        simp only [List.append_nil] at this
        exact this.trans hperm
      refine ⟨check_cycle_none_of_perm pyTruthy asStr G vis cfuel hperm, ?_, ?_⟩
      · simpa using hgsperm
      · intro i b2 hib v hv u hedge
        simp only [List.append_nil] at hib ⊢
        exact hK.gsOrder i b2 hib v hv u hedge
    | node :: queue =>
      exfalso
      unfold bfsMeasure at hm
      simp only [List.cons_append, List.length_cons] at hm
      omega
  | succ f ih =>
    intro q ind vis batch nextd gs hK hq0 hm
    match q with
    | [] =>
      obtain ⟨hb0, hn0⟩ := hq0 rfl
      subst hb0
      subst hn0
      rw [groupGenRun_empty]
      have hperm : vis.Perm (dkeys G) := kahn_final hGnd hK.base hacy
      have hgsperm : (gs.flatten).Perm (dkeys G) := by
        have := hK.decomp
        simp only [List.append_nil] at this
        exact this.trans hperm
      refine ⟨check_cycle_none_of_perm pyTruthy asStr G vis cfuel hperm, ?_, ?_⟩
      · simpa using hgsperm
      · intro i b2 hib v hv u hedge
        simp only [List.append_nil] at hib ⊢
        exact hK.gsOrder i b2 hib v hv u hedge
    | node :: queue =>
      have hnodeK : node ∈ dkeys G :=
        hK.base.qKeys node (List.mem_cons_self _ _)
      have hfresh : node ∉ vis := hK.base.qFresh node (List.mem_cons_self _ _)
      obtain ⟨nbs, hnbs⟩ := dget_isSome_of_mem G node hnodeK
      have hsadd : sadd vis node = vis ++ [node] := sadd_not_mem vis node hfresh
      have hrw : groupGenRun pyTruthy asStr sg G cfuel (f + 1) (node :: queue)
          ind vis batch nextd =
          (match dget G node with
           | none => ([], some (PyErr.keyError node))
           | some nbs =>
             if queue = [] then
               ((if sg then (batch ++ [node]).insertionSort (· ≤ ·)
                 else batch ++ [node]) ::
                 (groupGenRun pyTruthy asStr sg G cfuel f
                   (bfsRelax ind nextd nbs).2 (bfsRelax ind nextd nbs).1
                   (sadd vis node) [] []).1,
                (groupGenRun pyTruthy asStr sg G cfuel f
                  (bfsRelax ind nextd nbs).2 (bfsRelax ind nextd nbs).1
                  (sadd vis node) [] []).2)
             else
               groupGenRun pyTruthy asStr sg G cfuel f queue
                 (bfsRelax ind nextd nbs).1 (sadd vis node) (batch ++ [node])
                 (bfsRelax ind nextd nbs).2) := rfl
      by_cases hq : queue = []
      · subst hq
        obtain ⟨hK', hmeas, hthird⟩ := kahn_step hGnd hGcl [] nextd hK.base hnbs
        simp only [List.nil_append] at hK' hmeas
        simp only [List.cons_append, List.nil_append, List.length_cons] at hm
        set r2 := (bfsRelax ind nextd nbs).2 with hr2def
        set r1 := (bfsRelax ind nextd nbs).1 with hr1def
        set b := if sg then (batch ++ [node]).insertionSort (· ≤ ·)
          else batch ++ [node] with hbdef
        have hbperm : b.Perm (batch ++ [node]) := by
          rw [hbdef]
          by_cases hsg : sg
          · simp only [if_pos hsg]
            exact List.perm_insertionSort _ _
          · simp only [if_neg hsg]
            exact List.Perm.refl _
        have hfl : (gs ++ [b]).flatten = gs.flatten ++ b := by
          rw [List.flatten_append]
          simp
        have hvismem : ∀ x ∈ vis, x ∈ gs.flatten ++ batch :=
          fun x hx => hK.decomp.mem_iff.2 hx
        have hKB : GroupInv G (gs ++ [b]) r2 r1 (vis ++ [node]) [] [] := by
          refine ⟨?_, ?_, ?_, ?_, ?_, ?_⟩
          · rw [List.append_nil]
            exact hK'
          · rw [List.append_nil, hfl]
            have h1 : (gs.flatten ++ b).Perm (gs.flatten ++ (batch ++ [node])) :=
              List.Perm.append_left _ hbperm
            have h2 : (gs.flatten ++ (batch ++ [node])).Perm (vis ++ [node]) := by
              rw [← List.append_assoc]
              exact hK.decomp.append_right _
            exact h1.trans h2
          · intro v hv u hedge
            rw [hfl]
            by_cases hvn : v ∈ nextd
            · have h1 := hK.ndPreds v hvn u hedge
              rcases List.mem_append.1 (hvismem u h1) with h2 | h2
              · exact List.mem_append_left _ h2
              · exact List.mem_append_right _
                  (hbperm.mem_iff.2 (List.mem_append_left _ h2))
            · have h3 := hthird v hv hvn u hedge
              rcases List.mem_append.1 h3 with h2 | h2
              · rcases List.mem_append.1 (hvismem u h2) with h4 | h4
                · exact List.mem_append_left _ h4
                · exact List.mem_append_right _
                    (hbperm.mem_iff.2 (List.mem_append_left _ h4))
              · simp at h2
                subst h2
                exact List.mem_append_right _
                  (hbperm.mem_iff.2 (List.mem_append_right _ (by simp)))
          · intro v hv
            simp at hv
          · intro v hv
            simp at hv
          · intro i b2 hib v hv u hedge
            by_cases hi : i < gs.length
            · rw [List.get?_append hi] at hib
              rw [List.take_append_of_le_length (le_of_lt hi)]
              exact hK.gsOrder i b2 hib v hv u hedge
            · push_neg at hi
              rcases (show i - gs.length = 0 ∨ 1 ≤ i - gs.length by omega) with
                hd0 | hd0
              · rw [List.get?_append_right hi, hd0] at hib
                simp at hib
                subst hib
                have hvb : v ∈ batch ++ [node] := hbperm.mem_iff.1 hv
                rw [List.take_append_eq_append_take, List.take_of_length_le hi,
                  List.flatten_append]
                refine List.mem_append_left _ ?_
                rcases List.mem_append.1 hvb with hvb | hvb
                · exact hK.batchPreds v hvb u hedge
                · simp at hvb
                  subst hvb
                  exact hK.qPreds v (List.mem_cons_self _ _) u hedge
              · rw [List.get?_append_right hi,
                  List.get?_eq_none.2 (by simp; omega)] at hib
                exact absurd hib (by simp)
        have hmB : bfsMeasure G (vis ++ [node]) (r2 ++ []) ≤ f := by
          rw [List.append_nil]
          omega
        obtain ⟨hrec2, hrecperm, hrecord⟩ := ih r2 r1 (vis ++ [node]) [] []
          (gs ++ [b]) hKB (fun _ => ⟨rfl, rfl⟩) hmB
        have hres : groupGenRun pyTruthy asStr sg G cfuel (f + 1)
            (node :: []) ind vis batch nextd =
            (b :: (groupGenRun pyTruthy asStr sg G cfuel f r2 r1
              (vis ++ [node]) [] []).1,
              (groupGenRun pyTruthy asStr sg G cfuel f r2 r1
                (vis ++ [node]) [] []).2) := by
          simp only [hrw, hnbs]
          rw [hsadd, if_pos trivial]
        rw [hres]
        have hshape : gs ++ b :: (groupGenRun pyTruthy asStr sg G cfuel f r2 r1
            (vis ++ [node]) [] []).1 =
            (gs ++ [b]) ++ (groupGenRun pyTruthy asStr sg G cfuel f r2 r1
              (vis ++ [node]) [] []).1 := by
          simp
        refine ⟨hrec2, ?_, ?_⟩
        · rw [hshape]
          exact hrecperm
        · rw [hshape]
          exact hrecord
      · obtain ⟨hK', hmeas, hthird⟩ :=
          kahn_step hGnd hGcl queue nextd hK.base hnbs
        simp only [List.cons_append, List.length_cons] at hm
        set r2 := (bfsRelax ind nextd nbs).2 with hr2def
        set r1 := (bfsRelax ind nextd nbs).1 with hr1def
        have hKA : GroupInv G gs queue r1 (vis ++ [node]) (batch ++ [node])
            r2 := by
          refine ⟨hK', ?_, ?_, ?_, ?_, hK.gsOrder⟩
          · rw [← List.append_assoc]
            exact hK.decomp.append_right _
          · intro v hv u hedge
            exact hK.qPreds v (List.mem_cons_of_mem _ hv) u hedge
          · intro v hv u hedge
            by_cases hvn : v ∈ nextd
            · exact List.mem_append_left _ (hK.ndPreds v hvn u hedge)
            · exact hthird v hv hvn u hedge
          · intro v hv u hedge
            rcases List.mem_append.1 hv with hv | hv
            · exact hK.batchPreds v hv u hedge
            · simp at hv
              subst hv
              exact hK.qPreds v (List.mem_cons_self _ _) u hedge
        have hmA : bfsMeasure G (vis ++ [node]) (queue ++ r2) ≤ f := by omega
        obtain ⟨hrec2, hrecperm, hrecord⟩ := ih queue r1 (vis ++ [node])
          (batch ++ [node]) r2 gs hKA (fun h => absurd h hq) hmA
        have hres : groupGenRun pyTruthy asStr sg G cfuel (f + 1)
            (node :: queue) ind vis batch nextd =
            groupGenRun pyTruthy asStr sg G cfuel f queue r1 (vis ++ [node])
              (batch ++ [node]) r2 := by
          simp only [hrw, hnbs]
          rw [if_neg hq, hsadd]
        rw [hres]
        exact ⟨hrec2, hrecperm, hrecord⟩


/-- From any member of a relation-chain to its last element there is a
transitive step sequence. -/
theorem chain_transGen (R : NT → NT → Prop) :
    ∀ (l : List NT) (x y : NT), List.Chain' R (l ++ [x]) → y ∈ l →
      Relation.TransGen R y x := by
  intro l
  induction l with
  | nil =>
    intro x y _ hy
    simp at hy
  | cons a rest ih =>
    intro x y hchain hy
    rcases List.mem_cons.1 hy with hy | hy
    · subst hy
      match rest with
      | [] =>
        exact Relation.TransGen.single (List.chain'_cons.1 hchain).1
      | b :: rest' =>
        have h1 := (List.chain'_cons.1 hchain).1
        have h2 : List.Chain' R ((b :: rest') ++ [x]) :=
          (List.chain'_cons.1 hchain).2
        exact Relation.TransGen.head h1 (ih x b h2 (List.mem_cons_self _ _))
    · match rest, hy with
      | b :: rest', hy =>
        have h2 : List.Chain' R ((b :: rest') ++ [x]) :=
          (List.chain'_cons.1 hchain).2
        exact ih x y h2 hy

/-- The filter of a stronger predicate is a sublist of the filter of a weaker
one. -/
theorem filter_sublist_of_imp {α : Type} (l : List α) (p q : α → Bool)
    (h : ∀ x ∈ l, p x → q x) : List.Sublist (l.filter p) (l.filter q) := by
  induction l with
  | nil => simp
  | cons a rest ih =>
    have ih2 := ih (fun x hx => h x (List.mem_cons_of_mem _ hx))
    by_cases hp : p a
    · rw [List.filter_cons_of_pos hp,
        List.filter_cons_of_pos (h a (List.mem_cons_self _ _) hp)]
      exact ih2.cons₂ a
    · rw [List.filter_cons_of_neg hp]
      by_cases hq : q a
      · rw [List.filter_cons_of_pos hq]
        exact ih2.cons a
      · rw [List.filter_cons_of_neg hq]
        exact ih2

/-- The dfs fuel bound only shrinks as nodes get visited. -/
theorem dfsCost_anti {G : List (NT × List NT)} (cv vis vis' : List NT)
    (h : ∀ x ∈ vis, x ∈ vis') : dfsCost G cv vis' ≤ dfsCost G cv vis := by
  unfold dfsCost
  refine List.Sublist.sum_le_sum ((filter_sublist_of_imp G _ _ ?_).map _)
    (by simp)
  intro p _ hcond
  simp only [Bool.and_eq_true, decide_eq_true_eq] at hcond ⊢
  exact ⟨hcond.1, fun hm => hcond.2 (h _ hm)⟩

/-- Entering a fresh unvisited node consumes exactly its own unit plus one
per neighbour from the dfs fuel bound. -/
theorem dfsCost_snoc {G : List (NT × List NT)} (hGnd : (dkeys G).Nodup)
    {node : NT} {nbs : List NT} (hnbs : dget G node = some nbs)
    (cv visited : List NT) (hcv : node ∉ cv) (hvis : node ∉ visited) :
    dfsCost G (cv ++ [node]) visited + nbs.length + 1 = dfsCost G cv visited := by
  induction G with
  | nil => simp [dget] at hnbs
  | cons p rest ih =>
    have hnd' : (dkeys rest).Nodup := (List.nodup_cons.1 hGnd).2
    by_cases hp : p.1 = node
    · rw [dget_cons, if_pos hp] at hnbs
      injection hnbs with hnbs
      unfold dfsCost
      rw [List.filter_cons_of_neg (by simp [hp]),
        List.filter_cons_of_pos (by simp [hp, hcv, hvis])]
      have hrestq : rest.filter
          (fun q => decide (q.1 ∉ cv ++ [node]) && decide (q.1 ∉ visited)) =
          rest.filter (fun q => decide (q.1 ∉ cv) && decide (q.1 ∉ visited)) := by
        apply List.filter_congr
        intro q hq
        have hqn : q.1 ≠ node := by
          intro he
          refine (List.nodup_cons.1 hGnd).1 ?_
          rw [show p.1 = q.1 from by rw [hp, he]]
          exact List.mem_map_of_mem Prod.fst hq
        simp [List.mem_append, hqn]
      rw [hrestq, List.map_cons, List.sum_cons, ← hnbs]
      omega
    · rw [dget_cons, if_neg hp] at hnbs
      have hcondeq : (decide (p.1 ∉ cv ++ [node]) && decide (p.1 ∉ visited)) =
          (decide (p.1 ∉ cv) && decide (p.1 ∉ visited)) := by
        simp [List.mem_append, hp]
      have hih := ih hnd' hnbs
      unfold dfsCost at hih ⊢
      set fL := fun q : NT × List NT =>
        decide (q.1 ∉ cv ++ [node]) && decide (q.1 ∉ visited) with hfL
      set fR := fun q : NT × List NT =>
        decide (q.1 ∉ cv) && decide (q.1 ∉ visited) with hfR
      have hcondeq2 : fL p = fR p := by
        rw [hfL, hfR]
        exact hcondeq
      by_cases hpass : fR p = true
      · rw [List.filter_cons_of_pos (show fL p = true by
            rw [hcondeq2]; exact hpass),
          List.filter_cons_of_pos hpass, List.map_cons, List.sum_cons,
          List.map_cons, List.sum_cons]
        omega
      · rw [List.filter_cons_of_neg (show ¬ fL p = true by
            rw [hcondeq2]; exact hpass),
          List.filter_cons_of_neg hpass]
        exact hih


/-- Master lemma for the inner dfs of `_dfs_topological_sort` on an acyclic
canonical graph `G`: entering a fresh node (mode `.inl`) or continuing a
neighbour loop (mode `.inr`) with enough fuel succeeds, only appends to the
visited list, keeps it a duplicate-free post-ordered key list, never touches
the active path, and finishes the entered node (resp. all listed
neighbours). -/
theorem dfsWalk_master (pyTruthy : NT → Bool) (asStr : NT → Option String)
    (graph : List (NT × List NT)) {G : List (NT × List NT)}
    (hGnd : (dkeys G).Nodup) (hGcl : ∀ u v, EdgeOf G u v → v ∈ dkeys G)
    (hacy : Acyclic G) :
    ∀ (fuel : Nat) (cv visited : List NT) (mode : NT ⊕ List NT),
      DfsInv G visited →
      (match mode with
       | .inl node => node ∈ dkeys G ∧ node ∉ visited ∧
           List.Chain' (EdgeOf G) (cv ++ [node]) ∧
           dfsCost G cv visited + 1 ≤ fuel
       | .inr nbs => List.Chain' (EdgeOf G) cv ∧
           (∀ x ∈ nbs, ∃ lastn, cv.getLast? = some lastn ∧ EdgeOf G lastn x) ∧
           nbs.length + dfsCost G cv visited + 1 ≤ fuel) →
      ∃ vnew,
        dfsWalk pyTruthy asStr graph G fuel cv visited mode =
            .ok (visited ++ vnew) ∧
          DfsInv G (visited ++ vnew) ∧ (∀ x ∈ vnew, x ∉ cv) ∧
          (match mode with
           | .inl node => node ∈ vnew
           | .inr nbs => ∀ x ∈ nbs, x ∈ visited ++ vnew) := by
  intro fuel
  induction fuel with
  | zero =>
    intro cv visited mode hInv hmode
    exfalso
    match mode, hmode with
    | .inl node, hmode => omega
    | .inr nbs, hmode =>
      obtain ⟨_, _, h⟩ := hmode
      omega
  | succ f ih =>
    intro cv visited mode hInv hmode
    match mode, hmode with
    | .inl node, hmode =>
      obtain ⟨hkey, hnvis, hchain, hcost⟩ := hmode
      have hncv : node ∉ cv := by
        intro hm
        exact hacy node (chain_transGen (EdgeOf G) cv node node hchain hm)
      obtain ⟨nbs, hnbs⟩ := dget_isSome_of_mem G node hkey
      have hEn : ∀ v, EdgeOf G node v ↔ v ∈ nbs := by
        intro v
        rw [edgeOf_iff_dget G hGnd node v, hnbs]
        rfl
      have hrw : dfsWalk pyTruthy asStr graph G (f + 1) cv visited
          (.inl node) =
          (if node ∈ cv then
            match get_cycle pyTruthy graph (some node) recLimit with
            | .error e => .error e
            | .ok cyc => .error (mkCycleError asStr cyc)
          else
            match dget G node with
            | none => .error (PyErr.keyError node)
            | some nbs2 =>
              match dfsWalk pyTruthy asStr graph G f (cv ++ [node]) visited
                  (.inr nbs2) with
              | .error e => .error e
              | .ok visited' => .ok (visited' ++ [node])) := rfl
      have hsnoc := dfsCost_snoc hGnd hnbs cv visited hncv hnvis
      have hcall : List.Chain' (EdgeOf G) (cv ++ [node]) ∧
          (∀ x ∈ nbs, ∃ lastn, (cv ++ [node]).getLast? = some lastn ∧
            EdgeOf G lastn x) ∧
          nbs.length + dfsCost G (cv ++ [node]) visited + 1 ≤ f := by
        refine ⟨hchain, ?_, by omega⟩
        intro x hx
        exact ⟨node, List.getLast?_concat cv, (hEn x).2 hx⟩
      obtain ⟨vnew1, hok1, hInv1, hfresh1, hall1⟩ :=
        ih (cv ++ [node]) visited (.inr nbs) hInv hcall
      have hnodenew : node ∉ vnew1 :=
        fun hm => hfresh1 node hm (List.mem_append_right _ (by simp))
      refine ⟨vnew1 ++ [node], ?_, ?_, ?_, ?_⟩
      · rw [hrw, if_neg hncv]
        simp only [hnbs]
        rw [hok1]
        show Except.ok ((visited ++ vnew1) ++ [node]) = _
        rw [List.append_assoc]
      · have hassoc : visited ++ (vnew1 ++ [node]) =
            (visited ++ vnew1) ++ [node] := (List.append_assoc _ _ _).symm
        refine ⟨?_, ?_, ?_⟩
        · rw [hassoc]
          refine List.Nodup.append hInv1.nodup (by simp) ?_
          intro x hx hx2
          simp at hx2
          subst hx2
          rcases List.mem_append.1 hx with hx | hx
          · exact hnvis hx
          · exact hnodenew hx
        · intro x hx
          rw [hassoc] at hx
          rcases List.mem_append.1 hx with hx | hx
          · exact hInv1.keys x hx
          · simp at hx
            subst hx
            exact hkey
        · rw [hassoc]
          refine succsBefore_snoc hInv1.ordered ?_
          intro w hw
          exact hall1 w ((hEn w).1 hw)
      · intro x hx
        rcases List.mem_append.1 hx with hx | hx
        · intro hm
          exact hfresh1 x hx (List.mem_append_left _ hm)
        · simp at hx
          subst hx
          exact hncv
      · exact List.mem_append_right _ (by simp)
    | .inr nbs, hmode =>
      obtain ⟨hchain, hlast, hcost⟩ := hmode
      match nbs, hlast, hcost with
      | [], hlast, hcost =>
        refine ⟨[], by simp [dfsWalk], ?_, by simp, by simp⟩
        rw [List.append_nil]
        exact hInv
      | nb :: rest, hlast, hcost =>
        have hrw : dfsWalk pyTruthy asStr graph G (f + 1) cv visited
            (.inr (nb :: rest)) =
            (if nb ∈ visited then
              dfsWalk pyTruthy asStr graph G f cv visited (.inr rest)
            else
              match dfsWalk pyTruthy asStr graph G f cv visited (.inl nb) with
              | .error e => .error e
              | .ok visited' =>
                dfsWalk pyTruthy asStr graph G f cv visited' (.inr rest)) := rfl
        by_cases hnbv : nb ∈ visited
        · have hcall : List.Chain' (EdgeOf G) cv ∧
              (∀ x ∈ rest, ∃ lastn, cv.getLast? = some lastn ∧
                EdgeOf G lastn x) ∧
              rest.length + dfsCost G cv visited + 1 ≤ f := by
            refine ⟨hchain, ?_, ?_⟩
            · intro x hx
              exact hlast x (List.mem_cons_of_mem _ hx)
            · simp only [List.length_cons] at hcost
              omega
          obtain ⟨vnew, hok, hInv', hfresh, hall⟩ :=
            ih cv visited (.inr rest) hInv hcall
          refine ⟨vnew, ?_, hInv', hfresh, ?_⟩
          · rw [hrw, if_pos hnbv]
            exact hok
          · intro x hx
            rcases List.mem_cons.1 hx with hx | hx
            · subst hx
              exact List.mem_append_left _ hnbv
            · exact hall x hx
        · obtain ⟨lastn, hl, hedge⟩ := hlast nb (List.mem_cons_self _ _)
          have hchainnb : List.Chain' (EdgeOf G) (cv ++ [nb]) := by
            refine List.chain'_append.2 ⟨hchain, List.chain'_singleton _, ?_⟩
            intro x hx y hy
            rw [hl] at hx
            simp at hx hy
            subst hx
            subst hy
            exact hedge
          have hcall1 : nb ∈ dkeys G ∧ nb ∉ visited ∧
              List.Chain' (EdgeOf G) (cv ++ [nb]) ∧
              dfsCost G cv visited + 1 ≤ f := by
            refine ⟨hGcl lastn nb hedge, hnbv, hchainnb, ?_⟩
            simp only [List.length_cons] at hcost
            omega
          obtain ⟨vnew1, hok1, hInv1, hfresh1, hmem1⟩ :=
            ih cv visited (.inl nb) hInv hcall1
          have hanti := dfsCost_anti (G := G) cv visited (visited ++ vnew1)
            (fun x hx => List.mem_append_left _ hx)
          have hcall2 : List.Chain' (EdgeOf G) cv ∧
              (∀ x ∈ rest, ∃ lastn, cv.getLast? = some lastn ∧
                EdgeOf G lastn x) ∧
              rest.length + dfsCost G cv (visited ++ vnew1) + 1 ≤ f := by
            refine ⟨hchain, ?_, ?_⟩
            · intro x hx
              exact hlast x (List.mem_cons_of_mem _ hx)
            · simp only [List.length_cons] at hcost
              omega
          obtain ⟨vnew2, hok2, hInv2, hfresh2, hall2⟩ :=
            ih cv (visited ++ vnew1) (.inr rest) hInv1 hcall2
          refine ⟨vnew1 ++ vnew2, ?_, ?_, ?_, ?_⟩
          · rw [hrw, if_neg hnbv, hok1]
            show dfsWalk pyTruthy asStr graph G f cv (visited ++ vnew1)
              (.inr rest) = _
            rw [hok2, List.append_assoc]
          · have hassoc : visited ++ (vnew1 ++ vnew2) =
                (visited ++ vnew1) ++ vnew2 := (List.append_assoc _ _ _).symm
            rw [hassoc]
            exact hInv2
          · intro x hx
            rcases List.mem_append.1 hx with hx | hx
            · exact hfresh1 x hx
            · exact hfresh2 x hx
          · intro x hx
            rcases List.mem_cons.1 hx with hx | hx
            · subst hx
              exact List.mem_append_right _ (List.mem_append_left _ hmem1)
            · have := hall2 x hx
              rw [List.append_assoc] at this
              exact this


/-- The dfs fuel budget handed over by the top loop always suffices. -/
theorem dfsCost_le_graphSize (G : List (NT × List NT)) (visited : List NT) :
    dfsCost G [] visited + 1 ≤ graphSize G := by
  unfold dfsCost graphSize
  have hsl : List.Sublist (List.filter (fun q : NT × List NT =>
      decide (q.1 ∉ ([] : List NT)) && decide (q.1 ∉ visited)) G) G :=
    List.filter_sublist _
  have h := List.Sublist.sum_le_sum (hsl.map (fun p => p.2.length + 1))
    (by simp)
  omega

/-- Master lemma for the `for node in new_graph` loop of
`_dfs_topological_sort`: on an acyclic canonical graph it succeeds, visits
every listed key, and keeps the visited list a duplicate-free post-ordered
key list. -/
theorem dfsTopLoop_master (pyTruthy : NT → Bool) (asStr : NT → Option String)
    (graph : List (NT × List NT)) {G : List (NT × List NT)}
    (hGnd : (dkeys G).Nodup) (hGcl : ∀ u v, EdgeOf G u v → v ∈ dkeys G)
    (hacy : Acyclic G) :
    ∀ (keys : List NT) (visited : List NT), DfsInv G visited →
      (∀ n ∈ keys, n ∈ dkeys G) →
      ∃ vnew,
        dfsTopLoop pyTruthy asStr graph G keys visited =
            .ok (visited ++ vnew) ∧
          DfsInv G (visited ++ vnew) ∧ ∀ n ∈ keys, n ∈ visited ++ vnew := by
  intro keys
  induction keys with
  | nil =>
    intro visited hInv _
    refine ⟨[], ?_, ?_, by simp⟩
    · show Except.ok visited = _
      rw [List.append_nil]
    · rw [List.append_nil]
      exact hInv
  | cons n rest ih =>
    intro visited hInv hkeys
    have hrw : dfsTopLoop pyTruthy asStr graph G (n :: rest) visited =
        (if n ∈ visited then dfsTopLoop pyTruthy asStr graph G rest visited
         else
           match dfsVisit pyTruthy asStr graph G (graphSize G) [] visited n with
           | .error e => .error e
           | .ok v2 => dfsTopLoop pyTruthy asStr graph G rest v2) := rfl
    by_cases hn : n ∈ visited
    · obtain ⟨vnew, hok, hInv2, hmem⟩ := ih visited hInv
        (fun x hx => hkeys x (List.mem_cons_of_mem _ hx))
      refine ⟨vnew, ?_, hInv2, ?_⟩
      · rw [hrw, if_pos hn]
        exact hok
      · intro x hx
        rcases List.mem_cons.1 hx with hx | hx
        · subst hx
          exact List.mem_append_left _ hn
        · exact hmem x hx
    · have hcall : n ∈ dkeys G ∧ n ∉ visited ∧
          List.Chain' (EdgeOf G) ([] ++ [n]) ∧
          dfsCost G [] visited + 1 ≤ graphSize G := by
        exact ⟨hkeys n (List.mem_cons_self _ _), hn,
          List.chain'_singleton _, dfsCost_le_graphSize G visited⟩
      obtain ⟨vnew1, hok1, hInv1, _, hmem1⟩ := dfsWalk_master pyTruthy asStr
        graph hGnd hGcl hacy (graphSize G) [] visited (.inl n) hInv hcall
      obtain ⟨vnew2, hok2, hInv2, hmem2⟩ := ih (visited ++ vnew1) hInv1
        (fun x hx => hkeys x (List.mem_cons_of_mem _ hx))
      refine ⟨vnew1 ++ vnew2, ?_, ?_, ?_⟩
      · rw [hrw, if_neg hn,
          show dfsVisit pyTruthy asStr graph G (graphSize G) [] visited n =
            dfsWalk pyTruthy asStr graph G (graphSize G) [] visited (.inl n)
            from rfl,
          hok1]
        show dfsTopLoop pyTruthy asStr graph G rest (visited ++ vnew1) = _
        rw [hok2, List.append_assoc]
      · have hassoc : visited ++ (vnew1 ++ vnew2) =
            (visited ++ vnew1) ++ vnew2 := (List.append_assoc _ _ _).symm
        rw [hassoc]
        exact hInv2
      · intro x hx
        rcases List.mem_cons.1 hx with hx | hx
        · subst hx
          exact List.mem_append_right _ (List.mem_append_left _ hmem1)
        · have := hmem2 x hx
          rw [List.append_assoc] at this
          exact this

/-- `_dfs_topological_sort` on an acyclic canonical graph: it returns a
permutation of the canonical keys in which every edge source precedes its
target. -/
theorem dfs_sort_master (pyTruthy : NT → Bool) (asStr : NT → Option String)
    (graph : List (NT × List NT)) (graph_type : String)
    (hGnd : (dkeys (canonical graph graph_type)).Nodup)
    (hGcl : ∀ u v, EdgeOf (canonical graph graph_type) u v →
      v ∈ dkeys (canonical graph graph_type))
    (hacy : Acyclic (canonical graph graph_type)) :
    ∃ l, dfs_topological_sort pyTruthy asStr graph graph_type = .ok l ∧
      l.Perm (dkeys (canonical graph graph_type)) ∧
      ∀ u v, EdgeOf (canonical graph graph_type) u v → Before l u v := by
  set G := canonical graph graph_type with hGdef
  have hInv0 : DfsInv G ([] : List NT) := by
    refine ⟨List.nodup_nil, by simp, ?_⟩
    intro i v hv
    simp at hv
  obtain ⟨vnew, hok, hInv, hall⟩ := dfsTopLoop_master pyTruthy asStr graph
    hGnd hGcl hacy (dkeys G) [] hInv0 (fun n hn => hn)
  have hInv' : DfsInv G vnew := hInv
  have hrw : dfs_topological_sort pyTruthy asStr graph graph_type =
      (match dfsTopLoop pyTruthy asStr graph G (dkeys G) [] with
       | .error e => .error e
       | .ok visited => .ok visited.reverse) := rfl
  have hsub : ∀ x ∈ vnew, x ∈ dkeys G := hInv'.keys
  have hsup : ∀ x ∈ dkeys G, x ∈ vnew := by
    intro x hx
    exact hall x hx
  have hperm : vnew.Perm (dkeys G) :=
    (List.Nodup.subperm hInv'.nodup hsub).antisymm
      (List.Nodup.subperm hGnd hsup)
  refine ⟨vnew.reverse, ?_, ?_, ?_⟩
  · rw [hrw, hok]
    rfl
  · exact (List.reverse_perm vnew).trans hperm
  · intro u v hedge
    refine before_reverse_of_succsBefore hInv'.nodup hInv'.ordered hedge ?_
    exact hsup u (edgeOf_source_mem hedge)


/-- The initial state of the frontier loop satisfies the Kahn invariant. -/
theorem kahn_init {G : List (NT × List NT)} (ind0 : NT → Int)
    (hGnd : (dkeys G).Nodup) (hind : ∀ v, ind0 v = (inDegAll G v : Int)) :
    KahnInv G ((dkeys G).filter fun k => decide (ind0 k = 0)) ind0 [] := by
  refine ⟨List.nodup_nil, hGnd.filter _, by simp, ?_, by simp, ?_, ?_, ?_⟩
  · intro x hx
    exact (List.mem_filter.1 hx).1
  · intro v
    rw [hind v]
    simp [inCnt]
  · intro v hv
    have h0 : inCnt G [] v = 0 := rfl
    constructor
    · intro h
      rcases h with h | h
      · simp at h
      · have h2 := (List.mem_filter.1 h).2
        simp only [decide_eq_true_eq] at h2
        have h3 := hind v
        rw [h0]
        omega
    · intro h
      right
      refine List.mem_filter.2 ⟨hv, ?_⟩
      simp only [decide_eq_true_eq]
      rw [h0] at h
      have h3 := hind v
      omega
  · intro i v hv
    simp at hv

/-- The fuel the entry points hand to the frontier loop covers the initial
measure. -/
theorem bfsMeasure_init_le {G : List (NT × List NT)} (q0 : List NT) :
    bfsMeasure G [] q0 ≤ G.length + q0.length + 2 := by
  unfold bfsMeasure
  have h1 := List.length_filter_le
    (fun k => decide (k ∉ ([] : List NT)) && decide (k ∉ q0)) (dkeys G)
  have h2 : (dkeys G).length = G.length := List.length_map _ _
  omega

/-- Normalizer facts for the canonical graph of a Python dict under either
`graph_type`: duplicate-free keys, an exact indegree table, and key-closure
of edge targets. -/
theorem canonical_facts (graph : List (NT × List NT)) (gt : String)
    (hg : PyDict graph) :
    (dkeys (canonical graph gt)).Nodup ∧
      (∀ v, (if gt = "dependencies" then get_edges_from_dependencies graph
        else prepare_graph graph).2 v = (inDegAll (canonical graph gt) v : Int)) ∧
      ∀ u v, EdgeOf (canonical graph gt) u v →
        v ∈ dkeys (canonical graph gt) := by
  unfold canonical
  by_cases hgt : gt = "dependencies"
  · simp only [if_pos hgt]
    exact get_edges_inv graph
  · simp only [if_neg hgt]
    exact prepare_graph_inv graph hg

/-- Position of a member of the left part of an append. -/
theorem indexOf_append_left (pre suf : List NT) (u : NT) (h : u ∈ pre) :
    (pre ++ suf).indexOf u < pre.length := by
  induction pre with
  | nil => simp at h
  | cons a rest ih =>
    by_cases ha : a = u
    · subst ha
      rw [List.cons_append, List.indexOf_cons_self]
      simp
    · rcases List.mem_cons.1 h with h1 | h1
      · exact absurd h1.symm ha
      · rw [List.cons_append, List.indexOf_cons_ne _ ha]
        have := ih h1
        simp only [List.length_cons]
        omega

/-- Position of a non-member of the left part of an append. -/
theorem indexOf_append_right (pre suf : List NT) (v : NT) (h : v ∉ pre) :
    pre.length ≤ (pre ++ suf).indexOf v := by
  induction pre with
  | nil => simp
  | cons a rest ih =>
    have ha : a ≠ v := fun he => h (he ▸ List.mem_cons_self _ _)
    have h1 : v ∉ rest := fun hm => h (List.mem_cons_of_mem _ hm)
    rw [List.cons_append, List.indexOf_cons_ne _ ha]
    have := ih h1
    simp only [List.length_cons]
    omega

/-- A batchwise edge ordering plus a duplicate-free flattening yields
positional ordering on the flattening. -/
theorem before_flatten_of_batchOrder {G : List (NT × List NT)}
    (gs : List (List NT)) (hnd : gs.flatten.Nodup)
    (horder : ∀ i b, gs.get? i = some b → ∀ v ∈ b, ∀ u, EdgeOf G u v →
      u ∈ (gs.take i).flatten)
    {u v : NT} (hedge : EdgeOf G u v) (hv : v ∈ gs.flatten) :
    Before gs.flatten u v := by
  obtain ⟨b, hb, hvb⟩ := List.mem_flatten.1 hv
  obtain ⟨i, hib⟩ := List.get?_of_mem hb
  have hu : u ∈ (gs.take i).flatten := horder i b hib v hvb u hedge
  have hsplit : gs.flatten = (gs.take i).flatten ++ (gs.drop i).flatten := by
    rw [← List.flatten_append, List.take_append_drop]
  have hvdrop : v ∈ (gs.drop i).flatten := by
    refine List.mem_flatten.2 ⟨b, ?_, hvb⟩
    have : (gs.drop i).get? 0 = some b := by
      rw [List.get?_drop]
      simpa using hib
    exact List.get?_mem this
  have hvnotpre : v ∉ (gs.take i).flatten := by
    intro hm
    rw [hsplit] at hnd
    exact (List.nodup_append.1 hnd).2.2 hm hvdrop
  refine ⟨?_, hv, ?_⟩
  · rw [hsplit]
    exact List.mem_append_left _ hu
  · rw [hsplit]
    have h1 := indexOf_append_left ((gs.take i).flatten) ((gs.drop i).flatten)
      u hu
    have h2 := indexOf_append_right ((gs.take i).flatten) ((gs.drop i).flatten)
      v hvnotpre
    omega

/-- A batchwise edge ordering yields strict batch-index ordering. -/
theorem groupsBefore_of_batchOrder {G : List (NT × List NT)}
    (gs : List (List NT))
    (horder : ∀ i b, gs.get? i = some b → ∀ v ∈ b, ∀ u, EdgeOf G u v →
      u ∈ (gs.take i).flatten)
    {u v : NT} (hedge : EdgeOf G u v) (hv : v ∈ gs.flatten) :
    GroupsBefore gs u v := by
  obtain ⟨b, hb, hvb⟩ := List.mem_flatten.1 hv
  obtain ⟨j, hjb⟩ := List.get?_of_mem hb
  have hu : u ∈ (gs.take j).flatten := horder j b hjb v hvb u hedge
  obtain ⟨bu, hbu, hubu⟩ := List.mem_flatten.1 hu
  obtain ⟨i, hibu⟩ := List.get?_of_mem hbu
  have hilt : i < j := by
    have hlen : i < (gs.take j).length := by
      by_contra hc
      push_neg at hc
      rw [List.get?_eq_none.2 hc] at hibu
      exact absurd hibu (by simp)
    rw [List.length_take] at hlen
    omega
  refine ⟨i, j, hilt, ⟨bu, ?_, hubu⟩, ⟨b, hjb, hvb⟩⟩
  rw [← List.get?_take hilt]
  exact hibu


/-- `_bfs_topological_sort` with `return_type='nodes'` on a Python dict whose
canonical graph is acyclic: it returns a flat key permutation in which every
edge source precedes its target (both with and without `sort_groups`). -/
theorem bfs_nodes_master [LinearOrder NT] (pyTruthy : NT → Bool)
    (asStr : NT → Option String) (graph : List (NT × List NT)) (gt : String)
    (sg : Bool) (hg : PyDict graph) (hacy : Acyclic (canonical graph gt)) :
    ∃ l, bfs_topological_sort pyTruthy asStr graph "nodes" sg gt =
        .ok (.nodes l) ∧
      l.Perm (dkeys (canonical graph gt)) ∧
      ∀ u v, EdgeOf (canonical graph gt) u v → Before l u v := by
  obtain ⟨hGnd, hind0, hGcl⟩ := canonical_facts graph gt hg
  have hind : ∀ v, canonInd graph gt v =
      (inDegAll (canonical graph gt) v : Int) := hind0
  have hK0 : KahnInv (canonical graph gt) (canonQueue graph gt)
      (canonInd graph gt) [] := kahn_init (canonInd graph gt) hGnd hind
  have hmeas : bfsMeasure (canonical graph gt) [] (canonQueue graph gt) ≤
      (canonical graph gt).length + (canonQueue graph gt).length + 2 :=
    bfsMeasure_init_le _
  cases sg with
  | false =>
    obtain ⟨hr2, hperm, hord⟩ := nodeGen_master pyTruthy asStr hGnd hGcl hacy
      recLimit ((canonical graph gt).length + (canonQueue graph gt).length + 2)
      (canonQueue graph gt) (canonInd graph gt) [] hK0 hmeas
    have hperm' : (nodeGenRun pyTruthy asStr (canonical graph gt) recLimit
        ((canonical graph gt).length + (canonQueue graph gt).length + 2)
        (canonQueue graph gt) (canonInd graph gt) []).1.Perm
        (dkeys (canonical graph gt)) := by simpa using hperm
    have hord' : PredsBefore (canonical graph gt)
        (nodeGenRun pyTruthy asStr (canonical graph gt) recLimit
          ((canonical graph gt).length + (canonQueue graph gt).length + 2)
          (canonQueue graph gt) (canonInd graph gt) []).1 := by
      simpa using hord
    have hdrain : generatorDrain pyTruthy asStr graph "nodes" false gt =
        (Sum.inl (nodeGenRun pyTruthy asStr (canonical graph gt) recLimit
          ((canonical graph gt).length + (canonQueue graph gt).length + 2)
          (canonQueue graph gt) (canonInd graph gt) []).1,
         (nodeGenRun pyTruthy asStr (canonical graph gt) recLimit
          ((canonical graph gt).length + (canonQueue graph gt).length + 2)
          (canonQueue graph gt) (canonInd graph gt) []).2) := rfl
    refine ⟨_, ?_, hperm', ?_⟩
    · rw [show bfs_topological_sort pyTruthy asStr graph "nodes" false gt =
          (match generatorDrain pyTruthy asStr graph "nodes" false gt with
           | (_, some e) => Except.error e
           | (Sum.inl l, none) => Except.ok (TSResult.nodes l)
           | (Sum.inr l, none) => Except.ok (TSResult.groups l)) from rfl,
        hdrain, hr2]
    · intro u v hedge
      exact before_of_predsBefore hord' hedge
        (hperm'.mem_iff.2 (hGcl u v hedge))
  | true =>
    have hGI : GroupInv (canonical graph gt) [] (canonQueue graph gt)
        (canonInd graph gt) [] [] [] := by
      refine ⟨?_, by simp, ?_, by simp, by simp, ?_⟩
      · rw [List.append_nil]
        exact hK0
      · intro v hv u hedge
        exfalso
        have h1 := (List.mem_filter.1 hv).2
        simp only [decide_eq_true_eq] at h1
        have h2 := hind v
        have h3 := edge_target_pos hedge
        omega
      · intro i b hib
        simp at hib
    have hmeas' : bfsMeasure (canonical graph gt) []
        (canonQueue graph gt ++ []) ≤
        (canonical graph gt).length + (canonQueue graph gt).length + 2 := by
      rw [List.append_nil]
      exact hmeas
    obtain ⟨hr2, hperm, hord⟩ := groupGen_master pyTruthy asStr true hGnd hGcl
      hacy recLimit
      ((canonical graph gt).length + (canonQueue graph gt).length + 2)
      (canonQueue graph gt) (canonInd graph gt) [] [] [] [] hGI
      (fun _ => ⟨rfl, rfl⟩) hmeas'
    have hperm' : (groupGenRun pyTruthy asStr true (canonical graph gt)
        recLimit
        ((canonical graph gt).length + (canonQueue graph gt).length + 2)
        (canonQueue graph gt) (canonInd graph gt) [] [] []).1.flatten.Perm
        (dkeys (canonical graph gt)) := by simpa using hperm
    have hord' : ∀ i b, (groupGenRun pyTruthy asStr true (canonical graph gt)
        recLimit
        ((canonical graph gt).length + (canonQueue graph gt).length + 2)
        (canonQueue graph gt) (canonInd graph gt) [] [] []).1.get? i =
          some b →
        ∀ v ∈ b, ∀ u, EdgeOf (canonical graph gt) u v →
          u ∈ ((groupGenRun pyTruthy asStr true (canonical graph gt) recLimit
            ((canonical graph gt).length + (canonQueue graph gt).length + 2)
            (canonQueue graph gt) (canonInd graph gt) [] [] []).1.take
              i).flatten := by
      intro i b hib v hv u hedge
      have := hord i b (by simpa using hib) v hv u hedge
      simpa using this
    have hndflat := hperm'.nodup_iff.2 hGnd
    have hdrain : generatorDrain pyTruthy asStr graph "nodes" true gt =
        (Sum.inl (groupGenRun pyTruthy asStr true (canonical graph gt)
          recLimit
          ((canonical graph gt).length + (canonQueue graph gt).length + 2)
          (canonQueue graph gt) (canonInd graph gt) [] [] []).1.flatten,
         (groupGenRun pyTruthy asStr true (canonical graph gt) recLimit
          ((canonical graph gt).length + (canonQueue graph gt).length + 2)
          (canonQueue graph gt) (canonInd graph gt) [] [] []).2) := rfl
    refine ⟨_, ?_, hperm', ?_⟩
    · rw [show bfs_topological_sort pyTruthy asStr graph "nodes" true gt =
          (match generatorDrain pyTruthy asStr graph "nodes" true gt with
           | (_, some e) => Except.error e
           | (Sum.inl l, none) => Except.ok (TSResult.nodes l)
           | (Sum.inr l, none) => Except.ok (TSResult.groups l)) from rfl,
        hdrain, hr2]
    · intro u v hedge
      exact before_flatten_of_batchOrder _ hndflat hord' hedge
        (hperm'.mem_iff.2 (hGcl u v hedge))

/-- `_bfs_topological_sort` with `return_type='groups'` on a Python dict
whose canonical graph is acyclic: it returns batches flattening to a key
permutation in which every edge source lies in a strictly earlier batch than
its target. -/
theorem bfs_groups_master [LinearOrder NT] (pyTruthy : NT → Bool)
    (asStr : NT → Option String) (graph : List (NT × List NT)) (gt : String)
    (sg : Bool) (hg : PyDict graph) (hacy : Acyclic (canonical graph gt)) :
    ∃ gs, bfs_topological_sort pyTruthy asStr graph "groups" sg gt =
        .ok (.groups gs) ∧
      gs.flatten.Perm (dkeys (canonical graph gt)) ∧
      ∀ u v, EdgeOf (canonical graph gt) u v → GroupsBefore gs u v := by
  obtain ⟨hGnd, hind0, hGcl⟩ := canonical_facts graph gt hg
  have hind : ∀ v, canonInd graph gt v =
      (inDegAll (canonical graph gt) v : Int) := hind0
  have hK0 : KahnInv (canonical graph gt) (canonQueue graph gt)
      (canonInd graph gt) [] := kahn_init (canonInd graph gt) hGnd hind
  have hGI : GroupInv (canonical graph gt) [] (canonQueue graph gt)
      (canonInd graph gt) [] [] [] := by
    refine ⟨?_, by simp, ?_, by simp, by simp, ?_⟩
    · rw [List.append_nil]
      exact hK0
    · intro v hv u hedge
      exfalso
      have h1 := (List.mem_filter.1 hv).2
      simp only [decide_eq_true_eq] at h1
      have h2 := hind v
      have h3 := edge_target_pos hedge
      omega
    · intro i b hib
      simp at hib
  have hmeas' : bfsMeasure (canonical graph gt) []
      (canonQueue graph gt ++ []) ≤
      (canonical graph gt).length + (canonQueue graph gt).length + 2 := by
    rw [List.append_nil]
    exact bfsMeasure_init_le _
  obtain ⟨hr2, hperm, hord⟩ := groupGen_master pyTruthy asStr sg hGnd hGcl
    hacy recLimit
    ((canonical graph gt).length + (canonQueue graph gt).length + 2)
    (canonQueue graph gt) (canonInd graph gt) [] [] [] [] hGI
    (fun _ => ⟨rfl, rfl⟩) hmeas'
  have hperm' : (groupGenRun pyTruthy asStr sg (canonical graph gt) recLimit
      ((canonical graph gt).length + (canonQueue graph gt).length + 2)
      (canonQueue graph gt) (canonInd graph gt) [] [] []).1.flatten.Perm
      (dkeys (canonical graph gt)) := by simpa using hperm
  have hord' : ∀ i b, (groupGenRun pyTruthy asStr sg (canonical graph gt)
      recLimit
      ((canonical graph gt).length + (canonQueue graph gt).length + 2)
      (canonQueue graph gt) (canonInd graph gt) [] [] []).1.get? i = some b →
      ∀ v ∈ b, ∀ u, EdgeOf (canonical graph gt) u v →
        u ∈ ((groupGenRun pyTruthy asStr sg (canonical graph gt) recLimit
          ((canonical graph gt).length + (canonQueue graph gt).length + 2)
          (canonQueue graph gt) (canonInd graph gt) [] [] []).1.take
            i).flatten := by
    intro i b hib v hv u hedge
    have := hord i b (by simpa using hib) v hv u hedge
    simpa using this
  have hdrain : generatorDrain pyTruthy asStr graph "groups" sg gt =
      (Sum.inr (groupGenRun pyTruthy asStr sg (canonical graph gt) recLimit
        ((canonical graph gt).length + (canonQueue graph gt).length + 2)
        (canonQueue graph gt) (canonInd graph gt) [] [] []).1,
       (groupGenRun pyTruthy asStr sg (canonical graph gt) recLimit
        ((canonical graph gt).length + (canonQueue graph gt).length + 2)
        (canonQueue graph gt) (canonInd graph gt) [] [] []).2) := rfl
  refine ⟨_, ?_, hperm', ?_⟩
  · rw [show bfs_topological_sort pyTruthy asStr graph "groups" sg gt =
        (match generatorDrain pyTruthy asStr graph "groups" sg gt with
         | (_, some e) => Except.error e
         | (Sum.inl l, none) => Except.ok (TSResult.nodes l)
         | (Sum.inr l, none) => Except.ok (TSResult.groups l)) from rfl,
      hdrain, hr2]
  · intro u v hedge
    exact groupsBefore_of_batchOrder _ hord' hedge
      (hperm'.mem_iff.2 (hGcl u v hedge))


/-- C1: for every Python-dict input whose canonical graph is acyclic, every
valid graph_type, both methods, and every sort_groups choice compatible with
the method (dfs rejects sort_groups), the flat `return_type='nodes'` result
of `topological_sort` exists and is a permutation of the canonical node set
(the canonical graph's keys): no duplicates, no omissions. -/
theorem C1_flat_permutation [LinearOrder NT] (pyTruthy : NT → Bool)
    (asStr : NT → Option String) (graph : List (NT × List NT))
    (method graph_type : String) (sort_groups : Bool) (hg : PyDict graph)
    (hgt : graph_type = "edges" ∨ graph_type = "dependencies")
    (hm : method = "bfs" ∨ method = "dfs")
    (hsg : method = "dfs" → sort_groups = false)
    (hacy : Acyclic (canonical graph graph_type)) :
    ∃ l, topological_sort pyTruthy asStr graph method "nodes" sort_groups
        graph_type = .ok (.nodes l) ∧
      l.Perm (dkeys (canonical graph graph_type)) := by
  rcases hm with hm | hm
  · subst hm
    rcases hgt with hgt | hgt
    · subst hgt
      obtain ⟨l, hok, hperm, _⟩ :=
        bfs_nodes_master pyTruthy asStr graph "edges" sort_groups hg hacy
      refine ⟨l, ?_, hperm⟩
      rw [show topological_sort pyTruthy asStr graph "bfs" "nodes" sort_groups
          "edges" =
          bfs_topological_sort pyTruthy asStr graph "nodes" sort_groups
            "edges" from rfl]
      exact hok
    · subst hgt
      obtain ⟨l, hok, hperm, _⟩ :=
        bfs_nodes_master pyTruthy asStr graph "dependencies" sort_groups hg
          hacy
      refine ⟨l, ?_, hperm⟩
      rw [show topological_sort pyTruthy asStr graph "bfs" "nodes" sort_groups
          "dependencies" =
          bfs_topological_sort pyTruthy asStr graph "nodes" sort_groups
            "dependencies" from rfl]
      exact hok
  · subst hm
    have hsg' := hsg rfl
    subst hsg'
    rcases hgt with hgt | hgt
    · subst hgt
      obtain ⟨hGnd, _, hGcl⟩ := canonical_facts graph "edges" hg
      obtain ⟨l, hok, hperm, _⟩ :=
        dfs_sort_master pyTruthy asStr graph "edges" hGnd hGcl hacy
      refine ⟨l, ?_, hperm⟩
      rw [show topological_sort pyTruthy asStr graph "dfs" "nodes" false
          "edges" =
          (match dfs_topological_sort pyTruthy asStr graph "edges" with
           | Except.error e => Except.error e
           | Except.ok l2 => Except.ok (TSResult.nodes l2)) from rfl, hok]
    · subst hgt
      obtain ⟨hGnd, _, hGcl⟩ := canonical_facts graph "dependencies" hg
      obtain ⟨l, hok, hperm, _⟩ :=
        dfs_sort_master pyTruthy asStr graph "dependencies" hGnd hGcl hacy
      refine ⟨l, ?_, hperm⟩
      rw [show topological_sort pyTruthy asStr graph "dfs" "nodes" false
          "dependencies" =
          (match dfs_topological_sort pyTruthy asStr graph "dependencies" with
           | Except.error e => Except.error e
           | Except.ok l2 => Except.ok (TSResult.nodes l2)) from rfl, hok]

/-- Witness for C1 at the spec's concrete scenario graph: the bfs flat call
succeeds and permutes the canonical keys (the rank function `tRank` certifies
acyclicity). -/
theorem C1_flat_permutation_witness :
    ∃ l, topological_sort strTruthy strAsStr tGraph "bfs" "nodes" false
        "edges" = .ok (.nodes l) ∧
      l.Perm (dkeys (canonical tGraph "edges")) :=
  C1_flat_permutation strTruthy strAsStr tGraph "bfs" "edges" false
    (by unfold PyDict; decide) (Or.inl rfl) (Or.inl rfl) (fun _ => rfl)
    (acyclic_of_rank _ tRank (by unfold RankOk; decide))

/-- C2: for every Python-dict input whose canonical graph is acyclic and
every valid graph_type: in every flat `return_type='nodes'` result of
`topological_sort` (either method; dfs without sort_groups), each canonical
edge's source appears strictly before its target; and in every
`return_type='groups'` (bfs) result, the source's batch index is strictly
less than the target's. -/
theorem C2_edge_order [LinearOrder NT] (pyTruthy : NT → Bool)
    (asStr : NT → Option String) (graph : List (NT × List NT))
    (graph_type : String) (hg : PyDict graph)
    (hgt : graph_type = "edges" ∨ graph_type = "dependencies")
    (hacy : Acyclic (canonical graph graph_type)) :
    (∀ (method : String) (sort_groups : Bool),
      (method = "bfs" ∨ method = "dfs") →
      (method = "dfs" → sort_groups = false) →
      ∃ l, topological_sort pyTruthy asStr graph method "nodes" sort_groups
          graph_type = .ok (.nodes l) ∧
        ∀ u v, EdgeOf (canonical graph graph_type) u v → Before l u v) ∧
    (∀ sort_groups : Bool,
      ∃ gs, topological_sort pyTruthy asStr graph "bfs" "groups" sort_groups
          graph_type = .ok (.groups gs) ∧
        ∀ u v, EdgeOf (canonical graph graph_type) u v →
          GroupsBefore gs u v) := by
  constructor
  · intro method sort_groups hm hsg
    rcases hm with hm | hm
    · subst hm
      rcases hgt with hgt | hgt
      · subst hgt
        obtain ⟨l, hok, _, hbef⟩ :=
          bfs_nodes_master pyTruthy asStr graph "edges" sort_groups hg hacy
        refine ⟨l, ?_, hbef⟩
        rw [show topological_sort pyTruthy asStr graph "bfs" "nodes"
            sort_groups "edges" =
            bfs_topological_sort pyTruthy asStr graph "nodes" sort_groups
              "edges" from rfl]
        exact hok
      · subst hgt
        obtain ⟨l, hok, _, hbef⟩ :=
          bfs_nodes_master pyTruthy asStr graph "dependencies" sort_groups hg
            hacy
        refine ⟨l, ?_, hbef⟩
        rw [show topological_sort pyTruthy asStr graph "bfs" "nodes"
            sort_groups "dependencies" =
            bfs_topological_sort pyTruthy asStr graph "nodes" sort_groups
              "dependencies" from rfl]
        exact hok
    · subst hm
      have hsg' := hsg rfl
      subst hsg'
      rcases hgt with hgt | hgt
      · subst hgt
        obtain ⟨hGnd, _, hGcl⟩ := canonical_facts graph "edges" hg
        obtain ⟨l, hok, _, hbef⟩ :=
          dfs_sort_master pyTruthy asStr graph "edges" hGnd hGcl hacy
        refine ⟨l, ?_, hbef⟩
        rw [show topological_sort pyTruthy asStr graph "dfs" "nodes" false
            "edges" =
            (match dfs_topological_sort pyTruthy asStr graph "edges" with
             | Except.error e => Except.error e
             | Except.ok l2 => Except.ok (TSResult.nodes l2)) from rfl, hok]
      · subst hgt
        obtain ⟨hGnd, _, hGcl⟩ := canonical_facts graph "dependencies" hg
        obtain ⟨l, hok, _, hbef⟩ :=
          dfs_sort_master pyTruthy asStr graph "dependencies" hGnd hGcl hacy
        refine ⟨l, ?_, hbef⟩
        rw [show topological_sort pyTruthy asStr graph "dfs" "nodes" false
            "dependencies" =
            (match dfs_topological_sort pyTruthy asStr graph "dependencies"
              with
             | Except.error e => Except.error e
             | Except.ok l2 => Except.ok (TSResult.nodes l2)) from rfl, hok]
  · intro sort_groups
    rcases hgt with hgt | hgt
    · subst hgt
      obtain ⟨gs, hok, _, hgb⟩ :=
        bfs_groups_master pyTruthy asStr graph "edges" sort_groups hg hacy
      refine ⟨gs, ?_, hgb⟩
      rw [show topological_sort pyTruthy asStr graph "bfs" "groups"
          sort_groups "edges" =
          bfs_topological_sort pyTruthy asStr graph "groups" sort_groups
            "edges" from rfl]
      exact hok
    · subst hgt
      obtain ⟨gs, hok, _, hgb⟩ :=
        bfs_groups_master pyTruthy asStr graph "dependencies" sort_groups hg
          hacy
      refine ⟨gs, ?_, hgb⟩
      rw [show topological_sort pyTruthy asStr graph "bfs" "groups"
          sort_groups "dependencies" =
          bfs_topological_sort pyTruthy asStr graph "groups" sort_groups
            "dependencies" from rfl]
      exact hok

/-- Witness for C2 at the spec's concrete scenario graph: the bfs flat and
groups calls succeed with the claimed edge orderings. -/
theorem C2_edge_order_witness :
    (∃ l, topological_sort strTruthy strAsStr tGraph "bfs" "nodes" false
        "edges" = .ok (.nodes l) ∧
      ∀ u v, EdgeOf (canonical tGraph "edges") u v → Before l u v) ∧
    (∃ gs, topological_sort strTruthy strAsStr tGraph "bfs" "groups" false
        "edges" = .ok (.groups gs) ∧
      ∀ u v, EdgeOf (canonical tGraph "edges") u v → GroupsBefore gs u v) := by
  have h := C2_edge_order strTruthy strAsStr tGraph "edges"
    (by unfold PyDict; decide) (Or.inl rfl)
    (acyclic_of_rank _ tRank (by unfold RankOk; decide))
  exact ⟨h.1 "bfs" false (Or.inl rfl) (fun _ => rfl), h.2 false⟩


end ChobTools
